import Mathlib

/-!
colorjson: a character-level JSON classifier.

A shallow embedding of `main.go` of `tscholl2/colorjson`.

* The `strings.Reader` the scanner reads from is a byte string with a cursor `i` and the
  `prevRune` field that `UnreadRune` consults; `ReadRune`, `UnreadRune` and `Read` follow the
  Go standard library, UTF-8 decoding included.
* The callback `fn` is the list of tokens it was called with, in call order.
* A Go `error` is `Option Err`; `none` is `nil`.
* Every `for` loop is a recursive function with fuel.  The loops of `parseWhitespace`,
  `parseNumber` and `parseString` take the number of unread bytes as fuel, the mutually
  recursive productions take the fuel `Parse` computes from the length of the source.
  A result `none` means that the fuel ran out.
* A text is a `List Char`; the source for the text `s` is `NewReader (utf8 s)`.
* `Print` writes to a writer that takes every byte; `fmt.Fprintf` is modelled for a call
  without operands, as far as the formats of `Print` go (`doPrintf`).

The statements use three tools: `Yields`, to follow the scanner along a text of known shape;
`ScanInvariant` with `scan_invariant`, an induction principle for relations between the
reader before a production and its outcome; and its instances: `Tracks` relates the emitted
tokens to the text read, `Kinds` the character of a token to its category, `Shrinks` the
unread bytes before and after.
-/

namespace colorjson

/-! ## Data model -/

/-- TokenType represents the different types of JSON types (`iota` order of the source). -/
inductive TokenType where
  | ArrayType
  | ObjectType
  | NumberType
  | BoolType
  | StringType
  | NullType
deriving DecidableEq, Repr

open TokenType

/-- Token contains the current rune and what its type is. -/
structure Token where
  Rune : Nat
  Typ : TokenType
deriving DecidableEq, Repr

/-- The error values the package can return. `EOF` is `io.EOF`, `New` is `errors.New`,
`Errorf got expected` is `fmt.Errorf("unexpected '%s', expected '%s", got, expected)` and
`Wrapf cause msg` is `errors.Wrapf(cause, msg)`. -/
inductive Err where
  | EOF
  | New (msg : String)
  | Errorf (got : List Nat) (expected : String)
  | Wrapf (cause : Err) (msg : String)
deriving DecidableEq, Repr

/-! ## UTF-8 (package `unicode/utf8`) -/

/-- The value of `utf8.RuneError`, U+FFFD. -/
def RuneError : Nat := 0xFFFD

/-- The tables `first` and `acceptRanges` of `unicode/utf8` for a lead byte that is not ASCII:
the length of the sequence and the accepted range of its second byte, `none` for an invalid
lead byte. -/
def first (b : Nat) : Option (Nat × Nat × Nat) :=
  if b < 0xC2 then none
  else if b < 0xE0 then some (2, 0x80, 0xBF)
  else if b = 0xE0 then some (3, 0xA0, 0xBF)
  else if b < 0xED then some (3, 0x80, 0xBF)
  else if b = 0xED then some (3, 0x80, 0x9F)
  else if b < 0xF0 then some (3, 0x80, 0xBF)
  else if b = 0xF0 then some (4, 0x90, 0xBF)
  else if b < 0xF4 then some (4, 0x80, 0xBF)
  else if b = 0xF4 then some (4, 0x80, 0x8F)
  else none

/-- The function `utf8.DecodeRuneInString`: the first rune of `s` and its width in bytes;
`(RuneError, 0)` for the empty string and `(RuneError, 1)` for an invalid encoding. -/
def DecodeRuneInString (s : List Nat) : Nat × Nat :=
  match s with
  | [] => (RuneError, 0)
  | s0 :: _ =>
    if s0 < 0x80 then (s0, 1)
    else
      match first s0 with
      | none => (RuneError, 1)
      | some (sz, lo, hi) =>
        if s.length < sz then (RuneError, 1)
        else
          let s1 := s.getD 1 0
          if s1 < lo ∨ hi < s1 then (RuneError, 1)
          else if sz ≤ 2 then ((s0 % 32) * 64 + s1 % 64, 2)
          else
            let s2 := s.getD 2 0
            if s2 < 0x80 ∨ 0xBF < s2 then (RuneError, 1)
            else if sz ≤ 3 then ((s0 % 16) * 4096 + (s1 % 64) * 64 + s2 % 64, 3)
            else
              let s3 := s.getD 3 0
              if s3 < 0x80 ∨ 0xBF < s3 then (RuneError, 1)
              else ((s0 % 8) * 262144 + (s1 % 64) * 4096 + (s2 % 64) * 64 + s3 % 64, 4)

/-- The conversion `string(r)` of a rune (and `utf8.AppendRune`): the UTF-8 encoding of `r`,
that of U+FFFD for a surrogate or a value out of range. -/
def EncodeRune (r : Nat) : List Nat :=
  if r < 0x80 then [r]
  else if r < 0x800 then [0xC0 + r / 64, 0x80 + r % 64]
  else if (0xD800 ≤ r ∧ r ≤ 0xDFFF) ∨ 0x10FFFF < r then [0xEF, 0xBF, 0xBD]
  else if r < 0x10000 then [0xE0 + r / 4096, 0x80 + (r / 64) % 64, 0x80 + r % 64]
  else [0xF0 + r / 262144, 0x80 + (r / 4096) % 64, 0x80 + (r / 64) % 64, 0x80 + r % 64]

/-- The bytes of a text: the concatenation of the encodings of its characters. -/
def utf8 (cs : List Char) : List Nat :=
  match cs with
  | [] => []
  | c :: cs => EncodeRune c.toNat ++ utf8 cs

/-! ## The source (`strings.Reader`) -/

/-- A `strings.Reader`: the string `s`, the reading index `i` and `prevRune`, the index of the
previous rune or a negative number. -/
structure Reader where
  s : List Nat
  i : Nat
  prevRune : Int
deriving DecidableEq, Repr

/-- The function `strings.NewReader`. -/
def NewReader (s : List Nat) : Reader := { s := s, i := 0, prevRune := -1 }

/-- The part of the string that has not been read: `r.s[r.i:]`. -/
def Reader.unread (r : Reader) : List Nat := r.s.drop r.i

/-- The method `ReadRune`: the rune, its size, the error and the reader afterwards. -/
def Reader.ReadRune (r : Reader) : Nat × Nat × Option Err × Reader :=
  if r.s.length ≤ r.i then (0, 0, some Err.EOF, { r with prevRune := -1 })
  else
    let c := r.s.getD r.i 0
    if c < 0x80 then (c, 1, none, { r with i := r.i + 1, prevRune := r.i })
    else
      let d := DecodeRuneInString (r.s.drop r.i)
      (d.1, d.2, none, { r with i := r.i + d.2, prevRune := r.i })

/-- The method `UnreadRune`; its error result carries no information the package looks at and
is a `Bool` here (`true` for an error). -/
def Reader.UnreadRune (r : Reader) : Bool × Reader :=
  if r.i ≤ 0 then (true, r)
  else if r.prevRune < 0 then (true, r)
  else (false, { r with i := r.prevRune.toNat, prevRune := -1 })

/-- The method `Read` into a fresh buffer `make([]byte, n)`: the buffer afterwards, the number
of bytes read, the error and the reader afterwards. -/
def Reader.Read (r : Reader) (n : Nat) : List Nat × Nat × Option Err × Reader :=
  if r.s.length ≤ r.i then (List.replicate n 0, 0, some Err.EOF, r)
  else
    let got := (r.s.drop r.i).take n
    (got ++ List.replicate (n - got.length) 0, got.length, none,
      { r with i := r.i + got.length, prevRune := -1 })

/-- The function `peek`: read a rune, unread it, return the rune (0 at the end of the source). -/
def peek (reader : Reader) : Nat × Reader :=
  let x := reader.ReadRune
  (x.1, (x.2.2.2.UnreadRune).2)

/-! ## The scanner -/

/-- What a production leaves behind: the error it returns, the tokens it has passed to `fn`
and the reader. -/
structure Out where
  err : Option Err
  toks : List Token
  reader : Reader
deriving DecidableEq, Repr

/-- The tokens `ts` were passed to `fn` before the call that gave `o`. -/
def Out.emitFirst (ts : List Token) (o : Out) : Out := { o with toks := ts ++ o.toks }

/-- The idiom `if err := f(); err != nil { return err }` followed by the rest `k` of the body. -/
def Out.andThen (o : Out) (k : Reader → Option Out) : Option Out :=
  match o.err with
  | some _ => some o
  | none => (k o.reader).map (Out.emitFirst o.toks)

/-- The function `unexpected`. -/
def unexpected (got : List Nat) (expected : String) : Err :=
  Err.Wrapf (Err.Errorf got expected) "syntax"

/-- The function `parseLiteral`. -/
def parseLiteral (reader : Reader) (t : TokenType) (literal : String) : Out :=
  let x := reader.Read (utf8 literal.data).length
  match x.2.2.1 with
  | some e => { err := some e, toks := [], reader := x.2.2.2 }
  | none =>
    if x.1 = utf8 literal.data then
      { err := none, toks := literal.data.map (fun c => { Rune := c.toNat, Typ := t }),
        reader := x.2.2.2 }
    else { err := some (unexpected x.1 literal), toks := [], reader := x.2.2.2 }

/-- The loop of `parseWhitespace`. -/
def whitespaceLoop (fuel : Nat) (reader : Reader) (t : TokenType) : Option Out :=
  let p := peek reader
  if p.1 = 32 ∨ p.1 = 10 ∨ p.1 = 9 then
    match fuel with
    | 0 => none
    | fuel + 1 =>
      let x := p.2.ReadRune
      match x.2.2.1 with
      | some e => some { err := some e, toks := [], reader := x.2.2.2 }
      | none =>
        (whitespaceLoop fuel x.2.2.2 t).map (Out.emitFirst [{ Rune := p.1, Typ := t }])
  else some { err := none, toks := [], reader := p.2 }

/-- The function `parseWhitespace`. -/
def parseWhitespace (reader : Reader) (t : TokenType) : Option Out :=
  whitespaceLoop reader.unread.length reader t

/-- The set `"0123456789.-eE"` of `parseNumber`, as `strings.ContainsRune` tests it. -/
def numberRune (r : Nat) : Bool := r ∈ utf8 "0123456789.-eE".data

/-- The loop of `parseNumber`; `err` is the named result. -/
def numberLoop (fuel : Nat) (reader : Reader) (err : Option Err) : Option Out :=
  match err with
  | some e => some { err := some e, toks := [], reader := reader }
  | none =>
    let p := peek reader
    if numberRune p.1 then
      match fuel with
      | 0 => none
      | fuel + 1 =>
        let x := p.2.ReadRune
        (numberLoop fuel x.2.2.2 x.2.2.1).map (Out.emitFirst [{ Rune := x.1, Typ := NumberType }])
    else some { err := none, toks := [], reader := p.2 }

/-- The function `parseNumber`. -/
def parseNumber (reader : Reader) : Option Out :=
  numberLoop reader.unread.length reader none

/-- The loop of `parseString`; `r` is the rune read last (0 before the first). -/
def stringLoop (fuel : Nat) (reader : Reader) (r : Nat) : Option Out :=
  let p := peek reader
  if p.1 ≠ 34 ∨ r = 92 then
    match fuel with
    | 0 =>
      let x := p.2.ReadRune
      match x.2.2.1 with
      | some e => some { err := some (Err.Wrapf e "str:"), toks := [], reader := x.2.2.2 }
      | none => none
    | fuel + 1 =>
      let x := p.2.ReadRune
      match x.2.2.1 with
      | some e => some { err := some (Err.Wrapf e "str:"), toks := [], reader := x.2.2.2 }
      | none =>
        (stringLoop fuel x.2.2.2 x.1).map (Out.emitFirst [{ Rune := x.1, Typ := StringType }])
  else some (parseLiteral p.2 StringType "\"")

/-- The function `parseString`. -/
def parseString (reader : Reader) : Option Out :=
  (parseLiteral reader StringType "\"").andThen fun reader =>
    stringLoop reader.unread.length reader 0

/-- The function `parseBool`. -/
def parseBool (reader : Reader) : Out :=
  let p := peek reader
  if p.1 ≠ 116 ∧ p.1 ≠ 102 then
    { err := some (unexpected (EncodeRune p.1) "t, f"), toks := [], reader := p.2 }
  else
    let q := peek p.2
    if q.1 = 116 then parseLiteral q.2 BoolType "true"
    else parseLiteral q.2 BoolType "false"

/-- The function `parseNull`. -/
def parseNull (reader : Reader) : Out :=
  parseLiteral reader NullType "null"

/-- The optional separator of `parseObject` and `parseArray`:
`if peek(reader) == ',' { parseLiteral(reader, t, fn, ",") }`, the error discarded. -/
def parseComma (reader : Reader) (t : TokenType) : Out :=
  let p := peek reader
  if p.1 = 44 then { parseLiteral p.2 t "," with err := none }
  else { err := none, toks := [], reader := p.2 }

mutual

/-- The function `parseValue`. -/
def parseValue : Nat → Reader → Option Out
  | 0, _ => none
  | fuel + 1, reader =>
    let p := peek reader
    if p.1 = 34 then parseString p.2
    else if (48 ≤ p.1 ∧ p.1 ≤ 57) ∨ p.1 = 45 then parseNumber p.2
    else if p.1 = 91 then parseArray fuel p.2
    else if p.1 = 116 ∨ p.1 = 102 then some (parseBool p.2)
    else if p.1 = 110 then some (parseNull p.2)
    else if p.1 = 123 then parseObject fuel p.2
    else some { err := some (Err.New "unknown type"), toks := [], reader := p.2 }

/-- The function `parseObject`. -/
def parseObject : Nat → Reader → Option Out
  | 0, _ => none
  | fuel + 1, reader =>
    (parseLiteral reader ObjectType "\x7b").andThen fun reader => objectLoop fuel reader

/-- The loop of `parseObject` and the closing brace after it. -/
def objectLoop : Nat → Reader → Option Out
  | 0, _ => none
  | fuel + 1, reader =>
    let p := peek reader
    if p.1 ≠ 125 then
      (parseWhitespace p.2 ObjectType).bind fun o => o.andThen fun reader =>
      (parseString reader).bind fun o => o.andThen fun reader =>
      (parseWhitespace reader ObjectType).bind fun o => o.andThen fun reader =>
      (parseLiteral reader ObjectType ":").andThen fun reader =>
      (parseWhitespace reader ObjectType).bind fun o => o.andThen fun reader =>
      (parseValue fuel reader).bind fun o => o.andThen fun reader =>
      (parseComma reader ObjectType).andThen fun reader =>
      (parseWhitespace reader ObjectType).bind fun o => o.andThen fun reader =>
      objectLoop fuel reader
    else some (parseLiteral p.2 ObjectType "\x7d")

/-- The function `parseArray`. -/
def parseArray : Nat → Reader → Option Out
  | 0, _ => none
  | fuel + 1, reader =>
    (parseLiteral reader ArrayType "[").andThen fun reader => arrayLoop fuel reader

/-- The loop of `parseArray` and the closing bracket after it. -/
def arrayLoop : Nat → Reader → Option Out
  | 0, _ => none
  | fuel + 1, reader =>
    let p := peek reader
    if p.1 ≠ 93 then
      (parseWhitespace p.2 ArrayType).bind fun o => o.andThen fun reader =>
      (parseValue fuel reader).bind fun o => o.andThen fun reader =>
      (parseWhitespace reader ArrayType).bind fun o => o.andThen fun reader =>
      (parseComma reader ArrayType).andThen fun reader =>
      (parseWhitespace reader ArrayType).bind fun o => o.andThen fun reader =>
      arrayLoop fuel reader
    else some (parseLiteral p.2 ArrayType "]")

end

/-- The function `Parse`, on the reader `s`. The fuel, three units for each unread byte and
three more. -/
def Parse (s : Reader) : Option Out :=
  parseValue (3 * s.unread.length + 3) s

/-! ## Auxiliary definitions for the statements -/

/-- The reader `n` bytes further on, as a production that succeeds leaves it. -/
def Reader.adv (r : Reader) (n : Nat) : Reader := { s := r.s, i := r.i + n, prevRune := -1 }

/-- The rune `ReadRune` returns on the unread bytes `bs`. -/
def firstRune (bs : List Nat) : Nat :=
  match bs with
  | [] => 0
  | b :: _ => if b < 0x80 then b else (DecodeRuneInString bs).1

/-- The size `ReadRune` returns on the unread bytes `bs`. -/
def firstSize (bs : List Nat) : Nat :=
  match bs with
  | [] => 0
  | b :: _ => if b < 0x80 then 1 else (DecodeRuneInString bs).2

/-- The tokens of the characters `cs`, all of type `t`. -/
def tokens (t : TokenType) (cs : List Char) : List Token :=
  cs.map fun c => { Rune := c.toNat, Typ := t }

/-- The source `Parse` is called on for the text `s`: `strings.NewReader(s)`. -/
def source (s : String) : Reader := NewReader (utf8 s.data)

/-- Space, newline or tab: the characters `parseWhitespace` skips. -/
def isSpace (c : Char) : Bool := c.toNat = 32 ∨ c.toNat = 10 ∨ c.toNat = 9

/-- The text `cs` is empty or starts with a character that does not satisfy `p`. -/
def stopsAt (p : Char → Bool) (cs : List Char) : Prop := ∀ c ∈ cs.head?, p c = false

/-- The double quote. -/
def dquote : Char := Char.ofNat 34

/-- The backslash. -/
def backslash : Char := Char.ofNat 92

/-- A character of the set `"0123456789.-eE"`. -/
def isNumberChar (c : Char) : Bool := numberRune c.toNat

/-- The buffer of `parseLiteral` after `Read`: the first `n` unread bytes, zeros after them. -/
def readBuf (n : Nat) (bs : List Nat) : List Nat :=
  bs.take n ++ List.replicate (n - (bs.take n).length) 0

/-- The characters of a literal of the source: ASCII and not NUL. -/
def plain (lit : List Char) : Prop := ∀ c ∈ lit, 0 < c.toNat ∧ c.toNat < 0x80

instance plainDecidable (lit : List Char) : Decidable (plain lit) :=
  inferInstanceAs (Decidable (∀ c ∈ lit, 0 < c.toNat ∧ c.toNat < 0x80))

/-- The word the scanner matches after the leading character `c`: `true` after `t`, `false`
after `f`, `null` after `n`, with the category of its tokens. -/
def keyword (lit : String) (t : TokenType) : Prop :=
  (lit = "true" ∧ t = BoolType) ∨ (lit = "false" ∧ t = BoolType) ∨ (lit = "null" ∧ t = NullType)

/-- The run `x` ends with the error `e` after emitting the tokens `ts`, the text `rest` unread. -/
def Yields (x : Option Out) (e : Option Err) (ts : List Token) (rest : List Char) : Prop :=
  ∃ r, x = some { err := e, toks := ts, reader := r } ∧ r.unread = utf8 rest

/-- The text of `d` opening brackets. -/
def opens (d : Nat) : List Char := List.replicate d (Char.ofNat 91)

/-- The text of `d` closing brackets. -/
def closes (d : Nat) : List Char := List.replicate d (Char.ofNat 93)

/-- A decimal digit. -/
def isDigit (c : Char) : Bool := 48 ≤ c.toNat ∧ c.toNat ≤ 57

/-- The texts `ns` separated by a comma and a space. -/
def commaSpaced : List (List Char) → List Char
  | [] => []
  | [n] => n
  | n :: m :: ns => n ++ ", ".data ++ commaSpaced (m :: ns)

/-- The token of a character in an array of numbers: Number for a digit, Array for the rest. -/
def numberOrArray (c : Char) : Token :=
  { Rune := c.toNat, Typ := if isDigit c then NumberType else ArrayType }

/-- The literals of the container productions with the category of their token. -/
def structural : List (TokenType × String) :=
  [(ObjectType, "\x7b"), (ObjectType, "\x7d"), (ObjectType, ":"), (ArrayType, "["),
   (ArrayType, "]")]

/-- What a relation `P` between the reader before a production and its outcome must satisfy
to hold of `parseValue`: it holds of every production that does not call `parseValue`, it
looks through `peek`, and it is kept by running one production after another. -/
structure ScanInvariant (P : Reader → Out → Prop) : Prop where
  peek : ∀ r o, P (peek r).2 o → P r o
  seq : ∀ r o o2, P r o → o.err = none → P o.reader o2 → P r (Out.emitFirst o.toks o2)
  literal : ∀ r p, p ∈ structural → P r (parseLiteral r p.1 p.2)
  whitespace : ∀ r t, (t = ObjectType ∨ t = ArrayType) →
    ∀ o, parseWhitespace r t = some o → P r o
  string : ∀ r o, parseString r = some o → P r o
  number : ∀ r o, ((48 ≤ firstRune r.unread ∧ firstRune r.unread ≤ 57) ∨
    firstRune r.unread = 45) → parseNumber r = some o → P r o
  bool : ∀ r, (firstRune r.unread = 116 ∨ firstRune r.unread = 102) → P r (parseBool r)
  null : ∀ r, firstRune r.unread = 110 → P r (parseNull r)
  comma : ∀ r t, (t = ObjectType ∨ t = ArrayType) → P r (parseComma r t)
  unknown : ∀ r, P r { err := some (Err.New "unknown type"), toks := [], reader := r }

/-- The outcome `o` of a production called on the reader `r` keeps track of the text: when
the unread part of `r` is the text `cs`, the characters of the emitted tokens are a prefix
`ts` of `cs`, the reader has moved over at least the bytes of `ts` in the same string, and
after a success it stands exactly behind `ts`. -/
def Tracks (r : Reader) (o : Out) : Prop :=
  ∀ cs : List Char, r.unread = utf8 cs →
    ∃ ts rest : List Char, cs = ts ++ rest ∧ o.toks.map Token.Rune = ts.map Char.toNat ∧
      (o.err = none → o.reader.unread = utf8 rest) ∧
      o.reader.s = r.s ∧ r.i + (utf8 ts).length ≤ o.reader.i

/-! ## The JSON grammar of RFC 8259, to state what a valid document is -/

/-- Insignificant whitespace: `ws = *( %x20 / %x09 / %x0A / %x0D )`. -/
def JsonWs (cs : List Char) : Prop :=
  ∀ c ∈ cs, c.toNat = 0x20 ∨ c.toNat = 0x09 ∨ c.toNat = 0x0A ∨ c.toNat = 0x0D

instance JsonWsDecidable (cs : List Char) : Decidable (JsonWs cs) :=
  inferInstanceAs (Decidable (∀ c ∈ cs,
    c.toNat = 0x20 ∨ c.toNat = 0x09 ∨ c.toNat = 0x0A ∨ c.toNat = 0x0D))

/-- One or more decimal digits: `1*DIGIT`. -/
def JsonDigits (cs : List Char) : Prop :=
  cs ≠ [] ∧ ∀ c ∈ cs, 0x30 ≤ c.toNat ∧ c.toNat ≤ 0x39

/-- The integer part: `int = zero / ( digit1-9 *DIGIT )`. -/
def JsonInt (cs : List Char) : Prop :=
  cs = "0".data ∨
    ∃ c ds, cs = c :: ds ∧ (0x31 ≤ c.toNat ∧ c.toNat ≤ 0x39) ∧
      ∀ d ∈ ds, 0x30 ≤ d.toNat ∧ d.toNat ≤ 0x39

/-- A number: `number = [ minus ] int [ frac ] [ exp ]`. -/
def JsonNumber (cs : List Char) : Prop :=
  ∃ sign int frac exp, cs = sign ++ int ++ frac ++ exp ∧
    (sign = [] ∨ sign = "-".data) ∧ JsonInt int ∧
    (frac = [] ∨ ∃ ds, frac = ".".data ++ ds ∧ JsonDigits ds) ∧
    (exp = [] ∨ ∃ e sg ds, exp = e ++ sg ++ ds ∧ (e = "e".data ∨ e = "E".data) ∧
      (sg = [] ∨ sg = "-".data ∨ sg = "+".data) ∧ JsonDigits ds)

/-- The characters between the quotes of a string: `*char`, with
`char = unescaped / escape ( ... )`. -/
inductive JsonChars : List Char → Prop where
  | nil : JsonChars []
  | unescaped (c : Char) (cs : List Char) :
      ((0x20 ≤ c.toNat ∧ c.toNat ≤ 0x21) ∨ (0x23 ≤ c.toNat ∧ c.toNat ≤ 0x5B) ∨
        (0x5D ≤ c.toNat ∧ c.toNat ≤ 0x10FFFF)) →
      JsonChars cs → JsonChars (c :: cs)
  | escape (c : Char) (cs : List Char) :
      c ∈ "\"\\/bfnrt".data → JsonChars cs → JsonChars (backslash :: c :: cs)
  | unicode (h1 h2 h3 h4 : Char) (cs : List Char) :
      (∀ h ∈ [h1, h2, h3, h4], h ∈ "0123456789abcdefABCDEF".data) →
      JsonChars cs → JsonChars (backslash :: Char.ofNat 0x75 :: h1 :: h2 :: h3 :: h4 :: cs)

/-- A string: `string = quotation-mark *char quotation-mark`. -/
def JsonString (cs : List Char) : Prop :=
  ∃ body, cs = dquote :: (body ++ [dquote]) ∧ JsonChars body

mutual

/-- A value: `value = false / null / true / object / array / number / string`, with
`object = begin-object [ member *( value-separator member ) ] end-object` and
`array = begin-array [ value *( value-separator value ) ] end-array`; the six structural
characters carry whitespace on both sides. -/
inductive JsonValue : List Char → Prop where
  | litFalse : JsonValue "false".data
  | litNull : JsonValue "null".data
  | litTrue : JsonValue "true".data
  | number (n : List Char) : JsonNumber n → JsonValue n
  | string (s : List Char) : JsonString s → JsonValue s
  | emptyObject (w1 w2 w3 w4 : List Char) : JsonWs w1 → JsonWs w2 → JsonWs w3 → JsonWs w4 →
      JsonValue (w1 ++ "\x7b".data ++ w2 ++ w3 ++ "\x7d".data ++ w4)
  | object (w1 w2 ms w3 w4 : List Char) : JsonWs w1 → JsonWs w2 → JsonMembers ms →
      JsonWs w3 → JsonWs w4 →
      JsonValue (w1 ++ "\x7b".data ++ w2 ++ ms ++ w3 ++ "\x7d".data ++ w4)
  | emptyArray (w1 w2 w3 w4 : List Char) : JsonWs w1 → JsonWs w2 → JsonWs w3 → JsonWs w4 →
      JsonValue (w1 ++ "[".data ++ w2 ++ w3 ++ "]".data ++ w4)
  | array (w1 w2 vs w3 w4 : List Char) : JsonWs w1 → JsonWs w2 → JsonElements vs →
      JsonWs w3 → JsonWs w4 →
      JsonValue (w1 ++ "[".data ++ w2 ++ vs ++ w3 ++ "]".data ++ w4)

/-- The members of an object: `member *( value-separator member )` with
`member = string name-separator value`. -/
inductive JsonMembers : List Char → Prop where
  | one (s w1 w2 v : List Char) : JsonString s → JsonWs w1 → JsonWs w2 → JsonValue v →
      JsonMembers (s ++ w1 ++ ":".data ++ w2 ++ v)
  | more (s w1 w2 v w3 w4 ms : List Char) : JsonString s → JsonWs w1 → JsonWs w2 →
      JsonValue v → JsonWs w3 → JsonWs w4 → JsonMembers ms →
      JsonMembers (s ++ w1 ++ ":".data ++ w2 ++ v ++ w3 ++ ",".data ++ w4 ++ ms)

/-- The elements of an array: `value *( value-separator value )`. -/
inductive JsonElements : List Char → Prop where
  | one (v : List Char) : JsonValue v → JsonElements v
  | more (v w1 w2 vs : List Char) : JsonValue v → JsonWs w1 → JsonWs w2 → JsonElements vs →
      JsonElements (v ++ w1 ++ ",".data ++ w2 ++ vs)

end

/-- A syntactically valid JSON document: `JSON-text = ws value ws`. -/
def JsonText (D : List Char) : Prop :=
  ∃ w1 v w2, D = w1 ++ v ++ w2 ∧ JsonWs w1 ∧ JsonValue v ∧ JsonWs w2

/-- The bytes the emitted tokens spell: the encodings of their characters, in order. -/
def spell : List Token → List Nat
  | [] => []
  | t :: ts => EncodeRune t.Rune ++ spell ts

/-- The bytes read from the source: the part of the string before the reading index. -/
def consumed (o : Out) : List Nat := o.reader.s.take o.reader.i

/-- The outcome of the scan of `[true, null]`. -/
def trueNullOutcome : Out :=
  { err := none,
    toks := tokens ArrayType "[".data ++ tokens BoolType "true".data ++
      tokens ArrayType ", ".data ++ tokens NullType "null".data ++ tokens ArrayType "]".data,
    reader := (NewReader (utf8 "[true, null]".data)).adv 12 }

/-- Every `"` of the text `b` stands right behind a `\`. -/
def quotesEscaped (b : List Char) : Prop :=
  ∀ i, b[i]? = some dquote → ∃ j, i = j + 1 ∧ b[j]? = some backslash

/-- Every `"` of the text `b` stands right behind a `\`, where `p` is the rune before `b`. -/
def escapedAfter : Nat → List Char → Prop
  | _, [] => True
  | p, c :: cs => (c = dquote → p = 92) ∧ escapedAfter c.toNat cs

/-- The last rune of the text `b`, and `p` when `b` is empty. -/
def lastRune : Nat → List Char → Nat
  | p, [] => p
  | _, c :: cs => lastRune c.toNat cs

/-- The text `a\"b`, in which the quote stands behind a backslash. -/
def escapedQuoteBody : List Char := [Char.ofNat 97, backslash, dquote, Char.ofNat 98]

/-- The characters a token of a category can carry; String tokens carry any character. -/
def allowed : TokenType → List Char
  | ArrayType => "[], \n\t".data
  | ObjectType => "\x7b\x7d:, \n\t".data
  | NumberType => "0123456789.-eE".data
  | BoolType => "truefalse".data
  | NullType => "nul".data
  | StringType => []

/-- The character of the token `T` is one its category allows. -/
def kindOk (T : Token) : Prop :=
  T.Typ = StringType ∨ T.Rune ∈ (allowed T.Typ).map Char.toNat

instance kindOkDecidable (T : Token) : Decidable (kindOk T) :=
  inferInstanceAs (Decidable (T.Typ = StringType ∨ T.Rune ∈ (allowed T.Typ).map Char.toNat))

/-- Every token of the outcome carries a character its category allows. -/
def Kinds (_r : Reader) (o : Out) : Prop := ∀ T ∈ o.toks, kindOk T

/-- The carriage return. -/
def creturn : Char := Char.ofNat 13

/-- The JSON string that holds one backslash: the four characters `"`, `\`, `\`, `"`. -/
def oneBackslash : List Char := [dquote, backslash, backslash, dquote]

/-- The separator step of a variant of `parseObject` and `parseArray` that returns the error
of the literal match instead of discarding it:
`if peek(reader) == ',' { if err := parseLiteral(...); err != nil { return err } }`. -/
def parseCommaStrict (reader : Reader) (t : TokenType) : Out :=
  let p := peek reader
  if p.1 = 44 then parseLiteral p.2 t ","
  else { err := none, toks := [], reader := p.2 }

mutual

/-- The function `parseValue` over the variant productions. -/
def parseValueStrict : Nat → Reader → Option Out
  | 0, _ => none
  | fuel + 1, reader =>
    let p := peek reader
    if p.1 = 34 then parseString p.2
    else if (48 ≤ p.1 ∧ p.1 ≤ 57) ∨ p.1 = 45 then parseNumber p.2
    else if p.1 = 91 then parseArrayStrict fuel p.2
    else if p.1 = 116 ∨ p.1 = 102 then some (parseBool p.2)
    else if p.1 = 110 then some (parseNull p.2)
    else if p.1 = 123 then parseObjectStrict fuel p.2
    else some { err := some (Err.New "unknown type"), toks := [], reader := p.2 }

/-- The variant of `parseObject` that returns the error of the separator. -/
def parseObjectStrict : Nat → Reader → Option Out
  | 0, _ => none
  | fuel + 1, reader =>
    (parseLiteral reader ObjectType "\x7b").andThen fun reader => objectLoopStrict fuel reader

/-- The loop of the variant of `parseObject`. -/
def objectLoopStrict : Nat → Reader → Option Out
  | 0, _ => none
  | fuel + 1, reader =>
    let p := peek reader
    if p.1 ≠ 125 then
      (parseWhitespace p.2 ObjectType).bind fun o => o.andThen fun reader =>
      (parseString reader).bind fun o => o.andThen fun reader =>
      (parseWhitespace reader ObjectType).bind fun o => o.andThen fun reader =>
      (parseLiteral reader ObjectType ":").andThen fun reader =>
      (parseWhitespace reader ObjectType).bind fun o => o.andThen fun reader =>
      (parseValueStrict fuel reader).bind fun o => o.andThen fun reader =>
      (parseCommaStrict reader ObjectType).andThen fun reader =>
      (parseWhitespace reader ObjectType).bind fun o => o.andThen fun reader =>
      objectLoopStrict fuel reader
    else some (parseLiteral p.2 ObjectType "\x7d")

/-- The variant of `parseArray` that returns the error of the separator. -/
def parseArrayStrict : Nat → Reader → Option Out
  | 0, _ => none
  | fuel + 1, reader =>
    (parseLiteral reader ArrayType "[").andThen fun reader => arrayLoopStrict fuel reader

/-- The loop of the variant of `parseArray`. -/
def arrayLoopStrict : Nat → Reader → Option Out
  | 0, _ => none
  | fuel + 1, reader =>
    let p := peek reader
    if p.1 ≠ 93 then
      (parseWhitespace p.2 ArrayType).bind fun o => o.andThen fun reader =>
      (parseValueStrict fuel reader).bind fun o => o.andThen fun reader =>
      (parseWhitespace reader ArrayType).bind fun o => o.andThen fun reader =>
      (parseCommaStrict reader ArrayType).andThen fun reader =>
      (parseWhitespace reader ArrayType).bind fun o => o.andThen fun reader =>
      arrayLoopStrict fuel reader
    else some (parseLiteral p.2 ArrayType "]")

end

/-- The function `Parse` over the variant productions. -/
def ParseStrict (s : Reader) : Option Out :=
  parseValueStrict (3 * s.unread.length + 3) s

/-- The outcome of the scan of `{ }`, which fails at the closing brace. -/
def braceSpaceOutcome : Out :=
  { err := some (unexpected (utf8 "\x7d".data) "\""), toks := tokens ObjectType "\x7b ".data,
    reader := (NewReader (utf8 "\x7b \x7d".data)).adv 3 }

/-- The texts `ns` separated by one space. -/
def spaced : List (List Char) → List Char
  | [] => []
  | [n] => n
  | n :: m :: ns => n ++ " ".data ++ spaced (m :: ns)

/-- The texts `ns`, each followed by a comma. -/
def commaEnded : List (List Char) → List Char
  | [] => []
  | n :: ns => n ++ ",".data ++ commaEnded ns

/-- The outcome `o` of a production called on the reader `r` leaves no more bytes unread
than `r` has. -/
def Shrinks (r : Reader) (o : Out) : Prop := o.reader.unread.length ≤ r.unread.length

/-- The value of a `TokenType` constant (`iota`), the index `Print` uses into `colors`. -/
def TokenType.toNat : TokenType → Nat
  | ArrayType => 0
  | ObjectType => 1
  | NumberType => 2
  | BoolType => 3
  | StringType => 4
  | NullType => 5

/-- The slice `colors` of `Print`: red, blue, green, cyan, yellow, purple. -/
def colors : List (List Nat) :=
  [utf8 "\x1b[31m".data, utf8 "\x1b[34m".data, utf8 "\x1b[32m".data, utf8 "\x1b[36m".data,
   utf8 "\x1b[33m".data, utf8 "\x1b[35m".data]

/-- The bytes package `fmt` writes for a verb that has no operand: `%!verb(MISSING)`. -/
def missingArg (verb : Nat) : List Nat :=
  utf8 "%!".data ++ EncodeRune verb ++ utf8 "(MISSING)".data

/-- The bytes that after `%` start a flag, an argument index, a width or a precision. -/
def formatModifier (c : Nat) : Bool := c ∈ utf8 "#0+- [*.123456789".data

/-- The loop of `doPrintf` of package `fmt` for a call without operands: the bytes written for
the format. Bytes other than `%` are copied; `%%` writes `%`, a `%` at the end writes
`%!(NOVERB)` and a `%` followed by another verb writes `missingArg`. A `%` followed by a flag,
an argument index, a width or a precision is not modelled and gives `none`, as does running
out of fuel. -/
def doPrintf : Nat → List Nat → Option (List Nat)
  | _, [] => some []
  | 0, _ :: _ => none
  | fuel + 1, b :: rest =>
    if b ≠ 37 then (doPrintf fuel rest).map fun out => b :: out
    else
      match rest with
      | [] => some (utf8 "%!(NOVERB)".data)
      | c :: rest2 =>
        if formatModifier c then none
        else if c < 0x80 then
          (doPrintf fuel rest2).map fun out => (if c = 37 then [37] else missingArg c) ++ out
        else
          (doPrintf fuel (rest.drop (DecodeRuneInString rest).2)).map fun out =>
            missingArg (DecodeRuneInString rest).1 ++ out

/-- The call `fmt.Fprintf(w, format)` without operands: the bytes written to `w`. -/
def Fprintf (format : List Nat) : Option (List Nat) := doPrintf format.length format

/-- The sink `Print` passes to `Parse`, on the token `T`: the bytes of
`fmt.Fprintf(w, colors[T.Type]+string(T.Rune)+"\u001B[0m")`. -/
def printToken (T : Token) : Option (List Nat) :=
  Fprintf (colors.getD T.Typ.toNat [] ++ EncodeRune T.Rune ++ utf8 "\x1b[0m".data)

/-- The bytes the sink of `Print` writes for the tokens `ts`, in order. -/
def written : List Token → Option (List Nat)
  | [] => some []
  | T :: ts => (printToken T).bind fun a => (written ts).map fun out => a ++ out

/-- What `Print` leaves behind: the error it returns and the bytes written to `w`. -/
structure Printed where
  err : Option Err
  out : List Nat
deriving DecidableEq, Repr

/-- The function `Print`, on the reader `s`, with a writer that takes every byte. -/
def Print (s : Reader) : Option Printed :=
  (Parse s).bind fun o => (written o.toks).map fun bs => { err := o.err, out := bs }

/-- The number of the color of a category as the specification lists them: 31 red for Array,
34 blue for Object, 32 green for Number, 36 cyan for Bool, 33 yellow for String, 35 purple for
Null. -/
def colorNumber : TokenType → Nat
  | ArrayType => 31
  | ObjectType => 34
  | NumberType => 32
  | BoolType => 36
  | StringType => 33
  | NullType => 35

/-- The escape sequence `ESC[<n>m` for a number `n` of two digits. -/
def escape (n : Nat) : List Nat := [27, 91, 48 + n / 10, 48 + n % 10, 109]

/-- The bytes the specification gives for a token: `ESC[<n>m`, the character, `ESC[0m`. -/
def wrappedSpec (T : Token) : List Nat :=
  escape (colorNumber T.Typ) ++ EncodeRune T.Rune ++ [27, 91, 48, 109]

/-- The bytes the code writes for a token: those of the specification, but for a token `%`
the color, then `%!`, ESC, `(MISSING)` and the rest `[0m` of the reset sequence. -/
def wrappedCode (T : Token) : List Nat :=
  if T.Rune = 37 then escape (colorNumber T.Typ) ++ missingArg 27 ++ [91, 48, 109]
  else wrappedSpec T

/-- Delete the escape sequences `ESC[0m` and `ESC[3<d>m` from `bs`. -/
def stripEscapes : Nat → List Nat → List Nat
  | 0, _ => []
  | _ + 1, [] => []
  | fuel + 1, b :: rest =>
    if (b :: rest).take 4 = [27, 91, 48, 109] then stripEscapes fuel ((b :: rest).drop 4)
    else if (b :: rest).take 3 = [27, 91, 51] ∧ (b :: rest).getD 4 0 = 109 then
      stripEscapes fuel ((b :: rest).drop 5)
    else b :: stripEscapes fuel rest

/-! ## The reader: basic facts -/

theorem unread_adv (r : Reader) (n : Nat) : (r.adv n).unread = r.unread.drop n := by
  simp [Reader.adv, Reader.unread, List.drop_drop, Nat.add_comm]

theorem adv_adv (r : Reader) (n m : Nat) : (r.adv n).adv m = r.adv (n + m) := by
  simp [Reader.adv, Nat.add_assoc]

theorem adv_mk (s : List Nat) (i k n : Nat) (p : Int) :
    Reader.adv { s := s, i := i + k, prevRune := p } n = Reader.adv { s := s, i := i, prevRune := p } (k + n) := by
  simp [Reader.adv, Nat.add_assoc]

theorem unread_nil_iff (r : Reader) : r.unread = [] ↔ r.s.length ≤ r.i := by
  simp [Reader.unread]

theorem getD_eq_head (r : Reader) (b : Nat) (t : List Nat) (h : r.unread = b :: t) :
    r.s.getD r.i 0 = b := by
  have h1 : r.unread.getD 0 0 = b := by rw [h]; rfl
  rw [← h1]
  simp [Reader.unread, List.getD, List.getElem?_drop]

theorem first_some (b sz lo hi : Nat) (h : first b = some (sz, lo, hi)) :
    0xC2 ≤ b ∧ b ≤ 0xF4 ∧ 2 ≤ sz ∧ sz ≤ 4 ∧ 0x80 ≤ lo ∧ hi ≤ 0xBF := by
  unfold first at h
  split_ifs at h <;> simp at h <;> omega

theorem DecodeRuneInString_size (s : List Nat) (h : s ≠ []) :
    1 ≤ (DecodeRuneInString s).2 ∧ (DecodeRuneInString s).2 ≤ s.length := by
  cases s with
  | nil => exact absurd rfl h
  | cons s0 t =>
    unfold DecodeRuneInString
    simp only []
    have hl : 1 ≤ (s0 :: t).length := by simp
    split_ifs <;> first | exact ⟨le_refl _, hl⟩ | skip
    all_goals
      cases hf : first s0 with
      | none => exact ⟨le_refl _, hl⟩
      | some v =>
        obtain ⟨sz, lo, hi⟩ := v
        have hs := first_some s0 sz lo hi hf
        simp only []
        split_ifs <;> first | exact ⟨le_refl _, hl⟩ | skip
        all_goals (constructor <;> first | (simp at *; done) | (simp at *; omega))

theorem firstRune_cons (b : Nat) (t : List Nat) :
    firstRune (b :: t) = if b < 0x80 then b else (DecodeRuneInString (b :: t)).1 := rfl

theorem firstSize_cons (b : Nat) (t : List Nat) :
    firstSize (b :: t) = if b < 0x80 then 1 else (DecodeRuneInString (b :: t)).2 := rfl

theorem firstSize_pos (bs : List Nat) (h : bs ≠ []) : 1 ≤ firstSize bs := by
  cases bs with
  | nil => exact absurd rfl h
  | cons b t =>
    rw [firstSize_cons]
    split_ifs
    · exact le_refl _
    · exact (DecodeRuneInString_size (b :: t) h).1

theorem firstSize_le (bs : List Nat) : firstSize bs ≤ bs.length := by
  cases bs with
  | nil => simp [firstSize]
  | cons b t =>
    rw [firstSize_cons]
    split_ifs
    · simp
    · exact (DecodeRuneInString_size (b :: t) (by simp)).2

theorem ReadRune_nil (r : Reader) (h : r.unread = []) :
    r.ReadRune = (0, 0, some Err.EOF, { r with prevRune := -1 }) := by
  have h1 := (unread_nil_iff r).1 h
  simp [Reader.ReadRune, h1]

theorem ReadRune_cons (r : Reader) (h : r.unread ≠ []) :
    r.ReadRune = (firstRune r.unread, firstSize r.unread, none,
      { r with i := r.i + firstSize r.unread, prevRune := r.i }) := by
  have h1 : ¬ r.s.length ≤ r.i := fun hh => h ((unread_nil_iff r).2 hh)
  cases hu : r.unread with
  | nil => exact absurd hu h
  | cons b t =>
    have hb := getD_eq_head r b t hu
    have hd : List.drop r.i r.s = b :: t := hu
    unfold Reader.ReadRune
    simp only [h1, if_false, hb, firstRune_cons, firstSize_cons, hd]
    split_ifs <;> rfl

theorem peek_eq (r : Reader) : peek r = (firstRune r.unread, r.adv 0) := by
  by_cases h : r.unread = []
  · have h1 := (unread_nil_iff r).1 h
    rw [peek, ReadRune_nil r h, h]
    simp [Reader.UnreadRune, firstRune, Reader.adv]
  · have hp := firstSize_pos r.unread h
    rw [peek, ReadRune_cons r h]
    have h2 : ¬ (r.i + firstSize r.unread ≤ 0) := by omega
    have h3 : ¬ ((r.i : Int) < 0) := by omega
    simp [Reader.UnreadRune, Reader.adv, h2, h3]

theorem unread_peek (r : Reader) : (peek r).2.unread = r.unread := by
  rw [peek_eq]; simp [unread_adv]

/-! ## UTF-8: decoding an encoded character -/

theorem char_valid (c : Char) :
    c.toNat < 0xD800 ∨ (0xDFFF < c.toNat ∧ c.toNat < 0x110000) := c.valid

theorem decode2 (b0 b1 : Nat) (rest : List Nat) (h0 : 0xC2 ≤ b0 ∧ b0 < 0xE0)
    (h1 : 0x80 ≤ b1 ∧ b1 ≤ 0xBF) :
    DecodeRuneInString (b0 :: b1 :: rest) = (b0 % 32 * 64 + b1 % 64, 2) := by
  have hf : first b0 = some (2, 0x80, 0xBF) := by
    unfold first; split_ifs <;> first | rfl | omega
  have e1 : ¬ (b0 < 0x80) := by omega
  have e2 : ¬ (b1 < 0x80 ∨ 0xBF < b1) := by omega
  have e3 : ¬ ((b0 :: b1 :: rest).length < 2) := by simp
  simp only [DecodeRuneInString, e1, if_false, hf, e3, List.getD_cons_succ,
    List.getD_cons_zero, e2, le_refl, if_true]

theorem decode3 (b0 b1 b2 lo hi : Nat) (rest : List Nat)
    (hf : first b0 = some (3, lo, hi)) (h1 : lo ≤ b1 ∧ b1 ≤ hi)
    (h2 : 0x80 ≤ b2 ∧ b2 ≤ 0xBF) :
    DecodeRuneInString (b0 :: b1 :: b2 :: rest) =
      (b0 % 16 * 4096 + b1 % 64 * 64 + b2 % 64, 3) := by
  have hs := first_some b0 3 lo hi hf
  have e1 : ¬ (b0 < 0x80) := by omega
  have e2 : ¬ (b1 < lo ∨ hi < b1) := by omega
  have e3 : ¬ ((b0 :: b1 :: b2 :: rest).length < 3) := by simp
  have e4 : ¬ (b2 < 0x80 ∨ 0xBF < b2) := by omega
  have e5 : ¬ (3 ≤ 2) := by omega
  simp only [DecodeRuneInString, e1, if_false, hf, e3, List.getD_cons_succ,
    List.getD_cons_zero, e2, e4, e5, le_refl, if_true]

theorem decode4 (b0 b1 b2 b3 lo hi : Nat) (rest : List Nat)
    (hf : first b0 = some (4, lo, hi)) (h1 : lo ≤ b1 ∧ b1 ≤ hi)
    (h2 : 0x80 ≤ b2 ∧ b2 ≤ 0xBF) (h3 : 0x80 ≤ b3 ∧ b3 ≤ 0xBF) :
    DecodeRuneInString (b0 :: b1 :: b2 :: b3 :: rest) =
      (b0 % 8 * 262144 + b1 % 64 * 4096 + b2 % 64 * 64 + b3 % 64, 4) := by
  have hs := first_some b0 4 lo hi hf
  have e1 : ¬ (b0 < 0x80) := by omega
  have e2 : ¬ (b1 < lo ∨ hi < b1) := by omega
  have e3 : ¬ ((b0 :: b1 :: b2 :: b3 :: rest).length < 4) := by simp
  have e4 : ¬ (b2 < 0x80 ∨ 0xBF < b2) := by omega
  have e5 : ¬ (4 ≤ 2) := by omega
  have e6 : ¬ (4 ≤ 3) := by omega
  have e7 : ¬ (b3 < 0x80 ∨ 0xBF < b3) := by omega
  simp only [DecodeRuneInString, e1, if_false, hf, e3, List.getD_cons_succ,
    List.getD_cons_zero, e2, e4, e5, e6, e7, le_refl, if_true]

theorem first3 (b : Nat) (h1 : 0xE0 ≤ b) (h2 : b ≤ 0xEF) :
    (b = 0xE0 ∧ first b = some (3, 0xA0, 0xBF)) ∨ (b = 0xED ∧ first b = some (3, 0x80, 0x9F)) ∨
      ((b ≠ 0xE0 ∧ b ≠ 0xED) ∧ first b = some (3, 0x80, 0xBF)) := by
  by_cases ha : b = 0xE0
  · left; subst ha; exact ⟨rfl, rfl⟩
  · by_cases hb : b = 0xED
    · right; left; subst hb; exact ⟨rfl, rfl⟩
    · right; right
      refine ⟨⟨ha, hb⟩, ?_⟩
      unfold first
      have c1 : ¬ b < 0xC2 := by omega
      have c2 : ¬ b < 0xE0 := by omega
      have c3 : b < 0xF0 := by omega
      by_cases c4 : b < 0xED
      · simp only [c1, c2, ha, c4, if_false, if_true]
      · simp only [c1, c2, ha, c4, hb, c3, if_false, if_true]

theorem first4 (b : Nat) (h1 : 0xF0 ≤ b) (h2 : b ≤ 0xF4) :
    (b = 0xF0 ∧ first b = some (4, 0x90, 0xBF)) ∨ (b = 0xF4 ∧ first b = some (4, 0x80, 0x8F)) ∨
      ((b ≠ 0xF0 ∧ b ≠ 0xF4) ∧ first b = some (4, 0x80, 0xBF)) := by
  by_cases ha : b = 0xF0
  · left; subst ha; exact ⟨rfl, rfl⟩
  · by_cases hb : b = 0xF4
    · right; left; subst hb; exact ⟨rfl, rfl⟩
    · right; right
      refine ⟨⟨ha, hb⟩, ?_⟩
      unfold first
      have c1 : ¬ b < 0xC2 := by omega
      have c2 : ¬ b < 0xE0 := by omega
      have c3 : ¬ b < 0xED := by omega
      have c4 : ¬ b < 0xF0 := by omega
      have c5 : b < 0xF4 := by omega
      have c6 : ¬ b = 0xE0 := by omega
      have c7 : ¬ b = 0xED := by omega
      simp only [c1, c2, c3, c4, c5, c6, c7, ha, if_false, if_true]

theorem decode_encode (n : Nat) (hv : n < 0xD800 ∨ (0xDFFF < n ∧ n < 0x110000))
    (rest : List Nat) :
    DecodeRuneInString (EncodeRune n ++ rest) = (n, (EncodeRune n).length) := by
  unfold EncodeRune
  split_ifs with h1 h2 h3 h4
  · simp [DecodeRuneInString, h1]
  · rw [List.cons_append, List.cons_append, List.nil_append,
      decode2 _ _ rest (by omega) (by omega)]
    refine Prod.ext ?_ rfl
    show (0xC0 + n / 64) % 32 * 64 + (0x80 + n % 64) % 64 = n
    omega
  · omega
  · have hf : ∃ lo hi, first (0xE0 + n / 4096) = some (3, lo, hi) ∧
        (lo ≤ 0x80 + n / 64 % 64 ∧ 0x80 + n / 64 % 64 ≤ hi) := by
      rcases first3 (0xE0 + n / 4096) (by omega) (by omega) with ⟨h, hh⟩ | ⟨h, hh⟩ | ⟨h, hh⟩
      · exact ⟨_, _, hh, by omega⟩
      · exact ⟨_, _, hh, by omega⟩
      · exact ⟨_, _, hh, by omega⟩
    obtain ⟨lo, hi, hf, e2⟩ := hf
    rw [List.cons_append, List.cons_append, List.cons_append, List.nil_append,
      decode3 _ _ _ lo hi rest hf e2 (by omega)]
    refine Prod.ext ?_ rfl
    show (0xE0 + n / 4096) % 16 * 4096 + (0x80 + n / 64 % 64) % 64 * 64 + (0x80 + n % 64) % 64 = n
    omega
  · have hf : ∃ lo hi, first (0xF0 + n / 262144) = some (4, lo, hi) ∧
        (lo ≤ 0x80 + n / 4096 % 64 ∧ 0x80 + n / 4096 % 64 ≤ hi) := by
      rcases first4 (0xF0 + n / 262144) (by omega) (by omega) with ⟨h, hh⟩ | ⟨h, hh⟩ | ⟨h, hh⟩
      · exact ⟨_, _, hh, by omega⟩
      · exact ⟨_, _, hh, by omega⟩
      · exact ⟨_, _, hh, by omega⟩
    obtain ⟨lo, hi, hf, e2⟩ := hf
    rw [List.cons_append, List.cons_append, List.cons_append, List.cons_append, List.nil_append,
      decode4 _ _ _ _ lo hi rest hf e2 (by omega) (by omega)]
    refine Prod.ext ?_ rfl
    show (0xF0 + n / 262144) % 8 * 262144 + (0x80 + n / 4096 % 64) % 64 * 4096
      + (0x80 + n / 64 % 64) % 64 * 64 + (0x80 + n % 64) % 64 = n
    omega

theorem EncodeRune_ne_nil (n : Nat) : EncodeRune n ≠ [] := by
  unfold EncodeRune
  split_ifs <;> simp

theorem EncodeRune_ascii (n : Nat) (h : n < 0x80) : EncodeRune n = [n] := by
  simp [EncodeRune, h]

theorem EncodeRune_head (n b : Nat) (t : List Nat) (h : EncodeRune n = b :: t) (hb : b < 0x80) :
    n = b ∧ t = [] := by
  unfold EncodeRune at h
  split_ifs at h
  · simp at h
    exact h
  all_goals (simp at h; omega)

theorem utf8_nil : utf8 [] = [] := rfl

theorem utf8_cons (c : Char) (cs : List Char) : utf8 (c :: cs) = EncodeRune c.toNat ++ utf8 cs := rfl

theorem utf8_append (a b : List Char) : utf8 (a ++ b) = utf8 a ++ utf8 b := by
  induction a with
  | nil => rfl
  | cons c cs ih => simp [utf8_cons, ih]

theorem utf8_eq_nil (cs : List Char) (h : utf8 cs = []) : cs = [] := by
  cases cs with
  | nil => rfl
  | cons c cs =>
    rw [utf8_cons] at h
    exact absurd (List.append_eq_nil.1 h).1 (EncodeRune_ne_nil _)

theorem firstRune_eq_decode (bs : List Nat) (h : bs ≠ []) :
    firstRune bs = (DecodeRuneInString bs).1 ∧ firstSize bs = (DecodeRuneInString bs).2 := by
  cases bs with
  | nil => exact absurd rfl h
  | cons b t =>
    rw [firstRune_cons, firstSize_cons]
    by_cases hb : b < 0x80
    · simp [hb, DecodeRuneInString]
    · simp [hb]

theorem firstRune_utf8 (c : Char) (cs : List Char) :
    firstRune (utf8 (c :: cs)) = c.toNat ∧
      firstSize (utf8 (c :: cs)) = (EncodeRune c.toNat).length := by
  have hne : utf8 (c :: cs) ≠ [] := by
    rw [utf8_cons]; intro h; exact EncodeRune_ne_nil _ (List.append_eq_nil.1 h).1
  have h := firstRune_eq_decode _ hne
  rw [h.1, h.2, utf8_cons, decode_encode _ (char_valid c)]
  exact ⟨rfl, rfl⟩

/-! ## The reader on a text -/

theorem unread_adv_utf8 (r : Reader) (a b : List Char) (h : r.unread = utf8 (a ++ b)) :
    (r.adv (utf8 a).length).unread = utf8 b := by
  rw [unread_adv, h, utf8_append, List.drop_left]

theorem unread_adv_zero (r : Reader) : (r.adv 0).unread = r.unread := by
  rw [unread_adv]; rfl

theorem peek_nil (r : Reader) (h : r.unread = []) : peek r = (0, r.adv 0) := by
  rw [peek_eq, h]; rfl

theorem peek_cons (r : Reader) (c : Char) (cs : List Char) (h : r.unread = utf8 (c :: cs)) :
    peek r = (c.toNat, r.adv 0) := by
  rw [peek_eq, h, (firstRune_utf8 c cs).1]

theorem ReadRune_text (r : Reader) (c : Char) (cs : List Char) (h : r.unread = utf8 (c :: cs)) :
    r.ReadRune = (c.toNat, (EncodeRune c.toNat).length, none,
      { r with i := r.i + (EncodeRune c.toNat).length, prevRune := r.i }) := by
  have hne : r.unread ≠ [] := by
    rw [h, utf8_cons]; intro h; exact EncodeRune_ne_nil _ (List.append_eq_nil.1 h).1
  rw [ReadRune_cons r hne, h, (firstRune_utf8 c cs).1, (firstRune_utf8 c cs).2]

theorem unread_step (r : Reader) (n : Nat) (p : Int) :
    Reader.unread { r with i := r.i + n, prevRune := p } = r.unread.drop n := by
  simp [Reader.unread, List.drop_drop, Nat.add_comm]

theorem unread_step_utf8 (r : Reader) (c : Char) (cs : List Char) (p : Int)
    (h : r.unread = utf8 (c :: cs)) :
    Reader.unread { r with i := r.i + (EncodeRune c.toNat).length, prevRune := p } = utf8 cs := by
  rw [unread_step, h, utf8_cons, List.drop_left]

theorem adv_step (r : Reader) (k n : Nat) (p : Int) :
    Reader.adv { r with i := r.i + k, prevRune := p } n = r.adv (k + n) := by
  simp [Reader.adv, Nat.add_assoc]

theorem Read_nil (r : Reader) (n : Nat) (h : r.unread = []) :
    r.Read n = (List.replicate n 0, 0, some Err.EOF, r) := by
  have h1 := (unread_nil_iff r).1 h
  simp [Reader.Read, h1]

theorem Read_cons (r : Reader) (n : Nat) (h : r.unread ≠ []) :
    r.Read n = (r.unread.take n ++ List.replicate (n - (r.unread.take n).length) 0,
      (r.unread.take n).length, none, r.adv (r.unread.take n).length) := by
  have h1 : ¬ r.s.length ≤ r.i := fun hh => h ((unread_nil_iff r).2 hh)
  simp only [Reader.Read, h1, if_false, Reader.unread, Reader.adv]

theorem parseLiteral_nil (r : Reader) (t : TokenType) (lit : String) (h : r.unread = []) :
    parseLiteral r t lit = { err := some Err.EOF, toks := [], reader := r } := by
  simp only [parseLiteral, Read_nil r _ h]

theorem parseLiteral_ok (r : Reader) (t : TokenType) (lit : String) (cs : List Char)
    (hl : lit.data ≠ []) (h : r.unread = utf8 (lit.data ++ cs)) :
    parseLiteral r t lit =
      { err := none, toks := tokens t lit.data, reader := r.adv (utf8 lit.data).length } := by
  have hne : r.unread ≠ [] := by
    rw [h]; intro h0; exact hl (List.append_eq_nil.1 (utf8_eq_nil _ h0)).1
  have ht : r.unread.take (utf8 lit.data).length = utf8 lit.data := by
    rw [h, utf8_append, List.take_left]
  simp only [parseLiteral, Read_cons r _ hne, ht, Nat.sub_self, List.replicate_zero,
    List.append_nil, if_true, tokens]

theorem Out.emitFirst_mk (ts : List Token) (e : Option Err) (us : List Token) (r : Reader) :
    Out.emitFirst ts { err := e, toks := us, reader := r } =
      { err := e, toks := ts ++ us, reader := r } := rfl

theorem adv_zero_step (r : Reader) (k n : Nat) (p : Int) :
    Reader.adv { (r.adv 0) with i := (r.adv 0).i + k, prevRune := p } n = r.adv (k + n) := by
  simp [Reader.adv, Nat.add_assoc]

theorem utf8_length_cons (c : Char) (cs : List Char) :
    (utf8 (c :: cs)).length = (EncodeRune c.toNat).length + (utf8 cs).length := by
  rw [utf8_cons, List.length_append]

theorem whitespaceLoop_ok (t : TokenType) (ws : List Char) :
    ∀ (fuel : Nat) (r : Reader) (cs : List Char), ws.length ≤ fuel →
      (∀ c ∈ ws, isSpace c = true) → stopsAt isSpace cs → r.unread = utf8 (ws ++ cs) →
      whitespaceLoop fuel r t =
        some { err := none, toks := tokens t ws, reader := r.adv (utf8 ws).length } := by
  induction ws with
  | nil =>
    intro fuel r cs _ _ hs h
    rw [List.nil_append] at h
    unfold whitespaceLoop
    cases cs with
    | nil =>
      rw [peek_nil r h]
      simp [tokens, utf8_nil]
    | cons c cs =>
      have hc : isSpace c = false := hs c (by simp)
      have hc2 : ¬ (c.toNat = 32 ∨ c.toNat = 10 ∨ c.toNat = 9) := by
        simpa [isSpace] using hc
      rw [peek_cons r c cs h]
      simp only [hc2, if_false, tokens, utf8_nil, List.length_nil, List.map_nil]
  | cons w ws ih =>
    intro fuel r cs hf hw hs h
    have hc : isSpace w = true := hw w (by simp)
    have hc2 : (w.toNat = 32 ∨ w.toNat = 10 ∨ w.toNat = 9) := by
      simpa [isSpace] using hc
    cases fuel with
    | zero => simp at hf
    | succ fuel =>
      rw [List.cons_append] at h
      have h0 : (r.adv 0).unread = utf8 (w :: (ws ++ cs)) := by rw [unread_adv_zero, h]
      unfold whitespaceLoop
      simp only [peek_cons r w _ h, hc2, if_true, ReadRune_text _ w _ h0]
      rw [ih fuel _ cs (by simpa using hf) (fun c hc => hw c (by simp [hc])) hs
        (unread_step_utf8 _ w _ _ h0)]
      simp [Out.emitFirst_mk, tokens, adv_zero_step, utf8_length_cons]

theorem parseWhitespace_ok (t : TokenType) (ws cs : List Char) (r : Reader)
    (hw : ∀ c ∈ ws, isSpace c = true) (hs : stopsAt isSpace cs)
    (h : r.unread = utf8 (ws ++ cs)) :
    parseWhitespace r t =
      some { err := none, toks := tokens t ws, reader := r.adv (utf8 ws).length } := by
  unfold parseWhitespace
  refine whitespaceLoop_ok t ws _ r cs ?_ hw hs h
  rw [h, utf8_append, List.length_append]
  have : ws.length ≤ (utf8 ws).length := by
    clear hw h
    induction ws with
    | nil => simp
    | cons c cs ih =>
      rw [utf8_length_cons]
      have := List.length_pos.2 (EncodeRune_ne_nil c.toNat)
      simp only [List.length_cons]
      omega
  omega

theorem toNat_inj (c d : Char) (h : c.toNat = d.toNat) : c = d :=
  Char.ext (UInt32.ext h)

theorem utf8_length_le (cs : List Char) : cs.length ≤ (utf8 cs).length := by
  induction cs with
  | nil => simp
  | cons c cs ih =>
    rw [utf8_length_cons]
    have := List.length_pos.2 (EncodeRune_ne_nil c.toNat)
    simp only [List.length_cons]
    omega

theorem numberLoop_ok (ds : List Char) :
    ∀ (fuel : Nat) (r : Reader) (cs : List Char), ds.length ≤ fuel →
      (∀ c ∈ ds, isNumberChar c = true) → stopsAt isNumberChar cs → r.unread = utf8 (ds ++ cs) →
      numberLoop fuel r none =
        some { err := none, toks := tokens NumberType ds, reader := r.adv (utf8 ds).length } := by
  induction ds with
  | nil =>
    intro fuel r cs _ _ hs h
    rw [List.nil_append] at h
    unfold numberLoop
    cases cs with
    | nil =>
      rw [peek_nil r h]
      have : numberRune 0 = false := by decide
      simp [tokens, utf8_nil, this]
    | cons c cs =>
      have hc : numberRune c.toNat = false := hs c (by simp)
      rw [peek_cons r c cs h]
      simp [hc, tokens, utf8_nil]
  | cons w ws ih =>
    intro fuel r cs hf hw hs h
    have hc : numberRune w.toNat = true := hw w (by simp)
    cases fuel with
    | zero => simp at hf
    | succ fuel =>
      rw [List.cons_append] at h
      have h0 : (r.adv 0).unread = utf8 (w :: (ws ++ cs)) := by rw [unread_adv_zero, h]
      unfold numberLoop
      simp only [peek_cons r w _ h, hc, if_true, ReadRune_text _ w _ h0]
      rw [ih fuel _ cs (by simpa using hf) (fun c hc => hw c (by simp [hc])) hs
        (unread_step_utf8 _ w _ _ h0)]
      simp [Out.emitFirst_mk, tokens, adv_zero_step, utf8_length_cons]

theorem parseNumber_ok (ds cs : List Char) (r : Reader)
    (hw : ∀ c ∈ ds, isNumberChar c = true) (hs : stopsAt isNumberChar cs)
    (h : r.unread = utf8 (ds ++ cs)) :
    parseNumber r =
      some { err := none, toks := tokens NumberType ds, reader := r.adv (utf8 ds).length } := by
  unfold parseNumber
  refine numberLoop_ok ds _ r cs ?_ hw hs h
  rw [h, utf8_append, List.length_append]
  have := utf8_length_le ds
  omega

theorem dquote_data : "\"".data = [dquote] := rfl

theorem utf8_dquote : utf8 [dquote] = [34] := by decide

theorem stringLoop_ok (b : List Char) :
    ∀ (fuel : Nat) (r : Reader) (r0 : Nat) (cs : List Char), b.length ≤ fuel →
      (∀ c ∈ b, c ≠ dquote ∧ c ≠ backslash) → r0 ≠ 92 →
      r.unread = utf8 (b ++ dquote :: cs) →
      stringLoop fuel r r0 =
        some { err := none, toks := tokens StringType (b ++ [dquote]),
               reader := r.adv (utf8 (b ++ [dquote])).length } := by
  induction b with
  | nil =>
    intro fuel r r0 cs _ _ hr h
    rw [List.nil_append] at h
    have hq : dquote.toNat = 34 := by decide
    have h1 : (r.adv 0).unread = utf8 ("\"".data ++ cs) := by
      rw [unread_adv_zero, h]; rfl
    unfold stringLoop
    simp only [peek_cons r dquote cs h, hq, hr, ne_eq, not_true_eq_false, or_self, if_false,
      parseLiteral_ok _ StringType "\"" cs (by decide) h1]
    rw [adv_adv]
    rfl
  | cons c b ih =>
    intro fuel r r0 cs hf hb hr h
    have hc := hb c (by simp)
    have hc1 : c.toNat ≠ 34 := fun hh => hc.1 (toNat_inj _ _ (by rw [hh]; rfl))
    have hc2 : c.toNat ≠ 92 := fun hh => hc.2 (toNat_inj _ _ (by rw [hh]; rfl))
    cases fuel with
    | zero => simp at hf
    | succ fuel =>
      rw [List.cons_append] at h
      have h0 : (r.adv 0).unread = utf8 (c :: (b ++ dquote :: cs)) := by
        rw [unread_adv_zero, h]
      unfold stringLoop
      simp only [peek_cons r c _ h, ne_eq, hc1, not_false_eq_true, true_or, if_true,
        ReadRune_text _ c _ h0]
      rw [ih fuel _ c.toNat cs (by simpa using hf) (fun c hc => hb c (by simp [hc])) hc2
        (unread_step_utf8 _ c _ _ h0)]
      simp [Out.emitFirst_mk, tokens, adv_zero_step, utf8_length_cons]

theorem parseString_ok (b cs : List Char) (r : Reader)
    (hb : ∀ c ∈ b, c ≠ dquote ∧ c ≠ backslash)
    (h : r.unread = utf8 (dquote :: (b ++ dquote :: cs))) :
    parseString r =
      some { err := none, toks := tokens StringType (dquote :: (b ++ [dquote])),
             reader := r.adv (utf8 (dquote :: (b ++ [dquote]))).length } := by
  have h1 : r.unread = utf8 ("\"".data ++ (b ++ dquote :: cs)) := h
  have h2 := unread_adv_utf8 r _ _ h1
  unfold parseString
  rw [parseLiteral_ok r StringType "\"" _ (by decide) h1]
  simp only [Out.andThen]
  rw [stringLoop_ok b _ _ 0 cs ?_ hb (by decide) h2]
  · rw [dquote_data, adv_adv]
    simp [Out.emitFirst_mk, tokens, utf8_length_cons, utf8_nil]
    rfl
  · rw [h2, utf8_append, List.length_append]
    have := utf8_length_le b
    omega

theorem utf8_plain_cons (l : Char) (ls : List Char) (h : l.toNat < 0x80) :
    utf8 (l :: ls) = l.toNat :: utf8 ls := by
  rw [utf8_cons, EncodeRune_ascii _ h]; rfl

theorem readBuf_eq_prefix (lit : List Char) :
    ∀ cs : List Char, plain lit → readBuf (utf8 lit).length (utf8 cs) = utf8 lit → lit <+: cs := by
  induction lit with
  | nil => intro cs _ _; exact List.nil_prefix
  | cons l ls ih =>
    intro cs hp h
    have hl := hp l (by simp)
    have hp2 : plain ls := fun c hc => hp c (by simp [hc])
    rw [utf8_plain_cons l ls hl.2] at h
    cases cs with
    | nil =>
      simp [readBuf, utf8_nil, List.replicate_succ] at h
      omega
    | cons c cs =>
      cases he : EncodeRune c.toNat with
      | nil => exact absurd he (EncodeRune_ne_nil _)
      | cons b t =>
        rw [utf8_cons, he] at h
        simp only [readBuf, List.length_cons, List.cons_append, List.take_succ_cons,
          List.cons.injEq, Nat.add_sub_add_right] at h
        obtain ⟨hb, h2⟩ := h
        have hc := EncodeRune_head _ b t he (by omega)
        have hcl : c = l := toNat_inj _ _ (by omega)
        rw [hc.2, List.nil_append] at h2
        have := ih cs hp2 h2
        rw [hcl]
        exact (List.prefix_cons_inj l).2 this

theorem parseLiteral_cases (r : Reader) (t : TokenType) (lit : String) (cs : List Char)
    (hp : plain lit.data) (h : r.unread = utf8 cs) (hne : cs ≠ []) :
    (∃ rest, cs = lit.data ++ rest ∧ parseLiteral r t lit =
      { err := none, toks := tokens t lit.data, reader := r.adv (utf8 lit.data).length }) ∨
    (¬ lit.data <+: cs ∧ parseLiteral r t lit =
      { err := some (unexpected (readBuf (utf8 lit.data).length (utf8 cs)) lit), toks := [],
        reader := r.adv ((utf8 cs).take (utf8 lit.data).length).length }) := by
  have hne2 : r.unread ≠ [] := by
    rw [h]; intro h0; exact hne (utf8_eq_nil _ h0)
  by_cases hb : readBuf (utf8 lit.data).length (utf8 cs) = utf8 lit.data
  · left
    obtain ⟨rest, hr⟩ := readBuf_eq_prefix _ cs hp hb
    refine ⟨rest, hr.symm, ?_⟩
    by_cases hl : lit.data = []
    · rw [hl] at hb ⊢
      simp only [parseLiteral, Read_cons r _ hne2, hl, utf8_nil, List.length_nil, List.take_zero,
        Nat.sub_self, List.replicate_zero, List.append_nil, if_true, tokens, List.map_nil]
    · exact parseLiteral_ok r t lit rest hl (by rw [h, hr])
  · right
    constructor
    · rintro ⟨rest, hr⟩
      apply hb
      rw [← hr, utf8_append]
      simp [readBuf]
    · have hb2 : ¬ (r.unread.take (utf8 lit.data).length ++
          List.replicate ((utf8 lit.data).length - (r.unread.take (utf8 lit.data).length).length) 0
          = utf8 lit.data) := by
        rw [h]; exact hb
      simp only [parseLiteral, Read_cons r _ hne2, hb2, if_false]
      rw [h]; rfl

theorem unread_NewReader (bs : List Nat) : (NewReader bs).unread = bs := rfl

theorem adv_NewReader_zero (bs : List Nat) : (NewReader bs).adv 0 = NewReader bs := rfl

theorem Parse_eq (r : Reader) : Parse r = parseValue ((3 * r.unread.length + 2) + 1) r := rfl

theorem parseValue_succ (fuel : Nat) (reader : Reader) :
    parseValue (fuel + 1) reader =
      if (peek reader).1 = 34 then parseString (peek reader).2
      else if (48 ≤ (peek reader).1 ∧ (peek reader).1 ≤ 57) ∨ (peek reader).1 = 45 then
        parseNumber (peek reader).2
      else if (peek reader).1 = 91 then parseArray fuel (peek reader).2
      else if (peek reader).1 = 116 ∨ (peek reader).1 = 102 then some (parseBool (peek reader).2)
      else if (peek reader).1 = 110 then some (parseNull (peek reader).2)
      else if (peek reader).1 = 123 then parseObject fuel (peek reader).2
      else some { err := some (Err.New "unknown type"), toks := [], reader := (peek reader).2 } := by
  rw [parseValue]

theorem mem_of_toNat_mem (c : Char) (l : List Char) (h : c.toNat ∈ l.map Char.toNat) : c ∈ l := by
  obtain ⟨d, hd, he⟩ := List.mem_map.1 h
  rw [toNat_inj _ _ he] at hd
  exact hd

/-- C9: on an input that is empty or starts with a character that opens no value, `Parse`
fails with "unknown type", emits no token and leaves the reader as it was. -/
theorem C9_unknown_type (s : List Char)
    (h : ∀ c ∈ s.head?, c ∉ "\"0123456789-[tfn\x7b".data) :
    Parse (NewReader (utf8 s)) =
      some { err := some (Err.New "unknown type"), toks := [], reader := NewReader (utf8 s) } := by
  rw [Parse_eq, parseValue_succ]
  cases s with
  | nil =>
    rw [peek_nil _ (by rfl)]
    simp [adv_NewReader_zero]
  | cons c cs =>
    have hc := h c (by simp)
    have hn : c.toNat ∉ ("\"0123456789-[tfn\x7b".data).map Char.toNat :=
      fun hh => hc (mem_of_toNat_mem _ _ hh)
    rw [peek_cons _ c cs (by rfl)]
    have e : ("\"0123456789-[tfn\x7b".data).map Char.toNat =
      [34, 48, 49, 50, 51, 52, 53, 54, 55, 56, 57, 45, 91, 116, 102, 110, 123] := by decide
    rw [e] at hn
    simp only [List.mem_cons, List.mem_nil_iff, or_false, not_or] at hn
    have h1 : ¬ (c.toNat = 34) := by omega
    have h2 : ¬ ((48 ≤ c.toNat ∧ c.toNat ≤ 57) ∨ c.toNat = 45) := by omega
    have h3 : ¬ (c.toNat = 91) := by omega
    have h4 : ¬ (c.toNat = 116 ∨ c.toNat = 102) := by omega
    have h5 : ¬ (c.toNat = 110) := by omega
    have h6 : ¬ (c.toNat = 123) := by omega
    simp only [h1, h2, h3, h4, h5, h6, if_false, adv_NewReader_zero]

/-- C9, at a text that starts with a space and at the empty text. -/
theorem C9_unknown_type_witness :
    Parse (NewReader (utf8 " 1".data)) =
        some { err := some (Err.New "unknown type"), toks := [],
               reader := NewReader (utf8 " 1".data) } ∧
      Parse (NewReader (utf8 [])) =
        some { err := some (Err.New "unknown type"), toks := [], reader := NewReader (utf8 []) } :=
  ⟨C9_unknown_type " 1".data (by decide), C9_unknown_type [] (by decide)⟩

theorem parseBool_eq (r : Reader) (c : Char) (cs : List Char) (h : r.unread = utf8 (c :: cs))
    (hc : c.toNat = 116 ∨ c.toNat = 102) :
    parseBool r = if c.toNat = 116 then parseLiteral (r.adv 0) BoolType "true"
      else parseLiteral (r.adv 0) BoolType "false" := by
  have h0 : (r.adv 0).unread = utf8 (c :: cs) := by rw [unread_adv_zero, h]
  have hn : ¬ (c.toNat ≠ 116 ∧ c.toNat ≠ 102) := by omega
  simp only [parseBool, peek_cons r c cs h, peek_cons _ c cs h0, hn, if_false, adv_adv]

theorem parseValue_keyword (fuel : Nat) (r : Reader) (lit : String) (t : TokenType) (c : Char)
    (cs : List Char) (hk : keyword lit t) (hc : lit.data.head? = some c)
    (h : r.unread = utf8 (c :: cs)) :
    parseValue (fuel + 1) r = some (parseLiteral (r.adv 0) t lit) := by
  rw [parseValue_succ, peek_cons r c cs h]
  have h0 : (r.adv 0).unread = utf8 (c :: cs) := by rw [unread_adv_zero, h]
  rcases hk with ⟨rfl, rfl⟩ | ⟨rfl, rfl⟩ | ⟨rfl, rfl⟩
  · have e : c = Char.ofNat 116 := by
      have : some (Char.ofNat 116) = some c := hc
      exact (Option.some.inj this).symm
    subst e
    rw [parseBool_eq _ _ cs h0 (by decide)]
    simp [adv_adv]
  · have e : c = Char.ofNat 102 := by
      have : some (Char.ofNat 102) = some c := hc
      exact (Option.some.inj this).symm
    subst e
    rw [parseBool_eq _ _ cs h0 (by decide)]
    simp [adv_adv]
  · have e : c = Char.ofNat 110 := by
      have : some (Char.ofNat 110) = some c := hc
      exact (Option.some.inj this).symm
    subst e
    simp [parseNull]

theorem keyword_plain (lit : String) (t : TokenType) (hk : keyword lit t) :
    plain lit.data ∧ lit.data ≠ [] := by
  rcases hk with ⟨rfl, _⟩ | ⟨rfl, _⟩ | ⟨rfl, _⟩ <;> exact ⟨by decide, by decide⟩

/-- C7: `true`, `false` and `null` are matched as one unit. Before any remaining text the
scan of the word succeeds, emits its characters with the one category of the word and leaves
the remaining text unread; a text that starts with the first character of a word and not with
the word makes the scan fail with a syntax error and no token. -/
theorem C7_literals (lit : String) (t : TokenType) (hk : keyword lit t) :
    (∀ rest : List Char,
      Parse (NewReader (utf8 (lit.data ++ rest))) =
        some { err := none, toks := tokens t lit.data,
               reader := (NewReader (utf8 (lit.data ++ rest))).adv lit.length } ∧
      ((NewReader (utf8 (lit.data ++ rest))).adv lit.length).unread = utf8 rest) ∧
    (∀ s : List Char, s.head? = lit.data.head? → ¬ lit.data <+: s →
      ∃ got n, Parse (NewReader (utf8 s)) =
        some { err := some (unexpected got lit), toks := [],
               reader := (NewReader (utf8 s)).adv n }) := by
  have hp := keyword_plain lit t hk
  have hlen : (utf8 lit.data).length = lit.length := by
    rcases hk with ⟨rfl, _⟩ | ⟨rfl, _⟩ | ⟨rfl, _⟩ <;> decide
  constructor
  · intro rest
    cases hd : lit.data with
    | nil => exact absurd hd hp.2
    | cons c cs =>
      have hu : (NewReader (utf8 (lit.data ++ rest))).unread = utf8 (c :: (cs ++ rest)) := by
        rw [unread_NewReader, hd]; rfl
      have hu2 : ((NewReader (utf8 (lit.data ++ rest))).adv 0).unread =
          utf8 (lit.data ++ rest) := by rw [unread_adv_zero, unread_NewReader]
      rw [← hd, Parse_eq, parseValue_keyword _ _ lit t c _ hk (by rw [hd]; rfl) hu,
        parseLiteral_ok _ t lit rest hp.2 hu2, adv_adv, hlen, Nat.zero_add, ← hlen]
      exact ⟨rfl, unread_adv_utf8 _ _ _ (unread_NewReader _)⟩
  · intro s hs hn
    cases hd : lit.data with
    | nil => exact absurd hd hp.2
    | cons c cs =>
      cases s with
      | nil => rw [hd] at hs; simp at hs
      | cons d ds =>
        have hcd : d = c := by rw [hd] at hs; simpa using hs
        subst hcd
        have hu : (NewReader (utf8 (d :: ds))).unread = utf8 (d :: ds) := unread_NewReader _
        have hu2 : ((NewReader (utf8 (d :: ds))).adv 0).unread = utf8 (d :: ds) := by
          rw [unread_adv_zero, unread_NewReader]
        rw [Parse_eq, parseValue_keyword _ _ lit t d _ hk (by rw [hd]; rfl) hu]
        rcases parseLiteral_cases _ t lit (d :: ds) hp.1 hu2 (by simp) with
          ⟨rest, hr, _⟩ | ⟨_, hf⟩
        · exact absurd (show lit.data <+: d :: ds from ⟨rest, hr.symm⟩) hn
        · rw [hf, adv_adv]
          exact ⟨_, _, rfl⟩

/-- C7, at `true` before `, 1`, and at the cut-short `tru`. -/
theorem C7_literals_witness :
    Parse (NewReader (utf8 ("true".data ++ ", 1".data))) =
        some { err := none, toks := tokens BoolType "true".data,
               reader := (NewReader (utf8 ("true".data ++ ", 1".data))).adv 4 } ∧
      ∃ got n, Parse (NewReader (utf8 "tru".data)) =
        some { err := some (unexpected got "true"), toks := [],
               reader := (NewReader (utf8 "tru".data)).adv n } :=
  ⟨((C7_literals "true" BoolType (Or.inl ⟨rfl, rfl⟩)).1 ", 1".data).1,
   (C7_literals "true" BoolType (Or.inl ⟨rfl, rfl⟩)).2 "tru".data (by decide) (by decide)⟩

theorem Yields.andThen {o : Out} {k : Reader → Option Out} {ts ts2 : List Token}
    {mid rest : List Char} {e : Option Err} (h1 : Yields (some o) none ts mid)
    (h2 : ∀ r, r.unread = utf8 mid → Yields (k r) e ts2 rest) :
    Yields (o.andThen k) e (ts ++ ts2) rest := by
  obtain ⟨r1, ho, hr1⟩ := h1
  obtain ⟨r2, hk, hr2⟩ := h2 r1 hr1
  rw [Option.some.inj ho]
  exact ⟨r2, by simp [Out.andThen, hk, Out.emitFirst], hr2⟩

theorem Yields.bind_andThen {x : Option Out} {k : Reader → Option Out} {ts ts2 : List Token}
    {mid rest : List Char} {e : Option Err} (h1 : Yields x none ts mid)
    (h2 : ∀ r, r.unread = utf8 mid → Yields (k r) e ts2 rest) :
    Yields (x.bind fun o => o.andThen k) e (ts ++ ts2) rest := by
  obtain ⟨r1, ho, hr1⟩ := h1
  rw [ho, Option.some_bind]
  exact Yields.andThen ⟨r1, rfl, hr1⟩ h2

theorem Yields.andThen_fail {o : Out} {k : Reader → Option Out} {ts : List Token}
    {rest : List Char} {e : Err} (h1 : Yields (some o) (some e) ts rest) :
    Yields (o.andThen k) (some e) ts rest := by
  obtain ⟨r1, ho, hr1⟩ := h1
  rw [Option.some.inj ho]
  exact ⟨r1, rfl, hr1⟩

theorem Yields.bind_fail {x : Option Out} {k : Reader → Option Out} {ts : List Token}
    {rest : List Char} {e : Err} (h1 : Yields x (some e) ts rest) :
    Yields (x.bind fun o => o.andThen k) (some e) ts rest := by
  obtain ⟨r1, ho, hr1⟩ := h1
  rw [ho, Option.some_bind]
  exact ⟨r1, rfl, hr1⟩

theorem Yields.nil_append {x : Option Out} {e : Option Err} {ts : List Token} {rest : List Char}
    (h : Yields x e ([] ++ ts) rest) : Yields x e ts rest := h

theorem stopsAt_cons (p : Char → Bool) (c : Char) (cs : List Char) (h : p c = false) :
    stopsAt p (c :: cs) := by
  intro d hd
  simp at hd
  rw [← hd]; exact h

theorem stopsAt_nil (p : Char → Bool) : stopsAt p [] := by
  intro d hd
  simp at hd

theorem yields_literal (r : Reader) (t : TokenType) (lit : String) (rest : List Char)
    (hl : lit.data ≠ []) (h : r.unread = utf8 (lit.data ++ rest)) :
    Yields (some (parseLiteral r t lit)) none (tokens t lit.data) rest :=
  ⟨_, by rw [parseLiteral_ok r t lit rest hl h], unread_adv_utf8 r _ _ h⟩

theorem yields_whitespace (r : Reader) (t : TokenType) (ws rest : List Char)
    (hw : ∀ c ∈ ws, isSpace c = true) (hs : stopsAt isSpace rest)
    (h : r.unread = utf8 (ws ++ rest)) :
    Yields (parseWhitespace r t) none (tokens t ws) rest :=
  ⟨_, parseWhitespace_ok t ws rest r hw hs h, unread_adv_utf8 r _ _ h⟩

theorem yields_no_whitespace (r : Reader) (t : TokenType) (rest : List Char)
    (hs : stopsAt isSpace rest) (h : r.unread = utf8 rest) :
    Yields (parseWhitespace r t) none [] rest :=
  yields_whitespace r t [] rest (by simp) hs h

theorem yields_number (r : Reader) (ds rest : List Char)
    (hw : ∀ c ∈ ds, isNumberChar c = true) (hs : stopsAt isNumberChar rest)
    (h : r.unread = utf8 (ds ++ rest)) :
    Yields (parseNumber r) none (tokens NumberType ds) rest :=
  ⟨_, parseNumber_ok ds rest r hw hs h, unread_adv_utf8 r _ _ h⟩

theorem yields_string (r : Reader) (b rest : List Char)
    (hb : ∀ c ∈ b, c ≠ dquote ∧ c ≠ backslash)
    (h : r.unread = utf8 (dquote :: (b ++ dquote :: rest))) :
    Yields (parseString r) none (tokens StringType (dquote :: (b ++ [dquote]))) rest :=
  ⟨_, parseString_ok b rest r hb h,
    unread_adv_utf8 r (dquote :: (b ++ [dquote])) rest (by rw [h]; simp)⟩

theorem yields_comma (r : Reader) (t : TokenType) (rest : List Char)
    (h : r.unread = utf8 (",".data ++ rest)) :
    Yields (some (parseComma r t)) none (tokens t ",".data) rest := by
  have h0 : (r.adv 0).unread = utf8 (",".data ++ rest) := by rw [unread_adv_zero, h]
  refine ⟨(r.adv 0).adv (utf8 ",".data).length, ?_, unread_adv_utf8 _ _ _ h0⟩
  have hc : (Char.ofNat 44).toNat = 44 := by decide
  simp only [parseComma, peek_cons r (Char.ofNat 44) rest h, hc, if_true,
    parseLiteral_ok _ t "," rest (by decide) h0]

theorem yields_no_comma (r : Reader) (t : TokenType) (rest : List Char)
    (hs : stopsAt (fun c => decide (c.toNat = 44)) rest) (h : r.unread = utf8 rest) :
    Yields (some (parseComma r t)) none [] rest := by
  refine ⟨r.adv 0, ?_, (unread_adv_zero r).trans h⟩
  cases rest with
  | nil =>
    have h44 : ¬ ((0 : Nat) = 44) := by decide
    simp only [parseComma, peek_nil r h, h44, if_false]
  | cons c cs =>
    have hc : ¬ (c.toNat = 44) := by simpa using hs c (by simp)
    simp only [parseComma, peek_cons r c cs h, hc, if_false]

theorem yields_unknown_type (fuel : Nat) (r : Reader) (rest : List Char)
    (hc : ∀ c ∈ rest.head?, c ∉ "\"0123456789-[tfn\x7b".data) (h : r.unread = utf8 rest) :
    Yields (parseValue (fuel + 1) r) (some (Err.New "unknown type")) [] rest := by
  refine ⟨r.adv 0, ?_, (unread_adv_zero r).trans h⟩
  rw [parseValue_succ]
  cases rest with
  | nil =>
    rw [peek_nil _ h]
    simp
  | cons c cs =>
    have hc := hc c (by simp)
    have hn : c.toNat ∉ ("\"0123456789-[tfn\x7b".data).map Char.toNat :=
      fun hh => hc (mem_of_toNat_mem _ _ hh)
    rw [peek_cons _ c cs h]
    have e : ("\"0123456789-[tfn\x7b".data).map Char.toNat =
      [34, 48, 49, 50, 51, 52, 53, 54, 55, 56, 57, 45, 91, 116, 102, 110, 123] := by decide
    rw [e] at hn
    simp only [List.mem_cons, List.mem_nil_iff, or_false, not_or] at hn
    have h1 : ¬ (c.toNat = 34) := by omega
    have h2 : ¬ ((48 ≤ c.toNat ∧ c.toNat ≤ 57) ∨ c.toNat = 45) := by omega
    have h3 : ¬ (c.toNat = 91) := by omega
    have h4 : ¬ (c.toNat = 116 ∨ c.toNat = 102) := by omega
    have h5 : ¬ (c.toNat = 110) := by omega
    have h6 : ¬ (c.toNat = 123) := by omega
    simp only [h1, h2, h3, h4, h5, h6, if_false]

/-! ### The container loops at a known next character -/

theorem objectLoop_enter (fuel : Nat) (r : Reader) (c : Char) (cs : List Char)
    (h : r.unread = utf8 (c :: cs)) (hc : c.toNat ≠ 125) :
    objectLoop (fuel + 1) r =
      ((parseWhitespace (r.adv 0) ObjectType).bind fun o => o.andThen fun reader =>
      (parseString reader).bind fun o => o.andThen fun reader =>
      (parseWhitespace reader ObjectType).bind fun o => o.andThen fun reader =>
      (parseLiteral reader ObjectType ":").andThen fun reader =>
      (parseWhitespace reader ObjectType).bind fun o => o.andThen fun reader =>
      (parseValue fuel reader).bind fun o => o.andThen fun reader =>
      (parseComma reader ObjectType).andThen fun reader =>
      (parseWhitespace reader ObjectType).bind fun o => o.andThen fun reader =>
      objectLoop fuel reader) := by
  rw [objectLoop, peek_cons r c cs h]
  simp only [hc, ne_eq, not_false_eq_true, if_true]

theorem objectLoop_enter_nil (fuel : Nat) (r : Reader) (h : r.unread = []) :
    objectLoop (fuel + 1) r =
      ((parseWhitespace (r.adv 0) ObjectType).bind fun o => o.andThen fun reader =>
      (parseString reader).bind fun o => o.andThen fun reader =>
      (parseWhitespace reader ObjectType).bind fun o => o.andThen fun reader =>
      (parseLiteral reader ObjectType ":").andThen fun reader =>
      (parseWhitespace reader ObjectType).bind fun o => o.andThen fun reader =>
      (parseValue fuel reader).bind fun o => o.andThen fun reader =>
      (parseComma reader ObjectType).andThen fun reader =>
      (parseWhitespace reader ObjectType).bind fun o => o.andThen fun reader =>
      objectLoop fuel reader) := by
  rw [objectLoop, peek_nil r h]
  have h0 : (0 : Nat) ≠ 125 := by decide
  simp only [h0, ne_eq, not_false_eq_true, if_true]

theorem objectLoop_exit (fuel : Nat) (r : Reader) (cs : List Char)
    (h : r.unread = utf8 ("\x7d".data ++ cs)) :
    objectLoop (fuel + 1) r = some (parseLiteral (r.adv 0) ObjectType "\x7d") := by
  rw [objectLoop, peek_cons r (Char.ofNat 125) cs h]
  have hc : (Char.ofNat 125).toNat = 125 := by decide
  simp only [hc, ne_eq, not_true_eq_false, if_false]

theorem arrayLoop_enter (fuel : Nat) (r : Reader) (c : Char) (cs : List Char)
    (h : r.unread = utf8 (c :: cs)) (hc : c.toNat ≠ 93) :
    arrayLoop (fuel + 1) r =
      ((parseWhitespace (r.adv 0) ArrayType).bind fun o => o.andThen fun reader =>
      (parseValue fuel reader).bind fun o => o.andThen fun reader =>
      (parseWhitespace reader ArrayType).bind fun o => o.andThen fun reader =>
      (parseComma reader ArrayType).andThen fun reader =>
      (parseWhitespace reader ArrayType).bind fun o => o.andThen fun reader =>
      arrayLoop fuel reader) := by
  rw [arrayLoop, peek_cons r c cs h]
  simp only [hc, ne_eq, not_false_eq_true, if_true]

theorem arrayLoop_enter_nil (fuel : Nat) (r : Reader) (h : r.unread = []) :
    arrayLoop (fuel + 1) r =
      ((parseWhitespace (r.adv 0) ArrayType).bind fun o => o.andThen fun reader =>
      (parseValue fuel reader).bind fun o => o.andThen fun reader =>
      (parseWhitespace reader ArrayType).bind fun o => o.andThen fun reader =>
      (parseComma reader ArrayType).andThen fun reader =>
      (parseWhitespace reader ArrayType).bind fun o => o.andThen fun reader =>
      arrayLoop fuel reader) := by
  rw [arrayLoop, peek_nil r h]
  have h0 : (0 : Nat) ≠ 93 := by decide
  simp only [h0, ne_eq, not_false_eq_true, if_true]

theorem arrayLoop_exit (fuel : Nat) (r : Reader) (cs : List Char)
    (h : r.unread = utf8 ("]".data ++ cs)) :
    arrayLoop (fuel + 1) r = some (parseLiteral (r.adv 0) ArrayType "]") := by
  rw [arrayLoop, peek_cons r (Char.ofNat 93) cs h]
  have hc : (Char.ofNat 93).toNat = 93 := by decide
  simp only [hc, ne_eq, not_true_eq_false, if_false]

theorem yields_arrayLoop_exit (fuel : Nat) (r : Reader) (rest : List Char)
    (h : r.unread = utf8 ("]".data ++ rest)) :
    Yields (arrayLoop (fuel + 1) r) none (tokens ArrayType "]".data) rest := by
  rw [arrayLoop_exit fuel r rest h]
  exact yields_literal _ _ _ _ (by decide) ((unread_adv_zero r).trans h)

theorem yields_objectLoop_exit (fuel : Nat) (r : Reader) (rest : List Char)
    (h : r.unread = utf8 ("\x7d".data ++ rest)) :
    Yields (objectLoop (fuel + 1) r) none (tokens ObjectType "\x7d".data) rest := by
  rw [objectLoop_exit fuel r rest h]
  exact yields_literal _ _ _ _ (by decide) ((unread_adv_zero r).trans h)

theorem parseValue_string (fuel : Nat) (r : Reader) (cs : List Char)
    (h : r.unread = utf8 (dquote :: cs)) :
    parseValue (fuel + 1) r = parseString (r.adv 0) := by
  rw [parseValue_succ, peek_cons r dquote cs h]
  have hc : dquote.toNat = 34 := by decide
  simp only [hc, if_true]

theorem parseValue_array (fuel : Nat) (r : Reader) (cs : List Char)
    (h : r.unread = utf8 ("[".data ++ cs)) :
    parseValue (fuel + 1) r = parseArray fuel (r.adv 0) := by
  rw [parseValue_succ, peek_cons r (Char.ofNat 91) cs h]
  have hc : (Char.ofNat 91).toNat = 91 := by decide
  simp only [hc]
  simp

theorem parseValue_object (fuel : Nat) (r : Reader) (cs : List Char)
    (h : r.unread = utf8 ("\x7b".data ++ cs)) :
    parseValue (fuel + 1) r = parseObject fuel (r.adv 0) := by
  rw [parseValue_succ, peek_cons r (Char.ofNat 123) cs h]
  have hc : (Char.ofNat 123).toNat = 123 := by decide
  simp only [hc]
  simp

theorem parseValue_number (fuel : Nat) (r : Reader) (c : Char) (cs : List Char)
    (h : r.unread = utf8 (c :: cs)) (hc : (48 ≤ c.toNat ∧ c.toNat ≤ 57) ∨ c.toNat = 45) :
    parseValue (fuel + 1) r = parseNumber (r.adv 0) := by
  rw [parseValue_succ, peek_cons r c cs h]
  have h1 : ¬ (c.toNat = 34) := by omega
  simp only [h1, hc, if_false, if_true]

theorem Parse_fuel (r : Reader) (n : Nat) (h : n ≤ 3 * r.unread.length + 2) :
    ∃ f, Parse r = parseValue (f + n + 1) r := by
  refine ⟨3 * r.unread.length + 2 - n, ?_⟩
  rw [Parse_eq, Nat.sub_add_cancel h]

theorem missing_value (fuel : Nat) (r : Reader) (k : List Char)
    (hk : ∀ c ∈ k, c ≠ dquote ∧ c ≠ backslash)
    (h : r.unread = utf8 ("\x7b".data ++ (dquote :: (k ++ dquote :: ":\x7d".data)))) :
    Yields (parseObject (fuel + 3) r) (some (Err.New "unknown type"))
      (tokens ObjectType "\x7b".data ++
        ([] ++ (tokens StringType (dquote :: (k ++ [dquote])) ++
          ([] ++ (tokens ObjectType ":".data ++ ([] ++ [])))))) "\x7d".data := by
  rw [parseObject]
  refine Yields.andThen (yields_literal r _ _ _ (by decide) h) (fun r1 h1 => ?_)
  rw [objectLoop_enter _ r1 dquote _ h1 (by decide)]
  refine Yields.bind_andThen (yields_no_whitespace _ _ _ (stopsAt_cons _ _ _ (by decide))
    ((unread_adv_zero r1).trans h1)) (fun r2 h2 => ?_)
  refine Yields.bind_andThen (yields_string r2 k (":".data ++ "\x7d".data) hk h2)
    (fun r3 h3 => ?_)
  refine Yields.bind_andThen (yields_no_whitespace _ _ _ (stopsAt_cons _ _ _ (by decide)) h3)
    (fun r4 h4 => ?_)
  refine Yields.andThen (yields_literal r4 _ ":" "\x7d".data (by decide) h4) (fun r5 h5 => ?_)
  refine Yields.bind_andThen (yields_no_whitespace _ _ _ (stopsAt_cons _ _ _ (by decide)) h5)
    (fun r6 h6 => ?_)
  exact Yields.bind_fail (yields_unknown_type fuel r6 _ (by decide) h6)

/-- C8: a missing member value. For every key `k` without `"` and `\`, the scan of
`{"k":}` fails with "unknown type" after emitting `{` as Object, the quoted key as String and
`:` as Object; the closing brace is neither emitted nor read. -/
theorem C8_missing_value (k : List Char) (hk : ∀ c ∈ k, c ≠ dquote ∧ c ≠ backslash) :
    ∃ r, Parse (NewReader (utf8 ("\x7b\"".data ++ k ++ "\":\x7d".data))) =
        some { err := some (Err.New "unknown type"),
               toks := tokens ObjectType "\x7b".data ++
                 tokens StringType ("\"".data ++ k ++ "\"".data) ++ tokens ObjectType ":".data,
               reader := r } ∧
      r.unread = utf8 "\x7d".data := by
  have hu : (NewReader (utf8 ("\x7b\"".data ++ k ++ "\":\x7d".data))).unread =
      utf8 ("\x7b".data ++ (dquote :: (k ++ dquote :: ":\x7d".data))) := by
    rw [unread_NewReader]
    have : "\x7b\"".data ++ k ++ "\":\x7d".data =
        "\x7b".data ++ (dquote :: (k ++ dquote :: ":\x7d".data)) := by
      simp [dquote]
    rw [this]
  have hlen : 3 ≤ 3 * (NewReader (utf8 ("\x7b\"".data ++ k ++ "\":\x7d".data))).unread.length
      + 2 := by
    have := Nat.lt_of_lt_of_le (show 0 < _ by simp)
      (utf8_length_le ("\x7b".data ++ (dquote :: (k ++ dquote :: ":\x7d".data))))
    rw [hu]
    omega
  obtain ⟨f, hf⟩ := Parse_fuel _ 3 hlen
  rw [hf, parseValue_object _ _ _ hu]
  obtain ⟨r, h1, h2⟩ := missing_value f _ k hk ((unread_adv_zero _).trans hu)
  refine ⟨r, ?_, h2⟩
  rw [h1]
  simp [tokens, dquote]

/-- C8, at the key `a`: the five tokens of `{"a":` and the brace left unread. -/
theorem C8_missing_value_witness :
    ∃ r, Parse (NewReader (utf8 ("\x7b\"".data ++ "a".data ++ "\":\x7d".data))) =
        some { err := some (Err.New "unknown type"),
               toks := tokens ObjectType "\x7b".data ++
                 tokens StringType ("\"".data ++ "a".data ++ "\"".data) ++
                 tokens ObjectType ":".data,
               reader := r } ∧
      r.unread = utf8 "\x7d".data :=
  C8_missing_value "a".data (by decide)

set_option maxRecDepth 100000 in
/-- C2: scanning the example document of the repository succeeds, consumes all 25 characters
and emits the 25 tokens listed; the document of the test gives its 23 tokens. -/
theorem C2_example_tokens :
    Parse (source "\x7b\"a\":[1,2,null],\"b\":true\x7d") =
      some { err := none,
             toks := tokens ObjectType "\x7b".data ++ tokens StringType "\"a\"".data ++
               tokens ObjectType ":".data ++ tokens ArrayType "[".data ++
               tokens NumberType "1".data ++ tokens ArrayType ",".data ++
               tokens NumberType "2".data ++ tokens ArrayType ",".data ++
               tokens NullType "null".data ++ tokens ArrayType "]".data ++
               tokens ObjectType ",".data ++ tokens StringType "\"b\"".data ++
               tokens ObjectType ":".data ++ tokens BoolType "true".data ++
               tokens ObjectType "\x7d".data,
             reader := (source "\x7b\"a\":[1,2,null],\"b\":true\x7d").adv 25 } ∧
    ((source "\x7b\"a\":[1,2,null],\"b\":true\x7d").adv 25).unread = [] ∧
    Parse (source "\x7b\"a\":[1,null],\"b\":true\x7d") =
      some { err := none,
             toks := tokens ObjectType "\x7b".data ++ tokens StringType "\"a\"".data ++
               tokens ObjectType ":".data ++ tokens ArrayType "[".data ++
               tokens NumberType "1".data ++ tokens ArrayType ",".data ++
               tokens NullType "null".data ++ tokens ArrayType "]".data ++
               tokens ObjectType ",".data ++ tokens StringType "\"b\"".data ++
               tokens ObjectType ":".data ++ tokens BoolType "true".data ++
               tokens ObjectType "\x7d".data,
             reader := (source "\x7b\"a\":[1,null],\"b\":true\x7d").adv 23 } := by
  decide

theorem arrayLoop_one (fuel : Nat) (r : Reader) (c : Char) (cs rest : List Char)
    (ts : List Token) (h : r.unread = utf8 (c :: cs))
    (hc : c.toNat ≠ 93) (hs : isSpace c = false)
    (hv : ∀ r1, r1.unread = utf8 (c :: cs) →
      Yields (parseValue (fuel + 1) r1) none ts ("]".data ++ rest)) :
    Yields (arrayLoop (fuel + 2) r) none (ts ++ tokens ArrayType "]".data) rest := by
  rw [arrayLoop_enter _ r c cs h hc]
  have h1 := Yields.bind_andThen (yields_no_whitespace _ ArrayType _ (stopsAt_cons _ _ _ hs)
    ((unread_adv_zero r).trans h)) (fun r1 h1 =>
    Yields.bind_andThen (hv r1 h1) (fun r2 h2 =>
    Yields.bind_andThen (yields_no_whitespace r2 ArrayType _ (stopsAt_cons _ _ _ (by decide)) h2)
    (fun r3 h3 =>
    Yields.andThen (yields_no_comma r3 ArrayType _ (stopsAt_cons _ _ _ (by decide)) h3)
    (fun r4 h4 =>
    Yields.bind_andThen
      (yields_no_whitespace r4 ArrayType _ (stopsAt_cons _ _ _ (by decide)) h4)
    (fun r5 h5 => yields_arrayLoop_exit fuel r5 rest h5)))))
  simpa using h1

theorem nested_head (d : Nat) (b tail : List Char) :
    ∃ c cs, opens d ++ dquote :: (b ++ tail) = c :: cs ∧ c.toNat ≠ 93 ∧ isSpace c = false := by
  cases d with
  | zero => exact ⟨dquote, _, rfl, by decide, by decide⟩
  | succ d =>
    exact ⟨Char.ofNat 91, opens d ++ dquote :: (b ++ tail),
      by simp [opens, List.replicate_succ], by decide, by decide⟩

theorem nested_string (b : List Char) (hb : ∀ c ∈ b, c ≠ dquote ∧ c ≠ backslash) (d : Nat) :
    ∀ (fuel : Nat) (r : Reader) (rest : List Char),
      r.unread = utf8 (opens d ++ dquote :: (b ++ dquote :: (closes d ++ rest))) →
      Yields (parseValue (fuel + 3 * d + 1) r) none
        (tokens ArrayType (opens d) ++ tokens StringType (dquote :: (b ++ [dquote])) ++
          tokens ArrayType (closes d)) rest := by
  induction d with
  | zero =>
    intro fuel r rest h
    have h' : r.unread = utf8 (dquote :: (b ++ dquote :: rest)) := h
    rw [parseValue_string _ r _ h']
    have := yields_string _ b rest hb ((unread_adv_zero r).trans h')
    simpa [opens, closes, tokens] using this
  | succ d ih =>
    intro fuel r rest h
    have e1 : opens (d + 1) ++ dquote :: (b ++ dquote :: (closes (d + 1) ++ rest)) =
        "[".data ++ (opens d ++ dquote :: (b ++ dquote :: (closes d ++ ("]".data ++ rest)))) := by
      simp only [opens, closes, List.replicate_succ' d (Char.ofNat 93), List.replicate_succ,
        List.append_assoc]
      rfl
    rw [e1] at h
    have hf : fuel + 3 * (d + 1) + 1 = (fuel + 3 * d + 1) + 2 + 1 := by omega
    rw [hf, parseValue_array _ r _ h, parseArray]
    obtain ⟨c, cs, hcs, hc1, hc2⟩ := nested_head d b (dquote :: (closes d ++ ("]".data ++ rest)))
    have h2 := Yields.andThen (yields_literal (r.adv 0) ArrayType "[" _ (by decide)
      ((unread_adv_zero r).trans h)) (fun r1 h1 =>
        arrayLoop_one (fuel + 3 * d) r1 c cs rest _ (h1.trans (congrArg utf8 hcs)) hc1 hc2
          (fun r2 h2 => ih fuel r2 ("]".data ++ rest) (by rw [h2, hcs])))
    have e2 : tokens ArrayType (opens (d + 1)) = tokens ArrayType "[".data ++
        tokens ArrayType (opens d) := by
      simp [opens, List.replicate_succ, tokens]
    have e3 : tokens ArrayType (closes (d + 1)) = tokens ArrayType (closes d) ++
        tokens ArrayType "]".data := by
      simp [closes, List.replicate_succ' d (Char.ofNat 93), tokens]
    rw [e2, e3]
    simpa [List.append_assoc] using h2

/-- C4: a string literal is tagged String at any depth. For every depth `d`, every body `b`
without `"` and `\` and every remaining text, the scan of `d` opening brackets, the quoted
body and `d` closing brackets succeeds, emits the brackets as Array and every character of the
literal, quotes included, as String, and leaves the remaining text unread. -/
theorem C4_string_in_arrays (d : Nat) (b rest : List Char)
    (hb : ∀ c ∈ b, c ≠ dquote ∧ c ≠ backslash) :
    ∃ r, Parse (NewReader (utf8 (opens d ++ "\"".data ++ b ++ "\"".data ++ closes d ++ rest))) =
        some { err := none,
               toks := tokens ArrayType (opens d) ++ tokens StringType ("\"".data ++ b ++ "\"".data)
                 ++ tokens ArrayType (closes d),
               reader := r } ∧
      r.unread = utf8 rest := by
  have e : opens d ++ "\"".data ++ b ++ "\"".data ++ closes d ++ rest =
      opens d ++ dquote :: (b ++ dquote :: (closes d ++ rest)) := by
    simp [dquote]
  have hu : (NewReader (utf8 (opens d ++ "\"".data ++ b ++ "\"".data ++ closes d ++ rest))).unread
      = utf8 (opens d ++ dquote :: (b ++ dquote :: (closes d ++ rest))) := by
    rw [unread_NewReader, e]
  have hl : 3 * d ≤ 3 * (NewReader (utf8 (opens d ++ "\"".data ++ b ++ "\"".data ++ closes d
      ++ rest))).unread.length + 2 := by
    have := utf8_length_le (opens d ++ dquote :: (b ++ dquote :: (closes d ++ rest)))
    rw [hu]
    have h2 : d ≤ (opens d ++ dquote :: (b ++ dquote :: (closes d ++ rest))).length := by
      simp [opens]
    omega
  obtain ⟨f, hf⟩ := Parse_fuel _ (3 * d) hl
  rw [hf]
  obtain ⟨r, h1, h2⟩ := nested_string b hb d f _ rest hu
  exact ⟨r, by rw [h1]; simp [dquote, tokens], h2⟩

/-- C4, at depth 2 with a body of punctuation, digits and spaces before `, 3]`. -/
theorem C4_string_in_arrays_witness :
    ∃ r, Parse (NewReader (utf8 (opens 2 ++ "\"".data ++ "\x7b[a, 1]:\x7d".data ++ "\"".data ++
          closes 2 ++ ", 3]".data))) =
        some { err := none,
               toks := tokens ArrayType (opens 2) ++
                 tokens StringType ("\"".data ++ "\x7b[a, 1]:\x7d".data ++ "\"".data) ++
                 tokens ArrayType (closes 2),
               reader := r } ∧
      r.unread = utf8 ", 3]".data :=
  C4_string_in_arrays 2 "\x7b[a, 1]:\x7d".data ", 3]".data (by decide)

theorem digit_numberChar (c : Char) (h : isDigit c = true) : isNumberChar c = true := by
  have h1 : 48 ≤ c.toNat ∧ c.toNat ≤ 57 := by simpa [isDigit] using h
  have h2 : ∀ n, 48 ≤ n → n ≤ 57 → numberRune n = true := by
    intro n a b
    interval_cases n <;> decide
  exact h2 _ h1.1 h1.2

theorem tokens_digits (n : List Char) (h : ∀ c ∈ n, isDigit c = true) :
    tokens NumberType n = n.map numberOrArray := by
  simp only [tokens]
  apply List.map_congr_left
  intro c hc
  simp [numberOrArray, h c hc]

theorem yields_digits (fuel : Nat) (r : Reader) (n rest : List Char) (hn : n ≠ [])
    (hd : ∀ c ∈ n, isDigit c = true) (hs : stopsAt isNumberChar rest)
    (h : r.unread = utf8 (n ++ rest)) :
    Yields (parseValue (fuel + 1) r) none (n.map numberOrArray) rest := by
  cases n with
  | nil => exact absurd rfl hn
  | cons c cs =>
    have hc : 48 ≤ c.toNat ∧ c.toNat ≤ 57 := by simpa [isDigit] using hd c (by simp)
    rw [parseValue_number fuel r c (cs ++ rest) h (Or.inl hc), ← tokens_digits _ hd]
    exact yields_number _ _ rest (fun d hd2 => digit_numberChar d (hd d hd2)) hs
      ((unread_adv_zero r).trans h)

theorem digits_head (n tail : List Char) (hn : n ≠ []) (hd : ∀ c ∈ n, isDigit c = true) :
    ∃ c cs, n ++ tail = c :: cs ∧ c.toNat ≠ 93 ∧ isSpace c = false := by
  cases n with
  | nil => exact absurd rfl hn
  | cons c cs =>
    have hc : 48 ≤ c.toNat ∧ c.toNat ≤ 57 := by simpa [isDigit] using hd c (by simp)
    refine ⟨c, cs ++ tail, rfl, by omega, ?_⟩
    simp only [isSpace, decide_eq_false_iff_not]
    omega

theorem commaSpaced_head (ns : List (List Char)) (tail : List Char) (hne : ns ≠ [])
    (hd : ∀ n ∈ ns, n ≠ [] ∧ ∀ c ∈ n, isDigit c = true) :
    ∃ c cs, commaSpaced ns ++ tail = c :: cs ∧ c.toNat ≠ 93 ∧ isSpace c = false := by
  cases ns with
  | nil => exact absurd rfl hne
  | cons n ns =>
    have hn := hd n (by simp)
    cases ns with
    | nil => exact digits_head n tail hn.1 hn.2
    | cons m ns =>
      obtain ⟨c, cs, h1, h2, h3⟩ := digits_head n (", ".data ++ commaSpaced (m :: ns) ++ tail)
        hn.1 hn.2
      exact ⟨c, cs, by rw [← h1]; simp [commaSpaced], h2, h3⟩

theorem array_of_numbers (ns : List (List Char)) :
    ns ≠ [] → (∀ n ∈ ns, n ≠ [] ∧ ∀ c ∈ n, isDigit c = true) →
    ∀ (fuel : Nat) (r : Reader) (rest : List Char),
      r.unread = utf8 (commaSpaced ns ++ ("]".data ++ rest)) →
      Yields (arrayLoop (fuel + ns.length + 1) r) none
        ((commaSpaced ns ++ "]".data).map numberOrArray) rest := by
  induction ns with
  | nil => intro h; exact absurd rfl h
  | cons n ns ih =>
    intro _ hd fuel r rest h
    have hn := hd n (by simp)
    cases ns with
    | nil =>
      obtain ⟨c, cs, hcs, hc1, hc2⟩ := digits_head n ("]".data ++ rest) hn.1 hn.2
      have h1 := arrayLoop_one fuel r c cs rest (n.map numberOrArray)
        (h.trans (congrArg utf8 hcs)) hc1 hc2
        (fun r1 h1 => yields_digits fuel r1 n ("]".data ++ rest) hn.1 hn.2
          (stopsAt_cons _ (Char.ofNat 93) _ (by decide)) (by rw [h1, hcs]))
      simpa [commaSpaced, tokens, numberOrArray, isDigit] using h1
    | cons m ns =>
      have hm : ∀ k ∈ m :: ns, k ≠ [] ∧ ∀ c ∈ k, isDigit c = true :=
        fun k hk => hd k (by simp [List.mem_cons] at hk ⊢; tauto)
      have e : commaSpaced (n :: m :: ns) ++ ("]".data ++ rest) =
          n ++ (",".data ++ (" ".data ++ (commaSpaced (m :: ns) ++ ("]".data ++ rest)))) := by
        simp [commaSpaced]
      rw [e] at h
      obtain ⟨c, cs, hcs, hc1, hc2⟩ := digits_head n
        (",".data ++ (" ".data ++ (commaSpaced (m :: ns) ++ ("]".data ++ rest)))) hn.1 hn.2
      obtain ⟨c2, cs2, hcs2, _, hc4⟩ := commaSpaced_head (m :: ns) ("]".data ++ rest)
        (by simp) hm
      have hf : fuel + (n :: m :: ns).length + 1 = (fuel + (m :: ns).length + 1) + 1 := by
        simp only [List.length_cons]; omega
      rw [hf, arrayLoop_enter _ r c cs (h.trans (congrArg utf8 hcs)) hc1]
      have h1 := Yields.bind_andThen (yields_no_whitespace _ ArrayType _
        (stopsAt_cons _ _ _ hc2) ((unread_adv_zero r).trans (h.trans (congrArg utf8 hcs))))
        (fun r1 h1 =>
        Yields.bind_andThen (yields_digits (fuel + (m :: ns).length) r1 n
          (",".data ++ (" ".data ++ (commaSpaced (m :: ns) ++ ("]".data ++ rest)))) hn.1 hn.2
          (stopsAt_cons _ (Char.ofNat 44) _ (by decide)) (by rw [h1, hcs])) (fun r2 h2 =>
        Yields.bind_andThen (yields_no_whitespace r2 ArrayType _
          (stopsAt_cons _ (Char.ofNat 44) _ (by decide)) h2) (fun r3 h3 =>
        Yields.andThen (yields_comma r3 ArrayType _ h3) (fun r4 h4 =>
        Yields.bind_andThen (yields_whitespace r4 ArrayType " ".data _ (by decide)
          (by rw [hcs2]; exact stopsAt_cons _ _ _ hc4) h4) (fun r5 h5 =>
        ih (by simp) hm fuel r5 rest h5)))))
      have e2 : (commaSpaced (n :: m :: ns) ++ "]".data).map numberOrArray =
          n.map numberOrArray ++ (tokens ArrayType ",".data ++ (tokens ArrayType " ".data ++
            (commaSpaced (m :: ns) ++ "]".data).map numberOrArray)) := by
        simp [commaSpaced, tokens, numberOrArray, isDigit]
      rw [e2]
      simpa using h1

theorem commaSpaced_length (ns : List (List Char)) (h : ∀ n ∈ ns, n ≠ []) :
    ns.length ≤ (commaSpaced ns).length := by
  induction ns with
  | nil => simp
  | cons n ns ih =>
    have hn := List.length_pos.2 (h n (by simp))
    cases ns with
    | nil => simpa [commaSpaced] using hn
    | cons m ns =>
      have := ih (fun k hk => h k (by simp [List.mem_cons] at hk ⊢; tauto))
      simp only [commaSpaced, List.length_append, List.length_cons] at this ⊢
      omega

/-- C5: array punctuation and the whitespace between elements are tagged Array. For every
non-empty list of non-empty digit strings, the scan of the bracketed list with `, ` between
the elements succeeds, reads the whole text and emits one token for each character: Number
for each digit and Array for the brackets, the commas and the spaces. -/
theorem C5_array_of_numbers (ns : List (List Char)) (hne : ns ≠ [])
    (hd : ∀ n ∈ ns, n ≠ [] ∧ ∀ c ∈ n, isDigit c = true) :
    ∃ r, Parse (NewReader (utf8 ("[".data ++ commaSpaced ns ++ "]".data))) =
        some { err := none,
               toks := ("[".data ++ commaSpaced ns ++ "]".data).map numberOrArray,
               reader := r } ∧
      r.unread = [] := by
  have hu : (NewReader (utf8 ("[".data ++ commaSpaced ns ++ "]".data))).unread =
      utf8 ("[".data ++ (commaSpaced ns ++ ("]".data ++ []))) := by
    rw [unread_NewReader]; simp
  have hl : ns.length + 2 ≤
      3 * (NewReader (utf8 ("[".data ++ commaSpaced ns ++ "]".data))).unread.length + 2 := by
    have h1 := utf8_length_le ("[".data ++ (commaSpaced ns ++ ("]".data ++ [])))
    have h2 := commaSpaced_length ns (fun n hn => (hd n hn).1)
    have h3 : (commaSpaced ns).length ≤
        ("[".data ++ (commaSpaced ns ++ ("]".data ++ []))).length := by
      rw [List.length_append, List.length_append]; omega
    rw [hu]
    omega
  obtain ⟨f, hf⟩ := Parse_fuel _ (ns.length + 2) hl
  have hf2 : f + (ns.length + 2) = (f + ns.length + 1) + 1 := by omega
  rw [hf, parseValue_array _ _ _ hu, hf2, parseArray]
  obtain ⟨r, h1, h2⟩ := Yields.andThen (yields_literal _ ArrayType "[" _ (by decide)
    ((unread_adv_zero _).trans hu)) (fun r1 h1 => array_of_numbers ns hne hd f r1 [] h1)
  refine ⟨r, ?_, h2⟩
  rw [h1]
  simp [tokens, numberOrArray, isDigit]

/-- C5, at `[1, 2]`: the comma and the space after it are Array tokens. -/
theorem C5_array_of_numbers_witness :
    ∃ r, Parse (NewReader (utf8 ("[".data ++ commaSpaced ["1".data, "2".data] ++ "]".data))) =
        some { err := none,
               toks := tokens ArrayType "[".data ++ tokens NumberType "1".data ++
                 tokens ArrayType ", ".data ++ tokens NumberType "2".data ++
                 tokens ArrayType "]".data,
               reader := r } ∧
      r.unread = [] :=
  C5_array_of_numbers ["1".data, "2".data] (by decide) (by decide)

theorem ScanInvariant.then_step {P : Reader → Out → Prop} (hP : ScanInvariant P) {r : Reader}
    {o out : Out} {k : Reader → Option Out} (ho : P r o)
    (hk : ∀ r2 o2, k r2 = some o2 → P r2 o2) (h : o.andThen k = some out) : P r out := by
  unfold Out.andThen at h
  cases he : o.err with
  | some e =>
    rw [he] at h
    simp only [Option.some.injEq] at h
    rw [← h]; exact ho
  | none =>
    rw [he] at h
    simp only [Option.map_eq_some'] at h
    obtain ⟨o2, h2, h3⟩ := h
    rw [← h3]
    exact hP.seq r o o2 ho he (hk _ _ h2)

theorem ScanInvariant.bind_step {P : Reader → Out → Prop} (hP : ScanInvariant P) {r : Reader}
    {x : Option Out} {out : Out} {k : Reader → Option Out} (hx : ∀ o, x = some o → P r o)
    (hk : ∀ r2 o2, k r2 = some o2 → P r2 o2)
    (h : (x.bind fun o => o.andThen k) = some out) : P r out := by
  cases hxo : x with
  | none => rw [hxo] at h; simp at h
  | some o =>
    rw [hxo, Option.some_bind] at h
    exact hP.then_step (hx o hxo) hk h

theorem scan_invariant_all {P : Reader → Out → Prop} (hP : ScanInvariant P) (fuel : Nat) :
    (∀ r o, parseValue fuel r = some o → P r o) ∧
    (∀ r o, parseObject fuel r = some o → P r o) ∧
    (∀ r o, objectLoop fuel r = some o → P r o) ∧
    (∀ r o, parseArray fuel r = some o → P r o) ∧
    (∀ r o, arrayLoop fuel r = some o → P r o) := by
  induction fuel with
  | zero =>
    refine ⟨?_, ?_, ?_, ?_, ?_⟩ <;> intro r o h
    · simp [parseValue] at h
    · simp [parseObject] at h
    · simp [objectLoop] at h
    · simp [parseArray] at h
    · simp [arrayLoop] at h
  | succ fuel ih =>
    obtain ⟨ihV, ihO, ihOL, ihA, ihAL⟩ := ih
    refine ⟨?_, ?_, ?_, ?_, ?_⟩
    · intro r o h
      rw [parseValue_succ] at h
      apply hP.peek
      have hu := unread_peek r
      have hp : (peek r).1 = firstRune (peek r).2.unread := by rw [hu, peek_eq]
      split_ifs at h with h1 h2 h3 h4 h5 h6
      · exact hP.string _ _ h
      · exact hP.number _ _ (by rw [← hp]; exact h2) h
      · exact ihA _ _ h
      · rw [← Option.some.inj h]; exact hP.bool _ (by rw [← hp]; exact h4)
      · rw [← Option.some.inj h]; exact hP.null _ (by rw [← hp]; exact h5)
      · exact ihO _ _ h
      · rw [← Option.some.inj h]; exact hP.unknown _
    · intro r o h
      rw [parseObject] at h
      exact hP.then_step (hP.literal r (ObjectType, "\x7b") (by simp [structural])) ihOL h
    · intro r o h
      rw [objectLoop] at h
      apply hP.peek
      split_ifs at h with h1
      · refine hP.bind_step (hP.whitespace _ _ (Or.inl rfl)) (fun r1 o1 h1 => ?_) h
        refine hP.bind_step (hP.string _) (fun r2 o2 h2 => ?_) h1
        refine hP.bind_step (hP.whitespace _ _ (Or.inl rfl)) (fun r3 o3 h3 => ?_) h2
        refine hP.then_step (hP.literal _ (ObjectType, ":") (by simp [structural]))
          (fun r4 o4 h4 => ?_) h3
        refine hP.bind_step (hP.whitespace _ _ (Or.inl rfl)) (fun r5 o5 h5 => ?_) h4
        refine hP.bind_step (ihV _) (fun r6 o6 h6 => ?_) h5
        refine hP.then_step (hP.comma _ _ (Or.inl rfl)) (fun r7 o7 h7 => ?_) h6
        exact hP.bind_step (hP.whitespace _ _ (Or.inl rfl)) ihOL h7
      · rw [← Option.some.inj h]
        exact hP.literal _ (ObjectType, "\x7d") (by simp [structural])
    · intro r o h
      rw [parseArray] at h
      exact hP.then_step (hP.literal r (ArrayType, "[") (by simp [structural])) ihAL h
    · intro r o h
      rw [arrayLoop] at h
      apply hP.peek
      split_ifs at h with h1
      · refine hP.bind_step (hP.whitespace _ _ (Or.inr rfl)) (fun r1 o1 h1 => ?_) h
        refine hP.bind_step (ihV _) (fun r2 o2 h2 => ?_) h1
        refine hP.bind_step (hP.whitespace _ _ (Or.inr rfl)) (fun r3 o3 h3 => ?_) h2
        refine hP.then_step (hP.comma _ _ (Or.inr rfl)) (fun r4 o4 h4 => ?_) h3
        exact hP.bind_step (hP.whitespace _ _ (Or.inr rfl)) ihAL h4
      · rw [← Option.some.inj h]
        exact hP.literal _ (ArrayType, "]") (by simp [structural])

/-- Induction over the scanner: a relation that satisfies `ScanInvariant` holds between the
reader `parseValue` is called on and every outcome of the call. -/
theorem scan_invariant {P : Reader → Out → Prop} (hP : ScanInvariant P) (fuel : Nat)
    (r : Reader) (o : Out) (h : parseValue fuel r = some o) : P r o :=
  (scan_invariant_all hP fuel).1 r o h

theorem tracks_nil (r r2 : Reader) (e : Option Err) (hs : r2.s = r.s) (hi : r.i ≤ r2.i)
    (hu : e = none → r2.unread = r.unread) :
    Tracks r { err := e, toks := [], reader := r2 } := by
  intro cs hcs
  exact ⟨[], cs, rfl, rfl, fun he => (hu he).trans hcs, hs, by simpa [utf8_nil] using hi⟩

theorem tracks_peek (r : Reader) (o : Out) (h : Tracks (peek r).2 o) : Tracks r o := by
  intro cs hcs
  rw [peek_eq] at h
  obtain ⟨ts, rest, h1, h2, h3, h4, h5⟩ := h cs ((unread_adv_zero r).trans hcs)
  exact ⟨ts, rest, h1, h2, h3, h4, h5⟩

theorem tracks_seq (r : Reader) (o o2 : Out) (h1 : Tracks r o) (he : o.err = none)
    (h2 : Tracks o.reader o2) : Tracks r (Out.emitFirst o.toks o2) := by
  intro cs hcs
  obtain ⟨ts, rest, a1, a2, a3, a4, a5⟩ := h1 cs hcs
  obtain ⟨ts2, rest2, b1, b2, b3, b4, b5⟩ := h2 rest (a3 he)
  refine ⟨ts ++ ts2, rest2, by rw [a1, b1, List.append_assoc], ?_, b3, b4.trans a4, ?_⟩
  · simp [Out.emitFirst, a2, b2]
  · rw [utf8_append, List.length_append]
    simp only [Out.emitFirst]
    omega

theorem tracks_literal (r : Reader) (t : TokenType) (lit : String) (hp : plain lit.data) :
    Tracks r (parseLiteral r t lit) := by
  intro cs hcs
  by_cases hne : cs = []
  · subst hne
    rw [parseLiteral_nil r t lit hcs]
    exact ⟨[], [], rfl, rfl, fun he => by simp at he, rfl, by simp [utf8_nil]⟩
  · rcases parseLiteral_cases r t lit cs hp hcs hne with ⟨rest, h1, h2⟩ | ⟨_, h2⟩
    · rw [h2]
      refine ⟨lit.data, rest, h1, by simp [tokens], fun _ => ?_, rfl, le_refl _⟩
      exact unread_adv_utf8 r _ _ (by rw [hcs, h1])
    · rw [h2]
      exact ⟨[], cs, rfl, rfl, fun he => by simp at he, rfl, by simp [utf8_nil, Reader.adv]⟩

theorem andThen_of_seq {P : Reader → Out → Prop}
    (hseq : ∀ r o o2, P r o → o.err = none → P o.reader o2 → P r (Out.emitFirst o.toks o2))
    {r : Reader} {o out : Out} {k : Reader → Option Out} (ho : P r o)
    (hk : ∀ r2 o2, k r2 = some o2 → P r2 o2) (h : o.andThen k = some out) : P r out := by
  unfold Out.andThen at h
  cases he : o.err with
  | some e =>
    rw [he] at h
    simp only [Option.some.injEq] at h
    rw [← h]; exact ho
  | none =>
    rw [he] at h
    simp only [Option.map_eq_some'] at h
    obtain ⟨o2, h2, h3⟩ := h
    rw [← h3]
    exact hseq r o o2 ho he (hk _ _ h2)

/-- One pass of a loop that reads the character `c` and emits it before the rest `o2` of the
loop runs. -/
theorem tracks_step (r : Reader) (c : Char) (cs : List Char) (t : TokenType) (p : Int)
    (o2 : Out) (h : r.unread = utf8 (c :: cs))
    (h2 : Tracks { r with i := r.i + (EncodeRune c.toNat).length, prevRune := p } o2) :
    ∃ ts rest : List Char, c :: cs = ts ++ rest ∧
      (Out.emitFirst [{ Rune := c.toNat, Typ := t }] o2).toks.map Token.Rune =
        ts.map Char.toNat ∧
      ((Out.emitFirst [{ Rune := c.toNat, Typ := t }] o2).err = none →
        (Out.emitFirst [{ Rune := c.toNat, Typ := t }] o2).reader.unread = utf8 rest) ∧
      (Out.emitFirst [{ Rune := c.toNat, Typ := t }] o2).reader.s = r.s ∧
      r.i + (utf8 ts).length ≤ (Out.emitFirst [{ Rune := c.toNat, Typ := t }] o2).reader.i := by
  obtain ⟨ts, rest, a1, a2, a3, a4, a5⟩ := h2 cs (unread_step_utf8 r c cs p h)
  refine ⟨c :: ts, rest, by rw [a1]; rfl, by simp [Out.emitFirst, a2], a3, a4, ?_⟩
  rw [utf8_length_cons]
  simp only [Out.emitFirst] at a5 ⊢
  omega

theorem tracks_whitespaceLoop (t : TokenType) (fuel : Nat) :
    ∀ (r : Reader) (o : Out), whitespaceLoop fuel r t = some o → Tracks r o := by
  induction fuel with
  | zero =>
    intro r o h
    unfold whitespaceLoop at h
    rw [peek_eq] at h
    dsimp only at h
    split_ifs at h
    rw [← Option.some.inj h]
    exact tracks_nil r _ none rfl (by simp [Reader.adv]) (fun _ => unread_adv_zero r)
  | succ fuel ih =>
    intro r o h cs hcs
    unfold whitespaceLoop at h
    cases cs with
    | nil =>
      rw [peek_nil r hcs] at h
      simp only [show ¬ ((0 : Nat) = 32 ∨ (0 : Nat) = 10 ∨ (0 : Nat) = 9) by decide,
        if_false, Option.some.injEq] at h
      rw [← h]
      exact tracks_nil r _ none rfl (by simp [Reader.adv]) (fun _ => unread_adv_zero r) [] hcs
    | cons c cs =>
      have h0 : (r.adv 0).unread = utf8 (c :: cs) := (unread_adv_zero r).trans hcs
      rw [peek_cons r c cs hcs] at h
      simp only [ReadRune_text _ c cs h0] at h
      split_ifs at h
      · simp only [Option.map_eq_some'] at h
        obtain ⟨o2, h2, h3⟩ := h
        rw [← h3]
        exact tracks_step (r.adv 0) c cs t _ o2 h0 (ih _ _ h2)
      · rw [← Option.some.inj h]
        exact tracks_nil r _ none rfl (by simp [Reader.adv]) (fun _ => unread_adv_zero r) _ hcs

theorem tracks_whitespace (r : Reader) (t : TokenType) (o : Out)
    (h : parseWhitespace r t = some o) : Tracks r o :=
  tracks_whitespaceLoop t _ r o h

theorem tracks_numberLoop (fuel : Nat) :
    ∀ (r : Reader) (o : Out), numberLoop fuel r none = some o → Tracks r o := by
  induction fuel with
  | zero =>
    intro r o h
    unfold numberLoop at h
    rw [peek_eq] at h
    dsimp only at h
    split_ifs at h
    rw [← Option.some.inj h]
    exact tracks_nil r _ none rfl (by simp [Reader.adv]) (fun _ => unread_adv_zero r)
  | succ fuel ih =>
    intro r o h cs hcs
    unfold numberLoop at h
    cases cs with
    | nil =>
      rw [peek_nil r hcs] at h
      simp only [show numberRune 0 = false by decide, Bool.false_eq_true, if_false,
        Option.some.injEq] at h
      rw [← h]
      exact tracks_nil r _ none rfl (by simp [Reader.adv]) (fun _ => unread_adv_zero r) [] hcs
    | cons c cs =>
      have h0 : (r.adv 0).unread = utf8 (c :: cs) := (unread_adv_zero r).trans hcs
      rw [peek_cons r c cs hcs] at h
      simp only [ReadRune_text _ c cs h0] at h
      split_ifs at h
      · simp only [Option.map_eq_some'] at h
        obtain ⟨o2, h2, h3⟩ := h
        rw [← h3]
        exact tracks_step (r.adv 0) c cs NumberType _ o2 h0 (ih _ _ h2)
      · rw [← Option.some.inj h]
        exact tracks_nil r _ none rfl (by simp [Reader.adv]) (fun _ => unread_adv_zero r) _ hcs

theorem tracks_number (r : Reader) (o : Out) (h : parseNumber r = some o) : Tracks r o :=
  tracks_numberLoop _ r o h

theorem plain_dquote : plain "\"".data := by decide

theorem tracks_stringLoop (fuel : Nat) :
    ∀ (r : Reader) (r0 : Nat) (o : Out), stringLoop fuel r r0 = some o → Tracks r o := by
  induction fuel with
  | zero =>
    intro r r0 o h cs hcs
    unfold stringLoop at h
    cases cs with
    | nil =>
      have h0 : (r.adv 0).unread = [] := (unread_adv_zero r).trans hcs
      rw [peek_nil r hcs] at h
      simp only [ReadRune_nil _ h0, show (0 : Nat) ≠ 34 by decide, ne_eq, not_false_eq_true,
        true_or, if_true, Option.some.injEq] at h
      rw [← h]
      exact tracks_nil r _ _ rfl (by simp [Reader.adv]) (fun he => by simp at he) [] hcs
    | cons c cs =>
      have h0 : (r.adv 0).unread = utf8 (c :: cs) := (unread_adv_zero r).trans hcs
      rw [peek_cons r c cs hcs] at h
      simp only [ReadRune_text _ c cs h0] at h
      split_ifs at h
      rw [← Option.some.inj h]
      exact tracks_peek r _ (by rw [peek_eq]; exact tracks_literal _ _ _ plain_dquote) _ hcs
  | succ fuel ih =>
    intro r r0 o h cs hcs
    unfold stringLoop at h
    cases cs with
    | nil =>
      have h0 : (r.adv 0).unread = [] := (unread_adv_zero r).trans hcs
      rw [peek_nil r hcs] at h
      simp only [ReadRune_nil _ h0, show (0 : Nat) ≠ 34 by decide, ne_eq, not_false_eq_true,
        true_or, if_true, Option.some.injEq] at h
      rw [← h]
      exact tracks_nil r _ _ rfl (by simp [Reader.adv]) (fun he => by simp at he) [] hcs
    | cons c cs =>
      have h0 : (r.adv 0).unread = utf8 (c :: cs) := (unread_adv_zero r).trans hcs
      rw [peek_cons r c cs hcs] at h
      simp only [ReadRune_text _ c cs h0] at h
      split_ifs at h
      · simp only [Option.map_eq_some'] at h
        obtain ⟨o2, h2, h3⟩ := h
        rw [← h3]
        exact tracks_step (r.adv 0) c cs StringType _ o2 h0 (ih _ _ _ h2)
      · rw [← Option.some.inj h]
        exact tracks_peek r _ (by rw [peek_eq]; exact tracks_literal _ _ _ plain_dquote) _ hcs

theorem tracks_string (r : Reader) (o : Out) (h : parseString r = some o) : Tracks r o :=
  andThen_of_seq tracks_seq (tracks_literal r StringType "\"" plain_dquote)
    (fun r2 o2 h2 => tracks_stringLoop _ r2 0 o2 h2) h

theorem tracks_bool (r : Reader) : Tracks r (parseBool r) := by
  unfold parseBool
  apply tracks_peek
  dsimp only
  split_ifs
  · exact tracks_nil _ _ _ rfl (le_refl _) (fun _ => rfl)
  · apply tracks_peek
    exact tracks_literal _ _ _ (by decide)
  · apply tracks_peek
    exact tracks_literal _ _ _ (by decide)

theorem tracks_null (r : Reader) : Tracks r (parseNull r) :=
  tracks_literal r NullType "null" (by decide)

theorem tracks_comma (r : Reader) (t : TokenType) : Tracks r (parseComma r t) := by
  intro cs hcs
  unfold parseComma
  cases cs with
  | nil =>
    rw [peek_nil r hcs]
    dsimp only
    rw [if_neg (by decide)]
    exact tracks_nil r (r.adv 0) none rfl (by simp [Reader.adv]) (fun _ => unread_adv_zero r)
      [] hcs
  | cons c cs =>
    have h0 : (r.adv 0).unread = utf8 (c :: cs) := (unread_adv_zero r).trans hcs
    rw [peek_cons r c cs hcs]
    dsimp only
    split_ifs with hc
    · have e : c = Char.ofNat 44 := toNat_inj _ _ (by rw [hc]; rfl)
      subst e
      rw [parseLiteral_ok _ t "," cs (by decide) h0]
      refine ⟨",".data, cs, rfl, by simp [tokens], fun _ => ?_, rfl, ?_⟩
      · exact unread_adv_utf8 _ ",".data cs h0
      · simp [Reader.adv]
    · exact tracks_nil r _ none rfl (by simp [Reader.adv]) (fun _ => unread_adv_zero r) _ hcs

/-- The scanner keeps track of the text. -/
theorem tracks_invariant : ScanInvariant Tracks where
  peek := tracks_peek
  seq := tracks_seq
  literal := fun r p hp => tracks_literal r p.1 p.2 (by
    simp only [structural, List.mem_cons, List.mem_nil_iff, or_false] at hp
    rcases hp with rfl | rfl | rfl | rfl | rfl <;> decide)
  whitespace := fun r t _ o h => tracks_whitespace r t o h
  string := tracks_string
  number := fun r o _ h => tracks_number r o h
  bool := fun r _ => tracks_bool r
  null := fun r _ => tracks_null r
  comma := fun r t _ => tracks_comma r t
  unknown := fun r => tracks_nil r r _ rfl (le_refl _) (fun _ => rfl)

theorem tracks_parseValue (fuel : Nat) (r : Reader) (o : Out) (h : parseValue fuel r = some o) :
    Tracks r o :=
  scan_invariant tracks_invariant fuel r o h

/-- C1: when `Parse` (`parseValue`) succeeds on the text `s`, the characters of the emitted
tokens followed by the text left unread in the source are `s`: every character read is
emitted once, in order, and the reader stands right behind the last of them. The statement
is for `parseValue` with any fuel, so for every run that returns; `Parse` is `parseValue`
with the fuel `3 * n + 3` for a source of `n` bytes. -/
theorem C1_emitted_then_rest (s : List Char) (fuel : Nat) (o : Out)
    (h : parseValue fuel (NewReader (utf8 s)) = some o) (he : o.err = none) :
    ∃ rest : List Char, o.reader.unread = utf8 rest ∧
      s.map Char.toNat = o.toks.map Token.Rune ++ rest.map Char.toNat := by
  obtain ⟨ts, rest, h1, h2, h3, _, _⟩ := tracks_parseValue fuel _ o h s (unread_NewReader _)
  exact ⟨rest, h3 he, by rw [h1, h2, List.map_append]⟩

/-- C1, at `42 trailing`: the tokens are `4` and `2`, and ` trailing` is left unread. -/
theorem C1_emitted_then_rest_witness :
    Parse (NewReader (utf8 "42 trailing".data)) =
        some { err := none, toks := tokens NumberType "42".data,
               reader := (NewReader (utf8 "42 trailing".data)).adv 2 } ∧
      ((NewReader (utf8 "42 trailing".data)).adv 2).unread = utf8 " trailing".data ∧
      ∃ rest : List Char, ((NewReader (utf8 "42 trailing".data)).adv 2).unread = utf8 rest ∧
        "42 trailing".data.map Char.toNat =
          (tokens NumberType "42".data).map Token.Rune ++ rest.map Char.toNat :=
  ⟨by decide, by decide,
    C1_emitted_then_rest "42 trailing".data
      (3 * (NewReader (utf8 "42 trailing".data)).unread.length + 3)
      { err := none, toks := tokens NumberType "42".data,
        reader := (NewReader (utf8 "42 trailing".data)).adv 2 } (by decide) rfl⟩

theorem JsonWs_nil : JsonWs [] := by
  intro c hc; simp at hc

theorem json_empty_object_space : JsonText "\x7b \x7d".data := by
  refine ⟨[], "\x7b \x7d".data, [], rfl, JsonWs_nil, ?_, JsonWs_nil⟩
  exact JsonValue.emptyObject [] " ".data [] [] JsonWs_nil (by decide) JsonWs_nil JsonWs_nil

theorem spell_tokens (t : TokenType) (cs : List Char) : spell (tokens t cs) = utf8 cs := by
  induction cs with
  | nil => rfl
  | cons c cs ih =>
    have : tokens t (c :: cs) = { Rune := c.toNat, Typ := t } :: tokens t cs := rfl
    rw [this, spell, ih, utf8_cons]

theorem spell_of_runes (toks : List Token) (ts : List Char)
    (h : toks.map Token.Rune = ts.map Char.toNat) : spell toks = utf8 ts := by
  induction toks generalizing ts with
  | nil =>
    cases ts with
    | nil => rfl
    | cons c cs => simp at h
  | cons t toks ih =>
    cases ts with
    | nil => simp at h
    | cons c cs =>
      simp only [List.map_cons, List.cons.injEq] at h
      rw [spell, utf8_cons, ih cs h.2, h.1]

/-- C3, as it stands, fails on the valid document `{ }`: the scan reads all three characters
and has emitted two tokens when it fails, so the tokens do not spell what was read. -/
theorem C3_counterexample :
    JsonText "\x7b \x7d".data ∧
      ∃ o, Parse (NewReader (utf8 "\x7b \x7d".data)) = some o ∧
        spell o.toks = utf8 "\x7b ".data ∧ consumed o = utf8 "\x7b \x7d".data ∧
        o.toks.length = 2 ∧ o.reader.i = 3 ∧
        ¬ (spell o.toks = consumed o) :=
  ⟨json_empty_object_space,
    { err := some (unexpected [125] "\""),
      toks := tokens ObjectType "\x7b ".data,
      reader := (NewReader (utf8 "\x7b \x7d".data)).adv 3 },
    by decide, by decide, by decide, by decide, by decide, by decide⟩

/-- C3, amended: for every valid JSON document on which the scan succeeds, the emitted tokens
spell exactly the bytes read from the source, and there is one token for each character
read. The statement is for `parseValue` with any fuel, so for every run that returns; `Parse`
is `parseValue` with the fuel `3 * n + 3` for a source of `n` bytes. -/
theorem C3_emitted_is_consumed (D : List Char) (_hD : JsonText D) (fuel : Nat) (o : Out)
    (h : parseValue fuel (NewReader (utf8 D)) = some o) (he : o.err = none) :
    spell o.toks = consumed o ∧
      ∃ ts rest : List Char, D = ts ++ rest ∧ consumed o = utf8 ts ∧
        o.toks.length = ts.length := by
  obtain ⟨ts, rest, h1, h2, h3, h4, h5⟩ := tracks_parseValue fuel _ o h D (unread_NewReader _)
  have h3 := h3 he
  have hs : o.reader.s = utf8 ts ++ utf8 rest := by
    rw [h4]; show utf8 D = _; rw [h1, utf8_append]
  have hi : (utf8 ts).length ≤ o.reader.i := by
    have : (NewReader (utf8 D)).i = 0 := rfl
    omega
  have hc : consumed o = utf8 ts := by
    unfold consumed
    unfold Reader.unread at h3
    rw [hs] at h3 ⊢
    rw [List.take_append_eq_append_take, List.take_of_length_le hi]
    rw [List.drop_append_eq_append_drop, List.drop_of_length_le hi, List.nil_append] at h3
    have hl := congrArg List.length h3
    rw [List.length_drop] at hl
    have : List.take (o.reader.i - (utf8 ts).length) (utf8 rest) = [] := by
      by_cases hz : o.reader.i - (utf8 ts).length = 0
      · rw [hz]; rfl
      · have : (utf8 rest).length = 0 := by omega
        rw [List.length_eq_zero.1 this]; simp
    rw [this, List.append_nil]
  refine ⟨by rw [hc]; exact spell_of_runes _ _ h2, ts, rest, h1, hc, ?_⟩
  have := congrArg List.length h2
  simpa using this

theorem json_true_null : JsonText "[true, null]".data := by
  refine ⟨[], "[true, null]".data, [], rfl, JsonWs_nil, ?_, JsonWs_nil⟩
  exact JsonValue.array [] [] "true, null".data [] [] JsonWs_nil JsonWs_nil
    (JsonElements.more "true".data [] " ".data "null".data JsonValue.litTrue JsonWs_nil
      (by decide) (JsonElements.one _ JsonValue.litNull))
    JsonWs_nil JsonWs_nil

/-- C3 amended, at the document `[true, null]`, which is valid and scans to twelve tokens. -/
theorem C3_emitted_is_consumed_witness :
    JsonText "[true, null]".data ∧
      Parse (NewReader (utf8 "[true, null]".data)) = some trueNullOutcome ∧
      (spell trueNullOutcome.toks = consumed trueNullOutcome ∧
        ∃ ts rest : List Char, "[true, null]".data = ts ++ rest ∧
          consumed trueNullOutcome = utf8 ts ∧ trueNullOutcome.toks.length = ts.length) :=
  ⟨json_true_null, by decide,
    C3_emitted_is_consumed "[true, null]".data json_true_null
      (3 * (NewReader (utf8 "[true, null]".data)).unread.length + 3) trueNullOutcome
      (by decide) rfl⟩

set_option maxRecDepth 100000 in
/-- C6 on the code: the object `{"a":1,"b":2}` scans, and with one space at each of the
places the claim names, `{ "a" : 1 , "b" : 2 }`, the scan fails with a syntax error at the
comma after ten tokens, because `parseObject` tests for the comma before it skips
whitespace; `parseArray` skips whitespace first and scans `[1 , 2]`. An empty object with
a space, `{ }`, fails as well. -/
theorem C6_space_before_comma :
    Parse (source "\x7b\"a\":1,\"b\":2\x7d") =
      some { err := none,
             toks := tokens ObjectType "\x7b".data ++ tokens StringType "\"a\"".data ++
               tokens ObjectType ":".data ++ tokens NumberType "1".data ++
               tokens ObjectType ",".data ++ tokens StringType "\"b\"".data ++
               tokens ObjectType ":".data ++ tokens NumberType "2".data ++
               tokens ObjectType "\x7d".data,
             reader := (source "\x7b\"a\":1,\"b\":2\x7d").adv 13 } ∧
    Parse (source "\x7b \"a\" : 1 , \"b\" : 2 \x7d") =
      some { err := some (unexpected (utf8 ",".data) "\""),
             toks := tokens ObjectType "\x7b ".data ++ tokens StringType "\"a\"".data ++
               tokens ObjectType " : ".data ++ tokens NumberType "1".data ++
               tokens ObjectType " ".data,
             reader := (source "\x7b \"a\" : 1 , \"b\" : 2 \x7d").adv 11 } ∧
    Parse (source "[1 , 2]") =
      some { err := none,
             toks := tokens ArrayType "[".data ++ tokens NumberType "1".data ++
               tokens ArrayType " , ".data ++ tokens NumberType "2".data ++
               tokens ArrayType "]".data,
             reader := (source "[1 , 2]").adv 7 } ∧
    Parse (source "\x7b \x7d") =
      some { err := some (unexpected (utf8 "\x7d".data) "\""),
             toks := tokens ObjectType "\x7b ".data,
             reader := (source "\x7b \x7d").adv 3 } := by
  decide

set_option maxRecDepth 100000 in
/-- C10 on the code: on `{` and on `{"a"` the error `Parse` returns is `io.EOF` itself, as
`parseLiteral` returns the error of `Read` unchanged; on `"abc` it is `io.EOF` wrapped by
`parseString`, and on `tru` it is the syntax error of `unexpected`. -/
theorem C10_bare_EOF :
    Parse (source "\x7b") =
      some { err := some Err.EOF, toks := tokens ObjectType "\x7b".data,
             reader := (source "\x7b").adv 1 } ∧
    Parse (source "\x7b\"a\"") =
      some { err := some Err.EOF,
             toks := tokens ObjectType "\x7b".data ++ tokens StringType "\"a\"".data,
             reader := (source "\x7b\"a\"").adv 4 } ∧
    Parse (source "\"abc") =
      some { err := some (Err.Wrapf Err.EOF "str:"), toks := tokens StringType "\"abc".data,
             reader := (source "\"abc").adv 4 } ∧
    Parse (source "tru") =
      some { err := some (Err.Wrapf (Err.Errorf (utf8 "tru".data ++ [0]) "true") "syntax"),
             toks := [], reader := (source "tru").adv 3 } := by
  decide

theorem stopsAt_dropWhile (p : Char → Bool) (s : List Char) : stopsAt p (s.dropWhile p) := by
  induction s with
  | nil => exact stopsAt_nil p
  | cons c cs ih =>
    by_cases hc : p c = true
    · rw [List.dropWhile_cons_of_pos hc]; exact ih
    · rw [List.dropWhile_cons_of_neg hc]
      exact stopsAt_cons p c cs (by simpa using hc)

theorem mem_takeWhile (p : Char → Bool) (s : List Char) : ∀ c ∈ s.takeWhile p, p c = true := by
  intro c hc
  exact List.mem_takeWhile_imp hc

/-- C11: the number production reads the longest run of number characters and never fails.
On every text that starts with a digit or `-`, `Parse` succeeds, the tokens are the longest
prefix of characters of `0123456789.-eE`, each tagged Number, and the rest of the text is left
unread. -/
theorem C11_number_longest_run (s : List Char)
    (h : ∃ c ∈ s.head?, isDigit c = true ∨ c.toNat = 45) :
    (∃ r, Parse (NewReader (utf8 s)) =
        some { err := none, toks := tokens NumberType (s.takeWhile isNumberChar),
               reader := r } ∧
      r.unread = utf8 (s.dropWhile isNumberChar)) ∧
    s = s.takeWhile isNumberChar ++ s.dropWhile isNumberChar ∧
    (∀ c ∈ s.takeWhile isNumberChar, isNumberChar c = true) ∧
    stopsAt isNumberChar (s.dropWhile isNumberChar) := by
  refine ⟨?_, (List.takeWhile_append_dropWhile _ s).symm, mem_takeWhile _ s,
    stopsAt_dropWhile _ s⟩
  obtain ⟨c, hc, hd⟩ := h
  cases s with
  | nil => simp at hc
  | cons d ds =>
    have hdc : d = c := by simpa using hc
    subst hdc
    have hg : (48 ≤ d.toNat ∧ d.toNat ≤ 57) ∨ d.toNat = 45 := by
      rcases hd with hd | hd
      · left; simpa [isDigit] using hd
      · right; exact hd
    have hu : (NewReader (utf8 (d :: ds))).unread = utf8 (d :: ds) := unread_NewReader _
    have hsplit : (NewReader (utf8 (d :: ds))).unread =
        utf8 ((d :: ds).takeWhile isNumberChar ++ (d :: ds).dropWhile isNumberChar) := by
      rw [List.takeWhile_append_dropWhile]; exact hu
    rw [Parse_eq, parseValue_number _ _ d ds hu hg]
    exact yields_number _ _ _ (mem_takeWhile _ _) (stopsAt_dropWhile _ _)
      ((unread_adv_zero _).trans hsplit)

/-- C11, at `1-2-3` before a space, accepted whole as five Number tokens, and at `-` alone. -/
theorem C11_number_longest_run_witness :
    (∃ r, Parse (NewReader (utf8 "1-2-3 x".data)) =
        some { err := none, toks := tokens NumberType "1-2-3".data, reader := r } ∧
      r.unread = utf8 " x".data) ∧
    (∃ r, Parse (NewReader (utf8 "-".data)) =
        some { err := none, toks := tokens NumberType "-".data, reader := r } ∧
      r.unread = utf8 []) :=
  ⟨(C11_number_longest_run "1-2-3 x".data (by decide)).1,
   (C11_number_longest_run "-".data (by decide)).1⟩

theorem escapedAfter_of_index (b : List Char) :
    ∀ p : Nat, (∀ i, b[i]? = some dquote →
      (i = 0 ∧ p = 92) ∨ ∃ j, i = j + 1 ∧ b[j]? = some backslash) → escapedAfter p b := by
  induction b with
  | nil => intro p _; trivial
  | cons c cs ih =>
    intro p h
    refine ⟨fun hc => ?_, ih c.toNat (fun i hi => ?_)⟩
    · rcases h 0 (by simp [hc]) with ⟨_, hp⟩ | ⟨j, hj, _⟩
      · exact hp
      · omega
    · rcases h (i + 1) (by simpa using hi) with ⟨h0, _⟩ | ⟨j, hj, hb⟩
      · omega
      · have hji : j = i := by omega
        subst hji
        cases j with
        | zero =>
          left
          refine ⟨rfl, ?_⟩
          have : c = backslash := by simpa using hb
          rw [this]; decide
        | succ k =>
          right
          exact ⟨k, rfl, by simpa using hb⟩

theorem escapedAfter_of_quotesEscaped (b : List Char) (p : Nat) (h : quotesEscaped b) :
    escapedAfter p b :=
  escapedAfter_of_index b p (fun i hi => Or.inr (h i hi))

theorem lastRune_of_getLast (b : List Char) :
    ∀ p : Nat, p ≠ 92 → b.getLast? ≠ some backslash → lastRune p b ≠ 92 := by
  induction b with
  | nil => intro p hp _; exact hp
  | cons c cs ih =>
    intro p _ h
    cases cs with
    | nil =>
      intro h92
      apply h
      have : c = backslash := toNat_inj _ _ (by rw [show lastRune p [c] = c.toNat from rfl] at h92;
                                                  rw [h92]; rfl)
      simp [this]
    | cons d ds =>
      have h2 : (d :: ds).getLast? ≠ some backslash := by
        simpa [List.getLast?_cons_cons] using h
      by_cases hc : c.toNat = 92
      · -- the rune before plays no part once the text is not empty
        have := ih 0 (by decide) h2
        exact this
      · exact ih c.toNat hc h2

theorem stringLoop_escaped (b : List Char) :
    ∀ (fuel : Nat) (r : Reader) (p : Nat) (cs : List Char), b.length ≤ fuel →
      escapedAfter p b → lastRune p b ≠ 92 → r.unread = utf8 (b ++ dquote :: cs) →
      stringLoop fuel r p =
        some { err := none, toks := tokens StringType (b ++ [dquote]),
               reader := r.adv (utf8 (b ++ [dquote])).length } := by
  induction b with
  | nil =>
    intro fuel r p cs _ _ hr h
    exact stringLoop_ok [] fuel r p cs (by simp) (by simp) hr h
  | cons c b ih =>
    intro fuel r p cs hf he hl h
    cases fuel with
    | zero => simp at hf
    | succ fuel =>
      rw [List.cons_append] at h
      have h0 : (r.adv 0).unread = utf8 (c :: (b ++ dquote :: cs)) := by
        rw [unread_adv_zero, h]
      have hcond : c.toNat ≠ 34 ∨ p = 92 := by
        by_cases hc : c = dquote
        · right; exact he.1 hc
        · left; intro h34; exact hc (toNat_inj _ _ (by rw [h34]; rfl))
      unfold stringLoop
      simp only [peek_cons r c _ h, hcond, if_true, ReadRune_text _ c _ h0]
      rw [ih fuel _ c.toNat cs (by simpa using hf) he.2 hl (unread_step_utf8 _ c _ _ h0)]
      simp [Out.emitFirst_mk, tokens, adv_zero_step, utf8_length_cons]

theorem stringLoop_unterminated (t : List Char) :
    ∀ (fuel : Nat) (r : Reader) (p : Nat), escapedAfter p t → r.unread = utf8 t →
      t.length ≤ fuel →
      ∃ r2, stringLoop fuel r p =
        some { err := some (Err.Wrapf Err.EOF "str:"), toks := tokens StringType t,
               reader := r2 } := by
  induction t with
  | nil =>
    intro fuel r p _ h _
    have h0 : (r.adv 0).unread = [] := (unread_adv_zero r).trans h
    have hc : (0 : Nat) ≠ 34 ∨ p = 92 := Or.inl (by decide)
    unfold stringLoop
    cases fuel with
    | zero =>
      simp only [peek_nil r h, hc, if_true, ReadRune_nil _ h0]
      exact ⟨_, rfl⟩
    | succ fuel =>
      simp only [peek_nil r h, hc, if_true, ReadRune_nil _ h0]
      exact ⟨_, rfl⟩
  | cons c t ih =>
    intro fuel r p he h hf
    cases fuel with
    | zero => simp at hf
    | succ fuel =>
      have h0 : (r.adv 0).unread = utf8 (c :: t) := by rw [unread_adv_zero, h]
      have hcond : c.toNat ≠ 34 ∨ p = 92 := by
        by_cases hc : c = dquote
        · right; exact he.1 hc
        · left; intro h34; exact hc (toNat_inj _ _ (by rw [h34]; rfl))
      obtain ⟨r2, h2⟩ := ih fuel _ c.toNat he.2 (unread_step_utf8 _ c _ _ h0)
        (by simpa using hf)
      unfold stringLoop
      simp only [peek_cons r c _ h, hcond, if_true, ReadRune_text _ c _ h0]
      rw [h2]
      exact ⟨r2, by simp [Out.emitFirst_mk, tokens]⟩

/-- C12: the string production ends at the first `"` that does not stand right behind a
`\`. When every `"` of the body `b` stands right behind a `\` and `b` does not end with
`\`, `parseString` on the quoted body before any remaining text succeeds, emits the quotes
and the body as String tokens and leaves the remaining text unread; when every `"` after the
opening quote stands right behind a `\`, `parseString` reads to the end of the source and
fails. -/
theorem C12_string_ends_at_unescaped_quote (r : Reader) :
    (∀ b rest : List Char, quotesEscaped b → b.getLast? ≠ some backslash →
      r.unread = utf8 ("\"".data ++ b ++ "\"".data ++ rest) →
      ∃ r2, parseString r =
          some { err := none, toks := tokens StringType ("\"".data ++ b ++ "\"".data),
                 reader := r2 } ∧
        r2.unread = utf8 rest) ∧
    (∀ t : List Char, quotesEscaped t → r.unread = utf8 ("\"".data ++ t) →
      ∃ r2, parseString r =
        some { err := some (Err.Wrapf Err.EOF "str:"),
               toks := tokens StringType ("\"".data ++ t), reader := r2 }) := by
  constructor
  · intro b rest hq hl h
    have h1 : r.unread = utf8 ("\"".data ++ (b ++ dquote :: rest)) := by
      rw [h]; simp [dquote]
    have h2 := unread_adv_utf8 r _ _ h1
    have hloop := stringLoop_escaped b (r.adv (utf8 "\"".data).length).unread.length _ 0 rest
      (by
        rw [h2, utf8_append, List.length_append]
        have := utf8_length_le b
        omega)
      (escapedAfter_of_quotesEscaped b 0 hq) (lastRune_of_getLast b 0 (by decide) hl) h2
    refine ⟨(r.adv (utf8 "\"".data).length).adv (utf8 (b ++ [dquote])).length, ?_, ?_⟩
    · unfold parseString
      rw [parseLiteral_ok r StringType "\"" _ (by decide) h1]
      simp only [Out.andThen]
      rw [hloop]
      simp [Out.emitFirst_mk, tokens, dquote]
    · exact unread_adv_utf8 _ (b ++ [dquote]) rest (by rw [h2]; simp)
  · intro t hq h
    have h1 : r.unread = utf8 ("\"".data ++ t) := h
    have h2 := unread_adv_utf8 r _ _ h1
    obtain ⟨r2, hloop⟩ := stringLoop_unterminated t
      (r.adv (utf8 "\"".data).length).unread.length _ 0
      (escapedAfter_of_quotesEscaped t 0 hq) h2 (by rw [h2]; exact utf8_length_le t)
    refine ⟨r2, ?_⟩
    unfold parseString
    rw [parseLiteral_ok r StringType "\"" _ (by decide) h1]
    simp only [Out.andThen]
    rw [hloop]
    simp [Out.emitFirst_mk, tokens]

theorem quotesEscaped_body : quotesEscaped escapedQuoteBody := by
  intro i hi
  match i with
  | 0 => simp [escapedQuoteBody] at hi; exact absurd hi (by decide)
  | 1 => simp [escapedQuoteBody] at hi; exact absurd hi (by decide)
  | 2 => exact ⟨1, rfl, rfl⟩
  | 3 => simp [escapedQuoteBody] at hi; exact absurd hi (by decide)
  | n + 4 => simp [escapedQuoteBody] at hi

/-- C12, at the body `a\"b` before `,1`, and at the same text without a closing quote. -/
theorem C12_string_ends_at_unescaped_quote_witness :
    (∃ r2, parseString (NewReader (utf8 ("\"".data ++ escapedQuoteBody ++ "\"".data ++ ",1".data)))
        = some { err := none,
                 toks := tokens StringType ("\"".data ++ escapedQuoteBody ++ "\"".data),
                 reader := r2 } ∧
      r2.unread = utf8 ",1".data) ∧
    (∃ r2, parseString (NewReader (utf8 ("\"".data ++ escapedQuoteBody))) =
      some { err := some (Err.Wrapf Err.EOF "str:"),
             toks := tokens StringType ("\"".data ++ escapedQuoteBody), reader := r2 }) :=
  ⟨(C12_string_ends_at_unescaped_quote _).1 escapedQuoteBody ",1".data quotesEscaped_body
      (by decide) rfl,
   (C12_string_ends_at_unescaped_quote _).2 escapedQuoteBody quotesEscaped_body rfl⟩

theorem kinds_nil (r r2 : Reader) (e : Option Err) :
    Kinds r { err := e, toks := [], reader := r2 } := by
  intro T hT; simp at hT

theorem kinds_seq (r : Reader) (o o2 : Out) (h1 : Kinds r o) (_he : o.err = none)
    (h2 : Kinds o.reader o2) : Kinds r (Out.emitFirst o.toks o2) := by
  intro T hT
  simp only [Out.emitFirst, List.mem_append] at hT
  rcases hT with hT | hT
  · exact h1 T hT
  · exact h2 T hT

theorem kinds_literal (r r2 : Reader) (t : TokenType) (lit : String)
    (h : ∀ c ∈ lit.data, kindOk { Rune := c.toNat, Typ := t }) :
    Kinds r (parseLiteral r2 t lit) := by
  intro T hT
  unfold parseLiteral at hT
  dsimp only at hT
  split at hT
  · simp at hT
  · split_ifs at hT
    · simp only [List.mem_map] at hT
      obtain ⟨c, hc, rfl⟩ := hT
      exact h c hc
    · simp at hT

theorem readRune_after_peek (r : Reader) : ((peek r).2.ReadRune).1 = (peek r).1 := by
  rw [peek_eq]
  by_cases h : r.unread = []
  · rw [ReadRune_nil _ ((unread_adv_zero r).trans h), h]; rfl
  · have h0 : (r.adv 0).unread ≠ [] := by rw [unread_adv_zero]; exact h
    rw [ReadRune_cons _ h0, unread_adv_zero]

theorem kinds_emit (r r2 : Reader) (T : Token) (x : Option Out) (o : Out) (hT : kindOk T)
    (hx : ∀ o2, x = some o2 → Kinds r2 o2) (h : x.map (Out.emitFirst [T]) = some o) :
    Kinds r o := by
  simp only [Option.map_eq_some'] at h
  obtain ⟨o2, h2, h3⟩ := h
  rw [← h3]
  intro U hU
  simp only [Out.emitFirst, List.singleton_append, List.mem_cons] at hU
  rcases hU with rfl | hU
  · exact hT
  · exact hx o2 h2 U hU

theorem kinds_whitespaceLoop (t : TokenType) (ht : t = ObjectType ∨ t = ArrayType)
    (fuel : Nat) : ∀ (r : Reader) (o : Out), whitespaceLoop fuel r t = some o → Kinds r o := by
  induction fuel with
  | zero =>
    intro r o h
    unfold whitespaceLoop at h
    dsimp only at h
    split_ifs at h
    rw [← Option.some.inj h]
    exact kinds_nil _ _ _
  | succ fuel ih =>
    intro r o h
    unfold whitespaceLoop at h
    dsimp only at h
    split_ifs at h with hc
    · split at h
      · rw [← Option.some.inj h]; exact kinds_nil _ _ _
      · refine kinds_emit r _ _ _ o ?_ (fun o2 h2 => ih _ o2 h2) h
        right
        rcases ht with rfl | rfl <;> rcases hc with hc | hc | hc <;> rw [hc] <;> decide
    · rw [← Option.some.inj h]
      exact kinds_nil _ _ _

theorem kinds_numberLoop (fuel : Nat) :
    ∀ (r : Reader) (e : Option Err) (o : Out), numberLoop fuel r e = some o → Kinds r o := by
  induction fuel with
  | zero =>
    intro r e o h
    unfold numberLoop at h
    split at h
    · rw [← Option.some.inj h]; exact kinds_nil _ _ _
    · dsimp only at h
      split_ifs at h
      rw [← Option.some.inj h]
      exact kinds_nil _ _ _
  | succ fuel ih =>
    intro r e o h
    unfold numberLoop at h
    split at h
    · rw [← Option.some.inj h]; exact kinds_nil _ _ _
    · dsimp only at h
      split_ifs at h with hc
      · refine kinds_emit r _ _ _ o ?_ (fun o2 h2 => ih _ _ o2 h2) h
        right
        rw [readRune_after_peek]
        have e : utf8 "0123456789.-eE".data = (allowed NumberType).map Char.toNat := by decide
        have hm : (peek r).1 ∈ utf8 "0123456789.-eE".data := by
          unfold numberRune at hc
          exact of_decide_eq_true hc
        rw [e] at hm
        exact hm
      · rw [← Option.some.inj h]
        exact kinds_nil _ _ _

theorem kinds_stringLoop (fuel : Nat) :
    ∀ (r : Reader) (p : Nat) (o : Out), stringLoop fuel r p = some o → Kinds r o := by
  induction fuel with
  | zero =>
    intro r p o h
    unfold stringLoop at h
    dsimp only at h
    split_ifs at h
    · split at h
      · rw [← Option.some.inj h]; exact kinds_nil _ _ _
      · simp at h
    · rw [← Option.some.inj h]
      exact kinds_literal _ _ _ _ (fun _ _ => Or.inl rfl)
  | succ fuel ih =>
    intro r p o h
    unfold stringLoop at h
    dsimp only at h
    split_ifs at h
    · split at h
      · rw [← Option.some.inj h]; exact kinds_nil _ _ _
      · exact kinds_emit r _ _ _ o (Or.inl rfl) (fun o2 h2 => ih _ _ o2 h2) h
    · rw [← Option.some.inj h]
      exact kinds_literal _ _ _ _ (fun _ _ => Or.inl rfl)

theorem kinds_string (r : Reader) (o : Out) (h : parseString r = some o) : Kinds r o :=
  andThen_of_seq kinds_seq (kinds_literal r r StringType "\"" (fun _ _ => Or.inl rfl))
    (fun r2 o2 h2 => kinds_stringLoop _ r2 0 o2 h2) h

theorem kinds_bool (r : Reader) : Kinds r (parseBool r) := by
  unfold parseBool
  dsimp only
  split_ifs
  · exact kinds_nil _ _ _
  · exact kinds_literal _ _ BoolType "true" (by decide)
  · exact kinds_literal _ _ BoolType "false" (by decide)

theorem kinds_comma (r : Reader) (t : TokenType) (ht : t = ObjectType ∨ t = ArrayType) :
    Kinds r (parseComma r t) := by
  unfold parseComma
  dsimp only
  split_ifs
  · exact kinds_literal r (peek r).2 t "," (by rcases ht with rfl | rfl <;> decide)
  · exact kinds_nil _ _ _

/-- The scanner emits every token with a character its category allows. -/
theorem kinds_invariant : ScanInvariant Kinds where
  peek := fun _ _ h => h
  seq := kinds_seq
  literal := fun r p hp => kinds_literal r r p.1 p.2 (by
    simp only [structural, List.mem_cons, List.mem_nil_iff, or_false] at hp
    rcases hp with rfl | rfl | rfl | rfl | rfl <;> decide)
  whitespace := fun r t ht o h => kinds_whitespaceLoop t ht _ r o h
  string := kinds_string
  number := fun r o _ h => kinds_numberLoop _ r none o h
  bool := fun r _ => kinds_bool r
  null := fun r _ => kinds_literal r r NullType "null" (by decide)
  comma := kinds_comma
  unknown := fun r => kinds_nil r r _

theorem kinds_parseValue (fuel : Nat) (r : Reader) (o : Out) (h : parseValue fuel r = some o) :
    Kinds r o :=
  scan_invariant kinds_invariant fuel r o h

/-- C20: the character of a token is determined in kind by its category. Whatever the source
and the outcome, an Array token carries a bracket, a comma or a whitespace character, an
Object token a brace, a colon, a comma or a whitespace character, a Number token a character
of `0123456789.-eE`, a Bool token a letter of `true` or `false`, a Null token a letter of
`null`; only a String token carries any character. -/
theorem C20_token_kinds (r : Reader) (fuel : Nat) (o : Out) (h : parseValue fuel r = some o) :
    ∀ T ∈ o.toks,
      (T.Typ = ArrayType → T.Rune ∈ ("[], \n\t".data).map Char.toNat) ∧
      (T.Typ = ObjectType → T.Rune ∈ ("\x7b\x7d:, \n\t".data).map Char.toNat) ∧
      (T.Typ = NumberType → T.Rune ∈ ("0123456789.-eE".data).map Char.toNat) ∧
      (T.Typ = BoolType → T.Rune ∈ ("truefalse".data).map Char.toNat) ∧
      (T.Typ = NullType → T.Rune ∈ ("nul".data).map Char.toNat) := by
  intro T hT
  have hk := kinds_parseValue fuel r o h T hT
  refine ⟨?_, ?_, ?_, ?_, ?_⟩ <;> intro ht <;> rcases hk with hs | hm
  all_goals first
    | (rw [ht] at hs; exact absurd hs (by decide))
    | (rw [ht] at hm; exact hm)

set_option maxRecDepth 100000 in
/-- C20, at the scan of `[true, null]`: the token `t` of category Bool is emitted and is a
letter of `true` or `false`, the token `,` of category Array is emitted and is one of the
characters of an Array token. -/
theorem C20_token_kinds_witness :
    Parse (NewReader (utf8 "[true, null]".data)) = some trueNullOutcome ∧
    ({ Rune := 116, Typ := BoolType } : Token) ∈ trueNullOutcome.toks ∧
    (116 : Nat) ∈ ("truefalse".data).map Char.toNat ∧
    ({ Rune := 44, Typ := ArrayType } : Token) ∈ trueNullOutcome.toks ∧
    (44 : Nat) ∈ ("[], \n\t".data).map Char.toNat :=
  ⟨by decide, by decide,
    (C20_token_kinds (NewReader (utf8 "[true, null]".data))
      (3 * (NewReader (utf8 "[true, null]".data)).unread.length + 3) trueNullOutcome
      (by decide) { Rune := 116, Typ := BoolType } (by decide)).2.2.2.1 rfl,
    by decide,
    (C20_token_kinds (NewReader (utf8 "[true, null]".data))
      (3 * (NewReader (utf8 "[true, null]".data)).unread.length + 3) trueNullOutcome
      (by decide) { Rune := 44, Typ := ArrayType } (by decide)).1 rfl⟩

theorem yields_skip (r : Reader) (t : TokenType) (s : List Char) (h : r.unread = utf8 s) :
    Yields (parseWhitespace r t) none (tokens t (s.takeWhile isSpace)) (s.dropWhile isSpace) :=
  yields_whitespace r t _ _ (mem_takeWhile _ s) (stopsAt_dropWhile _ s)
    (by rw [List.takeWhile_append_dropWhile]; exact h)

theorem takeWhile_spaces (ws rest : List Char) (c : Char) (hw : ∀ d ∈ ws, isSpace d = true)
    (hc : isSpace c = false) :
    (ws ++ c :: rest).takeWhile isSpace = ws ∧ (ws ++ c :: rest).dropWhile isSpace = c :: rest := by
  induction ws with
  | nil => simp [List.takeWhile_cons, List.dropWhile_cons, hc]
  | cons w ws ih =>
    have h1 := hw w (by simp)
    have h2 := ih (fun d hd => hw d (by simp [hd]))
    simp [List.takeWhile_cons, List.dropWhile_cons, h1, h2.1, h2.2]

theorem spaces_head (ws rest : List Char) (c : Char) (hw : ∀ d ∈ ws, isSpace d = true)
    (hc : c.toNat ≠ 32 ∧ c.toNat ≠ 10 ∧ c.toNat ≠ 9 ∧ c.toNat ≠ 93 ∧ c.toNat ≠ 125) :
    ∃ d ds, ws ++ c :: rest = d :: ds ∧ d.toNat ≠ 93 ∧ d.toNat ≠ 125 := by
  cases ws with
  | nil => exact ⟨c, rest, rfl, hc.2.2.2.1, hc.2.2.2.2⟩
  | cons w ws =>
    have h1 : w.toNat = 32 ∨ w.toNat = 10 ∨ w.toNat = 9 := by
      simpa [isSpace] using hw w (by simp)
    exact ⟨w, ws ++ c :: rest, rfl, by omega, by omega⟩

theorem arrayLoop_at_creturn (fuel : Nat) (r : Reader) (ws rest : List Char)
    (hw : ∀ d ∈ ws, isSpace d = true) (h : r.unread = utf8 (ws ++ creturn :: rest)) :
    Yields (arrayLoop (fuel + 2) r) (some (Err.New "unknown type")) (tokens ArrayType ws)
      (creturn :: rest) := by
  obtain ⟨d, ds, hd, hd1, _⟩ := spaces_head ws rest creturn hw (by decide)
  have ht := takeWhile_spaces ws rest creturn hw (by decide)
  rw [arrayLoop_enter _ r d ds (by rw [h, hd]) hd1]
  have hs := yields_skip (r.adv 0) ArrayType (ws ++ creturn :: rest)
    ((unread_adv_zero r).trans h)
  rw [ht.1, ht.2] at hs
  have hu : ∀ c ∈ (creturn :: rest).head?, c ∉ "\"0123456789-[tfn\x7b".data := by
    intro c hc
    have : c = creturn := by simpa using hc.symm
    rw [this]; decide
  rw [← List.append_nil (tokens ArrayType ws)]
  exact Yields.bind_andThen hs (fun r1 h1 =>
    Yields.bind_fail (yields_unknown_type fuel r1 (creturn :: rest) hu h1))

theorem parseString_at_creturn (r : Reader) (rest : List Char)
    (h : r.unread = utf8 (creturn :: rest)) :
    Yields (parseString r) (some (unexpected (utf8 [creturn]) "\"")) [] rest := by
  unfold parseString
  rcases parseLiteral_cases r StringType "\"" (creturn :: rest) (by decide) h (by simp) with
    ⟨tail, ht, _⟩ | ⟨_, hf⟩
  · exact absurd ht (by simp [creturn])
  · rw [hf]
    refine ⟨_, rfl, ?_⟩
    rw [unread_adv, h]
    rfl

theorem objectLoop_at_creturn (fuel : Nat) (r : Reader) (ws rest : List Char)
    (hw : ∀ d ∈ ws, isSpace d = true) (h : r.unread = utf8 (ws ++ creturn :: rest)) :
    Yields (objectLoop (fuel + 1) r) (some (unexpected (utf8 [creturn]) "\""))
      (tokens ObjectType ws) rest := by
  obtain ⟨d, ds, hd, _, hd2⟩ := spaces_head ws rest creturn hw (by decide)
  have ht := takeWhile_spaces ws rest creturn hw (by decide)
  rw [objectLoop_enter _ r d ds (by rw [h, hd]) hd2]
  have hs := yields_skip (r.adv 0) ObjectType (ws ++ creturn :: rest)
    ((unread_adv_zero r).trans h)
  rw [ht.1, ht.2] at hs
  rw [← List.append_nil (tokens ObjectType ws)]
  exact Yields.bind_andThen hs (fun r1 h1 =>
    Yields.bind_fail (parseString_at_creturn r1 rest h1))

set_option maxRecDepth 100000 in
/-- C14: the whitespace skipper never fails: it reads the longest prefix of spaces, newlines
and tabs of the unread text, emits each with the category it was called for and stops at the
first other character. A carriage return is not skipped: at the head of an array or object
loop, after any skipped whitespace, it makes the scan fail, no token ever carries it outside a
string, and `[1,\r2]` and `[\r]` fail. -/
theorem C14_whitespace_skipper :
    (∀ (r : Reader) (t : TokenType) (s : List Char), r.unread = utf8 s →
      ∃ r2, parseWhitespace r t =
          some { err := none, toks := tokens t (s.takeWhile isSpace), reader := r2 } ∧
        r2.unread = utf8 (s.dropWhile isSpace)) ∧
    isSpace creturn = false ∧
    (∀ (fuel : Nat) (r : Reader) (ws rest : List Char), (∀ d ∈ ws, isSpace d = true) →
      r.unread = utf8 (ws ++ creturn :: rest) →
      (∃ r2, arrayLoop (fuel + 2) r =
          some { err := some (Err.New "unknown type"), toks := tokens ArrayType ws,
                 reader := r2 } ∧
        r2.unread = utf8 (creturn :: rest)) ∧
      (∃ r2, objectLoop (fuel + 1) r =
          some { err := some (unexpected (utf8 [creturn]) "\""), toks := tokens ObjectType ws,
                 reader := r2 } ∧
        r2.unread = utf8 rest)) ∧
    (∀ (r : Reader) (fuel : Nat) (o : Out), parseValue fuel r = some o →
      ∀ T ∈ o.toks, T.Rune = creturn.toNat → T.Typ = StringType) ∧
    Parse (source "[1,\r2]") =
      some { err := some (Err.New "unknown type"),
             toks := tokens ArrayType "[".data ++ tokens NumberType "1".data ++
               tokens ArrayType ",".data,
             reader := (source "[1,\r2]").adv 3 } ∧
    Parse (source "[\r]") =
      some { err := some (Err.New "unknown type"), toks := tokens ArrayType "[".data,
             reader := (source "[\r]").adv 1 } := by
  refine ⟨fun r t s h => yields_skip r t s h, by decide, fun fuel r ws rest hw h =>
    ⟨arrayLoop_at_creturn fuel r ws rest hw h, objectLoop_at_creturn fuel r ws rest hw h⟩,
    ?_, by decide, by decide⟩
  intro r fuel o h T hT hr
  rcases kinds_parseValue fuel r o h T hT with hs | hm
  · exact hs
  · exfalso
    rw [hr] at hm
    cases ht : T.Typ <;> rw [ht] at hm <;> revert hm <;> decide

/-- C14, at the text of two spaces and a tab before `x`, and at a loop that stands at a
carriage return after a space. -/
theorem C14_whitespace_skipper_witness :
    (∃ r2, parseWhitespace (NewReader (utf8 "  \tx ".data)) ObjectType =
        some { err := none, toks := tokens ObjectType "  \t".data, reader := r2 } ∧
      r2.unread = utf8 "x ".data) ∧
    (∃ r2, arrayLoop (0 + 2) (NewReader (utf8 (" ".data ++ creturn :: "2]".data))) =
        some { err := some (Err.New "unknown type"), toks := tokens ArrayType " ".data,
               reader := r2 } ∧
      r2.unread = utf8 (creturn :: "2]".data)) :=
  ⟨C14_whitespace_skipper.1 (NewReader (utf8 "  \tx ".data)) ObjectType "  \tx ".data rfl,
   (C14_whitespace_skipper.2.2.1 0 (NewReader (utf8 (" ".data ++ creturn :: "2]".data)))
      " ".data "2]".data (by decide) rfl).1⟩

set_option maxRecDepth 100000 in
/-- C13 on the code: after the two backslashes the last rune read is a backslash, so the
closing quote is read as an escaped one and the string runs on. On the four characters alone
the scan fails at the end of the source after four String tokens; in `["\\","x"]` the string
swallows the comma and the next quote, `"\\","` is tagged String and the scan fails at `x`. -/
theorem C13_escaped_backslash :
    Parse (NewReader (utf8 oneBackslash)) =
      some { err := some (Err.Wrapf Err.EOF "str:"), toks := tokens StringType oneBackslash,
             reader := (NewReader (utf8 oneBackslash)).adv 4 } ∧
    Parse (NewReader (utf8 ("[".data ++ oneBackslash ++ ",\"x\"]".data))) =
      some { err := some (Err.New "unknown type"),
             toks := tokens ArrayType "[".data ++
               tokens StringType (oneBackslash ++ ",\"".data),
             reader := (NewReader (utf8 ("[".data ++ oneBackslash ++ ",\"x\"]".data))).adv 7 } := by
  decide

theorem first2 (b : Nat) (h1 : 0xC2 ≤ b) (h2 : b < 0xE0) : first b = some (2, 0x80, 0xBF) := by
  unfold first
  have c1 : ¬ b < 0xC2 := by omega
  simp only [c1, h2, if_false, if_true]

theorem decode_ge (s0 : Nat) (t : List Nat) (h : ¬ s0 < 0x80) :
    0x80 ≤ (DecodeRuneInString (s0 :: t)).1 := by
  unfold DecodeRuneInString
  simp only [h, if_false]
  cases hf : first s0 with
  | none => simp [RuneError]
  | some v =>
    obtain ⟨sz, lo, hi⟩ := v
    have hs := first_some s0 sz lo hi hf
    have hlo : (s0 = 0xE0 → lo = 0xA0) ∧ (s0 = 0xF0 → lo = 0x90) ∧
        (sz = 2 → s0 < 0xE0) ∧ (sz = 3 → 0xE0 ≤ s0 ∧ s0 ≤ 0xEF) ∧ (sz = 4 → 0xF0 ≤ s0) := by
      by_cases a : s0 < 0xE0
      · rw [first2 s0 hs.1 a] at hf
        simp only [Option.some.injEq, Prod.mk.injEq] at hf
        omega
      · by_cases b : s0 ≤ 0xEF
        · rcases first3 s0 (by omega) b with ⟨e, hh⟩ | ⟨e, hh⟩ | ⟨e, hh⟩ <;>
            (rw [hh] at hf; simp only [Option.some.injEq, Prod.mk.injEq] at hf; omega)
        · rcases first4 s0 (by omega) hs.2.1 with ⟨e, hh⟩ | ⟨e, hh⟩ | ⟨e, hh⟩ <;>
            (rw [hh] at hf; simp only [Option.some.injEq, Prod.mk.injEq] at hf; omega)
    simp only []
    split_ifs <;> simp only [RuneError] <;> omega

theorem firstRune_ascii (bs : List Nat) (k : Nat) (hk : 0 < k ∧ k < 0x80)
    (h : firstRune bs = k) : ∃ t, bs = k :: t := by
  cases bs with
  | nil => simp [firstRune] at h; omega
  | cons b t =>
    rw [firstRune_cons] at h
    by_cases hb : b < 0x80
    · rw [if_pos hb] at h
      exact ⟨t, by rw [h]⟩
    · rw [if_neg hb] at h
      have := decode_ge b t hb
      omega

theorem comma_after_peek (r : Reader) (t : TokenType) (h : (peek r).1 = 44) :
    parseLiteral (peek r).2 t "," =
      { err := none, toks := [{ Rune := 44, Typ := t }], reader := r.adv 1 } := by
  rw [peek_eq] at h ⊢
  obtain ⟨tail, ht⟩ := firstRune_ascii r.unread 44 (by decide) h
  have h0 : (r.adv 0).unread = 44 :: tail := (unread_adv_zero r).trans ht
  have hne : (r.adv 0).unread ≠ [] := by rw [h0]; simp
  have hu : utf8 ",".data = [44] := by decide
  unfold parseLiteral
  simp only [Read_cons _ _ hne, hu, h0, List.length_singleton, List.take_succ_cons,
    List.take_zero, Nat.sub_self, List.replicate_zero, List.append_nil, if_true, adv_adv]
  rfl

theorem parseCommaStrict_eq (r : Reader) (t : TokenType) :
    parseCommaStrict r t = parseComma r t := by
  unfold parseCommaStrict parseComma
  dsimp only
  split_ifs with h
  · rw [comma_after_peek r t h]
  · rfl

theorem strict_eq (fuel : Nat) :
    (∀ r, parseValueStrict fuel r = parseValue fuel r) ∧
    (∀ r, parseObjectStrict fuel r = parseObject fuel r) ∧
    (∀ r, objectLoopStrict fuel r = objectLoop fuel r) ∧
    (∀ r, parseArrayStrict fuel r = parseArray fuel r) ∧
    (∀ r, arrayLoopStrict fuel r = arrayLoop fuel r) := by
  induction fuel with
  | zero =>
    refine ⟨?_, ?_, ?_, ?_, ?_⟩ <;> intro r
    · simp [parseValueStrict, parseValue]
    · simp [parseObjectStrict, parseObject]
    · simp [objectLoopStrict, objectLoop]
    · simp [parseArrayStrict, parseArray]
    · simp [arrayLoopStrict, arrayLoop]
  | succ fuel ih =>
    obtain ⟨ihV, ihO, ihOL, ihA, ihAL⟩ := ih
    refine ⟨?_, ?_, ?_, ?_, ?_⟩ <;> intro r
    · rw [parseValueStrict, parseValue]
      simp only [ihA, ihO]
    · rw [parseObjectStrict, parseObject]
      simp only [ihOL]
    · rw [objectLoopStrict, objectLoop]
      simp only [ihV, ihOL, parseCommaStrict_eq]
    · rw [parseArrayStrict, parseArray]
      simp only [ihAL]
    · rw [arrayLoopStrict, arrayLoop]
      simp only [ihV, ihAL, parseCommaStrict_eq]

/-- C19: the error discarded at the separator step is never an error. Whenever `peek`
returns `,` the literal match for `,` succeeds, moves the reader by one byte and emits one
`,` token of the given category; so the variant of the productions that returns this error
gives the same outcome as the productions of the source, for every fuel and every reader. -/
theorem C19_separator_never_fails :
    (∀ (r : Reader) (t : TokenType), (peek r).1 = 44 →
      parseLiteral (peek r).2 t "," =
        { err := none, toks := [{ Rune := 44, Typ := t }], reader := r.adv 1 }) ∧
    (∀ (r : Reader) (t : TokenType), parseCommaStrict r t = parseComma r t) ∧
    (∀ (fuel : Nat) (r : Reader),
      parseValueStrict fuel r = parseValue fuel r ∧
      parseObjectStrict fuel r = parseObject fuel r ∧
      parseArrayStrict fuel r = parseArray fuel r) ∧
    (∀ r : Reader, ParseStrict r = Parse r) :=
  ⟨comma_after_peek, parseCommaStrict_eq,
    fun fuel r => ⟨(strict_eq fuel).1 r, (strict_eq fuel).2.1 r, (strict_eq fuel).2.2.2.1 r⟩,
    fun r => (strict_eq _).1 r⟩

/-- C19, at a reader that stands at `,1]`. -/
theorem C19_separator_never_fails_witness :
    parseLiteral (peek (NewReader (utf8 ",1]".data))).2 ArrayType "," =
      { err := none, toks := [{ Rune := 44, Typ := ArrayType }],
        reader := (NewReader (utf8 ",1]".data)).adv 1 } :=
  C19_separator_never_fails.1 (NewReader (utf8 ",1]".data)) ArrayType (by decide)

theorem read_after_number_peek (r : Reader) (h : numberRune (peek r).1 = true) :
    ((peek r).2.ReadRune).2.2.1 = none := by
  rw [peek_eq] at h ⊢
  have hne : r.unread ≠ [] := by
    intro h0
    rw [h0] at h
    have h2 : numberRune 0 = true := h
    exact absurd h2 (by decide)
  have h0 : (r.adv 0).unread ≠ [] := by rw [unread_adv_zero]; exact hne
  rw [ReadRune_cons _ h0]

theorem andThen_failed (o : Out) (k : Reader → Option Out) (h : o.err ≠ none) :
    o.andThen k = some o := by
  unfold Out.andThen
  cases he : o.err with
  | none => exact absurd he h
  | some e => rfl

/-- C17: whatever the outcome of the scan of a text, the characters of the emitted tokens,
in order, are a prefix of the text, and the bytes they spell are a prefix of the bytes read
from the source. After a failure nothing more is emitted: a production that has failed ends
the production that called it, the read of `parseNumber` behind a peeked number character
does not fail, and neither does the literal match behind a peeked comma. -/
theorem C17_emitted_prefix :
    (∀ (s : List Char) (fuel : Nat) (o : Out), parseValue fuel (NewReader (utf8 s)) = some o →
      ∃ ts rest : List Char, s = ts ++ rest ∧ o.toks.map Token.Rune = ts.map Char.toNat ∧
        spell o.toks = utf8 ts ∧ utf8 ts <+: consumed o) ∧
    (∀ (o : Out) (k : Reader → Option Out), o.err ≠ none → o.andThen k = some o) ∧
    (∀ r : Reader, numberRune (peek r).1 = true → ((peek r).2.ReadRune).2.2.1 = none) ∧
    (∀ (r : Reader) (t : TokenType), (peek r).1 = 44 →
      (parseLiteral (peek r).2 t ",").err = none) := by
  refine ⟨?_, andThen_failed, read_after_number_peek, fun r t h => ?_⟩
  · intro s fuel o h
    obtain ⟨ts, rest, h1, h2, _, h4, h5⟩ := tracks_parseValue fuel _ o h s (unread_NewReader _)
    refine ⟨ts, rest, h1, h2, spell_of_runes _ _ h2, ?_⟩
    have hs : o.reader.s = utf8 ts ++ utf8 rest := by
      rw [h4]; show utf8 s = _; rw [h1, utf8_append]
    have hi : (utf8 ts).length ≤ o.reader.i := by
      have : (NewReader (utf8 s)).i = 0 := rfl
      omega
    unfold consumed
    rw [hs, List.take_append_eq_append_take, List.take_of_length_le hi]
    exact List.prefix_append _ _
  · rw [comma_after_peek r t h]

/-- C17, at `{ }`: the two tokens emitted before the failure spell the first two of the
three bytes read. -/
theorem C17_emitted_prefix_witness :
    Parse (NewReader (utf8 "\x7b \x7d".data)) = some braceSpaceOutcome ∧
    (∃ ts rest : List Char, "\x7b \x7d".data = ts ++ rest ∧
      braceSpaceOutcome.toks.map Token.Rune = ts.map Char.toNat ∧
      spell braceSpaceOutcome.toks = utf8 ts ∧ utf8 ts <+: consumed braceSpaceOutcome) ∧
    ((peek (NewReader (utf8 "1,".data))).2.ReadRune).2.2.1 = none :=
  ⟨by decide,
   C17_emitted_prefix.1 "\x7b \x7d".data
     (3 * (NewReader (utf8 "\x7b \x7d".data)).unread.length + 3) braceSpaceOutcome (by decide),
   C17_emitted_prefix.2.2.1 (NewReader (utf8 "1,".data)) (by decide)⟩

theorem digit_head (n tail : List Char) (hn : n ≠ []) (hd : ∀ c ∈ n, isDigit c = true) :
    ∃ c cs, n ++ tail = c :: cs ∧ 48 ≤ c.toNat ∧ c.toNat ≤ 57 := by
  cases n with
  | nil => exact absurd rfl hn
  | cons c cs =>
    have hc : 48 ≤ c.toNat ∧ c.toNat ≤ 57 := by simpa [isDigit] using hd c (by simp)
    exact ⟨c, cs ++ tail, rfl, hc.1, hc.2⟩

theorem digit_stops (p : Char → Bool) (c : Char) (cs : List Char)
    (hp : ∀ d : Char, 48 ≤ d.toNat ∧ d.toNat ≤ 57 → p d = false)
    (hc : 48 ≤ c.toNat ∧ c.toNat ≤ 57) : stopsAt p (c :: cs) :=
  stopsAt_cons p c cs (hp c hc)

theorem digit_not_space (d : Char) (h : 48 ≤ d.toNat ∧ d.toNat ≤ 57) : isSpace d = false := by
  simp only [isSpace, decide_eq_false_iff_not]
  omega

theorem digit_not_comma (d : Char) (h : 48 ≤ d.toNat ∧ d.toNat ≤ 57) :
    (fun c : Char => decide (c.toNat = 44)) d = false := by
  simp only [decide_eq_false_iff_not]
  omega

theorem spaced_head (ns : List (List Char)) (tail : List Char) (hne : ns ≠ [])
    (hd : ∀ n ∈ ns, n ≠ [] ∧ ∀ c ∈ n, isDigit c = true) :
    ∃ c cs, spaced ns ++ tail = c :: cs ∧ 48 ≤ c.toNat ∧ c.toNat ≤ 57 := by
  cases ns with
  | nil => exact absurd rfl hne
  | cons n ns =>
    have hn := hd n (by simp)
    cases ns with
    | nil => exact digit_head n tail hn.1 hn.2
    | cons m ns =>
      obtain ⟨c, cs, h1, h2⟩ := digit_head n (" ".data ++ spaced (m :: ns) ++ tail) hn.1 hn.2
      exact ⟨c, cs, by rw [← h1]; simp [spaced], h2⟩

theorem array_spaced (ns : List (List Char)) :
    ns ≠ [] → (∀ n ∈ ns, n ≠ [] ∧ ∀ c ∈ n, isDigit c = true) →
    ∀ (fuel : Nat) (r : Reader) (rest : List Char),
      r.unread = utf8 (spaced ns ++ ("]".data ++ rest)) →
      Yields (arrayLoop (fuel + ns.length + 1) r) none
        ((spaced ns ++ "]".data).map numberOrArray) rest := by
  induction ns with
  | nil => intro h; exact absurd rfl h
  | cons n ns ih =>
    intro _ hd fuel r rest h
    have hn := hd n (by simp)
    cases ns with
    | nil =>
      obtain ⟨c, cs, hcs, hc1, hc2⟩ := digits_head n ("]".data ++ rest) hn.1 hn.2
      have h1 := arrayLoop_one fuel r c cs rest (n.map numberOrArray)
        (h.trans (congrArg utf8 hcs)) hc1 hc2
        (fun r1 h1 => yields_digits fuel r1 n ("]".data ++ rest) hn.1 hn.2
          (stopsAt_cons _ (Char.ofNat 93) _ (by decide)) (by rw [h1, hcs]))
      simpa [spaced, tokens, numberOrArray, isDigit] using h1
    | cons m ns =>
      have hm : ∀ k ∈ m :: ns, k ≠ [] ∧ ∀ c ∈ k, isDigit c = true :=
        fun k hk => hd k (by simp [List.mem_cons] at hk ⊢; tauto)
      have e : spaced (n :: m :: ns) ++ ("]".data ++ rest) =
          n ++ (" ".data ++ (spaced (m :: ns) ++ ("]".data ++ rest))) := by
        simp [spaced]
      rw [e] at h
      obtain ⟨c, cs, hcs, hc1, hc2⟩ := digits_head n
        (" ".data ++ (spaced (m :: ns) ++ ("]".data ++ rest))) hn.1 hn.2
      obtain ⟨c2, cs2, hcs2, hc3⟩ := spaced_head (m :: ns) ("]".data ++ rest) (by simp) hm
      have hf : fuel + (n :: m :: ns).length + 1 = (fuel + (m :: ns).length + 1) + 1 := by
        simp only [List.length_cons]; omega
      rw [hf, arrayLoop_enter _ r c cs (h.trans (congrArg utf8 hcs)) hc1]
      have h1 := Yields.bind_andThen (yields_no_whitespace _ ArrayType _
        (stopsAt_cons _ _ _ hc2) ((unread_adv_zero r).trans (h.trans (congrArg utf8 hcs))))
        (fun r1 h1 =>
        Yields.bind_andThen (yields_digits (fuel + (m :: ns).length) r1 n
          (" ".data ++ (spaced (m :: ns) ++ ("]".data ++ rest))) hn.1 hn.2
          (stopsAt_cons _ (Char.ofNat 32) _ (by decide)) (by rw [h1, hcs])) (fun r2 h2 =>
        Yields.bind_andThen (yields_whitespace r2 ArrayType " ".data _ (by decide)
          (by rw [hcs2]; exact stopsAt_cons _ _ _ (digit_not_space c2 hc3)) h2) (fun r3 h3 =>
        Yields.andThen (yields_no_comma r3 ArrayType _
          (by rw [hcs2]; exact stopsAt_cons _ _ _ (digit_not_comma c2 hc3)) h3) (fun r4 h4 =>
        Yields.bind_andThen (yields_no_whitespace r4 ArrayType _
          (by rw [hcs2]; exact stopsAt_cons _ _ _ (digit_not_space c2 hc3)) h4) (fun r5 h5 =>
        ih (by simp) hm fuel r5 rest h5)))))
      have e2 : (spaced (n :: m :: ns) ++ "]".data).map numberOrArray =
          n.map numberOrArray ++ (tokens ArrayType " ".data ++
            (spaced (m :: ns) ++ "]".data).map numberOrArray) := by
        simp [spaced, tokens, numberOrArray, isDigit]
      rw [e2]
      simpa using h1

theorem array_commaEnded (ns : List (List Char)) :
    (∀ n ∈ ns, n ≠ [] ∧ ∀ c ∈ n, isDigit c = true) →
    ∀ (fuel : Nat) (r : Reader) (rest : List Char),
      r.unread = utf8 (commaEnded ns ++ ("]".data ++ rest)) →
      Yields (arrayLoop (fuel + ns.length + 1) r) none
        ((commaEnded ns ++ "]".data).map numberOrArray) rest := by
  induction ns with
  | nil =>
    intro _ fuel r rest h
    have := yields_arrayLoop_exit (fuel + 0) r rest h
    simpa [commaEnded, tokens, numberOrArray, isDigit] using this
  | cons n ns ih =>
    intro hd fuel r rest h
    have hn := hd n (by simp)
    have hm : ∀ k ∈ ns, k ≠ [] ∧ ∀ c ∈ k, isDigit c = true :=
      fun k hk => hd k (by simp [hk])
    have e : commaEnded (n :: ns) ++ ("]".data ++ rest) =
        n ++ (",".data ++ (commaEnded ns ++ ("]".data ++ rest))) := by
      simp [commaEnded]
    rw [e] at h
    obtain ⟨c, cs, hcs, hc1, hc2⟩ := digits_head n
      (",".data ++ (commaEnded ns ++ ("]".data ++ rest))) hn.1 hn.2
    have hnext : stopsAt isSpace (commaEnded ns ++ ("]".data ++ rest)) := by
      cases ns with
      | nil => exact stopsAt_cons _ (Char.ofNat 93) _ (by decide)
      | cons m ms =>
        have hmm := hd m (by simp)
        obtain ⟨c2, cs2, h2, h3⟩ := digit_head m
          (",".data ++ commaEnded ms ++ ("]".data ++ rest)) hmm.1 hmm.2
        have : commaEnded (m :: ms) ++ ("]".data ++ rest) = c2 :: cs2 := by
          rw [← h2]; simp [commaEnded]
        rw [this]
        exact stopsAt_cons _ _ _ (digit_not_space c2 h3)
    have hf : fuel + (n :: ns).length + 1 = (fuel + ns.length + 1) + 1 := by
      simp only [List.length_cons]; omega
    rw [hf, arrayLoop_enter _ r c cs (h.trans (congrArg utf8 hcs)) hc1]
    have h1 := Yields.bind_andThen (yields_no_whitespace _ ArrayType _
      (stopsAt_cons _ _ _ hc2) ((unread_adv_zero r).trans (h.trans (congrArg utf8 hcs))))
      (fun r1 h1 =>
      Yields.bind_andThen (yields_digits (fuel + ns.length) r1 n
        (",".data ++ (commaEnded ns ++ ("]".data ++ rest))) hn.1 hn.2
        (stopsAt_cons _ (Char.ofNat 44) _ (by decide)) (by rw [h1, hcs])) (fun r2 h2 =>
      Yields.bind_andThen (yields_no_whitespace r2 ArrayType _
        (stopsAt_cons _ (Char.ofNat 44) _ (by decide)) h2) (fun r3 h3 =>
      Yields.andThen (yields_comma r3 ArrayType _ h3) (fun r4 h4 =>
      Yields.bind_andThen (yields_no_whitespace r4 ArrayType _ hnext h4) (fun r5 h5 =>
      ih hm fuel r5 rest h5)))))
    have e2 : (commaEnded (n :: ns) ++ "]".data).map numberOrArray =
        n.map numberOrArray ++ (tokens ArrayType ",".data ++
          (commaEnded ns ++ "]".data).map numberOrArray) := by
      simp [commaEnded, tokens, numberOrArray, isDigit]
    rw [e2]
    simpa using h1

theorem spaced_length (ns : List (List Char)) (h : ∀ n ∈ ns, n ≠ []) :
    ns.length ≤ (spaced ns).length := by
  induction ns with
  | nil => simp
  | cons n ns ih =>
    have hn := List.length_pos.2 (h n (by simp))
    cases ns with
    | nil => simpa [spaced] using hn
    | cons m ns =>
      have := ih (fun k hk => h k (by simp [List.mem_cons] at hk ⊢; tauto))
      simp only [spaced, List.length_append, List.length_cons] at this ⊢
      omega

theorem commaEnded_length (ns : List (List Char)) : ns.length ≤ (commaEnded ns).length := by
  induction ns with
  | nil => simp
  | cons n ns ih =>
    simp only [commaEnded, List.length_append, List.length_cons]
    omega

theorem parse_bracketed (body : List Char) (k : Nat) (hk : k ≤ body.length)
    (hloop : ∀ (fuel : Nat) (r : Reader), r.unread = utf8 (body ++ ("]".data ++ [])) →
      Yields (arrayLoop (fuel + k + 1) r) none ((body ++ "]".data).map numberOrArray) []) :
    ∃ r, Parse (NewReader (utf8 ("[".data ++ body ++ "]".data))) =
        some { err := none,
               toks := ("[".data ++ body ++ "]".data).map numberOrArray,
               reader := r } ∧
      r.unread = [] := by
  have hu : (NewReader (utf8 ("[".data ++ body ++ "]".data))).unread =
      utf8 ("[".data ++ (body ++ ("]".data ++ []))) := by
    rw [unread_NewReader]; simp
  have hl : k + 2 ≤
      3 * (NewReader (utf8 ("[".data ++ body ++ "]".data))).unread.length + 2 := by
    have h1 := utf8_length_le ("[".data ++ (body ++ ("]".data ++ [])))
    have h3 : body.length ≤ ("[".data ++ (body ++ ("]".data ++ []))).length := by
      rw [List.length_append, List.length_append]; omega
    rw [hu]
    omega
  obtain ⟨f, hf⟩ := Parse_fuel _ (k + 2) hl
  have hf2 : f + (k + 2) = (f + k + 1) + 1 := by omega
  rw [hf, parseValue_array _ _ _ hu, hf2, parseArray]
  obtain ⟨r, h1, h2⟩ := Yields.andThen (yields_literal _ ArrayType "[" _ (by decide)
    ((unread_adv_zero _).trans hu)) (fun r1 h1 => hloop f r1 h1)
  refine ⟨r, ?_, h2⟩
  rw [h1]
  simp [tokens, numberOrArray, isDigit]

set_option maxRecDepth 100000 in
/-- C18: the separator between container elements is optional and a trailing separator is
accepted. For every non-empty list of non-empty digit strings, the scan of the bracketed list
with one space and no comma between the elements succeeds and reads the whole text, and so
does the scan of the bracketed list with a comma after every element, the last one included;
each digit is a Number token and every other character an Array token. The objects
`{"a":1 "b":2}` and `{"a":1,}` scan without error to the end of the text, one token for
each character. -/
theorem C18_optional_separators (ns : List (List Char)) (hne : ns ≠ [])
    (hd : ∀ n ∈ ns, n ≠ [] ∧ ∀ c ∈ n, isDigit c = true) :
    (∃ r, Parse (NewReader (utf8 ("[".data ++ spaced ns ++ "]".data))) =
        some { err := none,
               toks := ("[".data ++ spaced ns ++ "]".data).map numberOrArray,
               reader := r } ∧
      r.unread = []) ∧
    (∃ r, Parse (NewReader (utf8 ("[".data ++ commaEnded ns ++ "]".data))) =
        some { err := none,
               toks := ("[".data ++ commaEnded ns ++ "]".data).map numberOrArray,
               reader := r } ∧
      r.unread = []) ∧
    (Parse (source "\x7b\"a\":1 \"b\":2\x7d") =
        some { err := none,
               toks := tokens ObjectType "\x7b".data ++ tokens StringType "\"a\"".data ++
                 tokens ObjectType ":".data ++ tokens NumberType "1".data ++
                 tokens ObjectType " ".data ++ tokens StringType "\"b\"".data ++
                 tokens ObjectType ":".data ++ tokens NumberType "2".data ++
                 tokens ObjectType "\x7d".data,
               reader := (source "\x7b\"a\":1 \"b\":2\x7d").adv 13 } ∧
      ((source "\x7b\"a\":1 \"b\":2\x7d").adv 13).unread = []) ∧
    (Parse (source "\x7b\"a\":1,\x7d") =
        some { err := none,
               toks := tokens ObjectType "\x7b".data ++ tokens StringType "\"a\"".data ++
                 tokens ObjectType ":".data ++ tokens NumberType "1".data ++
                 tokens ObjectType ",\x7d".data,
               reader := (source "\x7b\"a\":1,\x7d").adv 8 } ∧
      ((source "\x7b\"a\":1,\x7d").adv 8).unread = []) := by
  refine ⟨?_, ?_, ?_, ?_⟩
  · exact parse_bracketed (spaced ns) ns.length (spaced_length ns (fun n hn => (hd n hn).1))
      (fun fuel r h => array_spaced ns hne hd fuel r [] h)
  · exact parse_bracketed (commaEnded ns) ns.length (commaEnded_length ns)
      (fun fuel r h => array_commaEnded ns hd fuel r [] h)
  · exact ⟨by decide, by decide⟩
  · exact ⟨by decide, by decide⟩

/-- C18, at the numbers 1 and 2: `[1 2]` and `[1,2,]` scan to the end of the text. -/
theorem C18_optional_separators_witness :
    (∃ r, Parse (NewReader (utf8 ("[".data ++ spaced ["1".data, "2".data] ++ "]".data))) =
        some { err := none,
               toks := ("[".data ++ spaced ["1".data, "2".data] ++ "]".data).map
                 numberOrArray,
               reader := r } ∧
      r.unread = []) ∧
    (∃ r, Parse (NewReader (utf8 ("[".data ++ commaEnded ["1".data, "2".data] ++
          "]".data))) =
        some { err := none,
               toks := ("[".data ++ commaEnded ["1".data, "2".data] ++ "]".data).map
                 numberOrArray,
               reader := r } ∧
      r.unread = []) :=
  ⟨(C18_optional_separators ["1".data, "2".data] (by decide) (by decide)).1,
   (C18_optional_separators ["1".data, "2".data] (by decide) (by decide)).2.1⟩

theorem unread_length (r : Reader) : r.unread.length = r.s.length - r.i := by
  simp [Reader.unread]

theorem ReadRune_left (r : Reader) :
    (r.ReadRune).2.2.2.unread.length ≤ r.unread.length ∧
    (r.unread ≠ [] → (r.ReadRune).2.2.1 = none ∧
      (r.ReadRune).2.2.2.unread.length < r.unread.length) ∧
    (r.unread = [] → (r.ReadRune).2.2.1 = some Err.EOF) := by
  by_cases h : r.unread = []
  · rw [ReadRune_nil r h]
    exact ⟨le_refl _, fun hne => absurd h hne, fun _ => rfl⟩
  · rw [ReadRune_cons r h]
    have h1 := firstSize_pos r.unread h
    have h2 : 0 < r.unread.length := List.length_pos.2 h
    have h3 : (Reader.unread { r with i := r.i + firstSize r.unread, prevRune := r.i }).length =
        r.unread.length - firstSize r.unread := by
      rw [unread_step, List.length_drop]
    refine ⟨?_, fun _ => ⟨rfl, ?_⟩, fun h0 => absurd h0 h⟩
    · show (Reader.unread { r with i := r.i + firstSize r.unread, prevRune := r.i }).length ≤ _
      omega
    · show (Reader.unread { r with i := r.i + firstSize r.unread, prevRune := r.i }).length < _
      omega

theorem peek_left (r : Reader) : (peek r).2.unread.length = r.unread.length := by
  rw [unread_peek]

theorem peek_zero (r : Reader) (h : r.unread = []) : (peek r).1 = 0 := by
  rw [peek_nil r h]

theorem parseLiteral_left (r : Reader) (t : TokenType) (lit : String) :
    (parseLiteral r t lit).reader.unread.length ≤ r.unread.length ∧
    ((parseLiteral r t lit).err = none → 1 ≤ (utf8 lit.data).length →
      (parseLiteral r t lit).reader.unread.length < r.unread.length) := by
  by_cases h : r.unread = []
  · rw [parseLiteral_nil r t lit h]
    exact ⟨le_refl _, fun he => by simp at he⟩
  · have h2 : 0 < r.unread.length := List.length_pos.2 h
    have hr : (parseLiteral r t lit).reader =
        r.adv (r.unread.take (utf8 lit.data).length).length := by
      simp only [parseLiteral, Read_cons r _ h]
      split_ifs <;> rfl
    rw [hr, unread_adv, List.length_drop, List.length_take]
    refine ⟨by omega, fun _ hl => ?_⟩
    have : 1 ≤ min (utf8 lit.data).length r.unread.length := le_min hl h2
    omega

theorem whitespaceLoop_total (t : TokenType) (fuel : Nat) :
    ∀ r : Reader, r.unread.length ≤ fuel →
      ∃ o, whitespaceLoop fuel r t = some o ∧ Shrinks r o := by
  induction fuel with
  | zero =>
    intro r h
    have h0 : r.unread = [] := List.length_eq_zero.1 (Nat.le_zero.1 h)
    unfold whitespaceLoop
    have hc : ¬ ((peek r).1 = 32 ∨ (peek r).1 = 10 ∨ (peek r).1 = 9) := by
      rw [peek_zero r h0]; decide
    simp only [hc, if_false]
    exact ⟨_, rfl, by simp [Shrinks, peek_left]⟩
  | succ fuel ih =>
    intro r h
    unfold whitespaceLoop
    by_cases hc : (peek r).1 = 32 ∨ (peek r).1 = 10 ∨ (peek r).1 = 9
    · have hne : r.unread ≠ [] := by
        intro h0
        rw [peek_zero r h0] at hc
        revert hc; decide
      have hne2 : (peek r).2.unread ≠ [] := by rw [unread_peek]; exact hne
      obtain ⟨_, h2, _⟩ := ReadRune_left (peek r).2
      obtain ⟨h3, h4⟩ := h2 hne2
      rw [peek_left] at h4
      obtain ⟨o, ho, hs⟩ := ih ((peek r).2.ReadRune).2.2.2 (by omega)
      simp only [hc, if_true, h3, ho, Option.map_some']
      exact ⟨_, rfl, by unfold Shrinks at hs ⊢; simp only [Out.emitFirst]; omega⟩
    · simp only [hc, if_false]
      exact ⟨_, rfl, by simp [Shrinks, peek_left]⟩

theorem numberLoop_total (fuel : Nat) :
    ∀ (r : Reader) (e : Option Err), r.unread.length ≤ fuel →
      ∃ o, numberLoop fuel r e = some o ∧ Shrinks r o := by
  induction fuel with
  | zero =>
    intro r e h
    have h0 : r.unread = [] := List.length_eq_zero.1 (Nat.le_zero.1 h)
    unfold numberLoop
    cases e with
    | some e => exact ⟨_, rfl, le_refl _⟩
    | none =>
      simp only []
      have hc : ¬ (numberRune (peek r).1 = true) := by
        rw [peek_zero r h0]; decide
      simp only [hc]
      exact ⟨_, rfl, by simp [Shrinks, peek_left]⟩
  | succ fuel ih =>
    intro r e h
    unfold numberLoop
    cases e with
    | some e => exact ⟨_, rfl, le_refl _⟩
    | none =>
      simp only []
      by_cases hc : numberRune (peek r).1 = true
      · have hne : r.unread ≠ [] := by
          intro h0
          rw [peek_zero r h0] at hc
          revert hc; decide
        have hne2 : (peek r).2.unread ≠ [] := by rw [unread_peek]; exact hne
        obtain ⟨_, h2, _⟩ := ReadRune_left (peek r).2
        obtain ⟨h3, h4⟩ := h2 hne2
        rw [peek_left] at h4
        obtain ⟨o, ho, hs⟩ := ih ((peek r).2.ReadRune).2.2.2 ((peek r).2.ReadRune).2.2.1
          (by omega)
        simp only [hc, if_true, ho, Option.map_some']
        exact ⟨_, rfl, by unfold Shrinks at hs ⊢; simp only [Out.emitFirst]; omega⟩
      · simp only [hc]
        exact ⟨_, rfl, by simp [Shrinks, peek_left]⟩

theorem stringLoop_total (fuel : Nat) :
    ∀ (r : Reader) (x : Nat), r.unread.length ≤ fuel →
      ∃ o, stringLoop fuel r x = some o ∧ Shrinks r o := by
  induction fuel with
  | zero =>
    intro r x h
    have h0 : r.unread = [] := List.length_eq_zero.1 (Nat.le_zero.1 h)
    have h1 : (peek r).2.unread = [] := by rw [unread_peek]; exact h0
    obtain ⟨h2, _, h3⟩ := ReadRune_left (peek r).2
    rw [peek_left] at h2
    unfold stringLoop
    have hc : (peek r).1 ≠ 34 ∨ x = 92 := Or.inl (by rw [peek_zero r h0]; decide)
    simp only [hc, if_true, h3 h1]
    exact ⟨_, rfl, h2⟩
  | succ fuel ih =>
    intro r x h
    unfold stringLoop
    by_cases hc : (peek r).1 ≠ 34 ∨ x = 92
    · simp only [hc, if_true]
      obtain ⟨h2, h3, h4⟩ := ReadRune_left (peek r).2
      rw [peek_left] at h2
      by_cases h0 : (peek r).2.unread = []
      · simp only [h4 h0]
        exact ⟨_, rfl, h2⟩
      · obtain ⟨h5, h6⟩ := h3 h0
        rw [peek_left] at h6
        obtain ⟨o, ho, hs⟩ := ih ((peek r).2.ReadRune).2.2.2 ((peek r).2.ReadRune).1 (by omega)
        simp only [h5, ho, Option.map_some']
        exact ⟨_, rfl, by unfold Shrinks at hs ⊢; simp only [Out.emitFirst]; omega⟩
    · simp only [hc, if_false]
      refine ⟨_, rfl, ?_⟩
      have := (parseLiteral_left (peek r).2 StringType "\"").1
      rw [peek_left] at this
      exact this

theorem parseWhitespace_total (r : Reader) (t : TokenType) :
    ∃ o, parseWhitespace r t = some o ∧ Shrinks r o :=
  whitespaceLoop_total t _ r (le_refl _)

theorem parseNumber_total (r : Reader) : ∃ o, parseNumber r = some o ∧ Shrinks r o :=
  numberLoop_total _ r none (le_refl _)

theorem shrinks_peek (r : Reader) (o : Out) (h : Shrinks (peek r).2 o) : Shrinks r o := by
  unfold Shrinks at h ⊢
  rw [peek_left] at h
  exact h

theorem shrinks_seq (r : Reader) (o o2 : Out) (h1 : Shrinks r o) (_ : o.err = none)
    (h2 : Shrinks o.reader o2) : Shrinks r (Out.emitFirst o.toks o2) :=
  le_trans h2 h1

theorem shrinks_of_total {x : Option Out} {r : Reader} (hx : ∃ o, x = some o ∧ Shrinks r o)
    (o : Out) (h : x = some o) : Shrinks r o := by
  obtain ⟨o2, h2, h3⟩ := hx
  rw [h2] at h
  rw [← Option.some.inj h]
  exact h3

theorem shrinks_whitespace (r : Reader) (t : TokenType) (o : Out)
    (h : parseWhitespace r t = some o) : Shrinks r o :=
  shrinks_of_total (parseWhitespace_total r t) o h

theorem shrinks_number (r : Reader) (o : Out) (h : parseNumber r = some o) : Shrinks r o :=
  shrinks_of_total (parseNumber_total r) o h

theorem shrinks_string (r : Reader) (o : Out) (h : parseString r = some o) : Shrinks r o :=
  andThen_of_seq shrinks_seq (parseLiteral_left r StringType "\"").1
    (fun r2 o2 h2 => shrinks_of_total (stringLoop_total _ r2 0 (le_refl _)) o2 h2) h

theorem shrinks_bool (r : Reader) : Shrinks r (parseBool r) := by
  unfold parseBool
  apply shrinks_peek
  dsimp only
  split_ifs
  · exact le_refl _
  · apply shrinks_peek
    exact (parseLiteral_left _ _ _).1
  · apply shrinks_peek
    exact (parseLiteral_left _ _ _).1

theorem shrinks_comma (r : Reader) (t : TokenType) : Shrinks r (parseComma r t) := by
  unfold parseComma
  apply shrinks_peek
  dsimp only
  split_ifs
  · exact (parseLiteral_left _ _ _).1
  · exact le_refl _

/-- No production moves the reader back. -/
theorem shrinks_invariant : ScanInvariant Shrinks where
  peek := shrinks_peek
  seq := shrinks_seq
  literal := fun r p _ => (parseLiteral_left r p.1 p.2).1
  whitespace := fun r t _ o h => shrinks_whitespace r t o h
  string := shrinks_string
  number := fun r o _ h => shrinks_number r o h
  bool := fun r _ => shrinks_bool r
  null := fun r _ => (parseLiteral_left r NullType "null").1
  comma := fun r t _ => shrinks_comma r t
  unknown := fun _ => le_refl _

theorem andThen_strict (lit : Out) (r : Reader) (k : Reader → Option Out) (o : Out)
    (hlit : lit.err = none → lit.reader.unread.length < r.unread.length)
    (hk : ∀ r2 o2, k r2 = some o2 → Shrinks r2 o2)
    (h : lit.andThen k = some o) (he : o.err = none) :
    o.reader.unread.length < r.unread.length := by
  unfold Out.andThen at h
  cases hl : lit.err with
  | some e =>
    rw [hl] at h
    simp only [Option.some.injEq] at h
    rw [← h, hl] at he
    simp at he
  | none =>
    rw [hl] at h
    simp only [Option.map_eq_some'] at h
    obtain ⟨o2, h2, h3⟩ := h
    have h4 := hk _ _ h2
    have h5 := hlit hl
    rw [← h3]
    unfold Shrinks at h4
    simp only [Out.emitFirst]
    omega

theorem parseString_strict (r : Reader) (o : Out) (h : parseString r = some o)
    (he : o.err = none) : o.reader.unread.length < r.unread.length :=
  andThen_strict _ r _ o
    (fun hl => (parseLiteral_left r StringType "\"").2 hl (by decide))
    (fun r2 o2 h2 => shrinks_of_total (stringLoop_total _ r2 0 (le_refl _)) o2 h2) h he

theorem parseArray_strict (fuel : Nat) (r : Reader) (o : Out) (h : parseArray fuel r = some o)
    (he : o.err = none) : o.reader.unread.length < r.unread.length := by
  cases fuel with
  | zero => simp [parseArray] at h
  | succ fuel =>
    rw [parseArray] at h
    exact andThen_strict _ r _ o
      (fun hl => (parseLiteral_left r ArrayType "[").2 hl (by decide))
      (fun r2 o2 h2 => (scan_invariant_all shrinks_invariant fuel).2.2.2.2 r2 o2 h2) h he

theorem parseObject_strict (fuel : Nat) (r : Reader) (o : Out)
    (h : parseObject fuel r = some o) (he : o.err = none) :
    o.reader.unread.length < r.unread.length := by
  cases fuel with
  | zero => simp [parseObject] at h
  | succ fuel =>
    rw [parseObject] at h
    exact andThen_strict _ r _ o
      (fun hl => (parseLiteral_left r ObjectType "\x7b").2 hl (by decide))
      (fun r2 o2 h2 => (scan_invariant_all shrinks_invariant fuel).2.2.1 r2 o2 h2) h he

theorem parseBool_cases (r : Reader) :
    (∃ e, parseBool r = { err := some e, toks := [], reader := (peek r).2 }) ∨
    parseBool r = parseLiteral (peek (peek r).2).2 BoolType "true" ∨
    parseBool r = parseLiteral (peek (peek r).2).2 BoolType "false" := by
  unfold parseBool
  dsimp only
  split_ifs
  · exact Or.inl ⟨_, rfl⟩
  · exact Or.inr (Or.inl rfl)
  · exact Or.inr (Or.inr rfl)

theorem parseBool_strict (r : Reader) (he : (parseBool r).err = none) :
    (parseBool r).reader.unread.length < r.unread.length := by
  rcases parseBool_cases r with ⟨e, h⟩ | h | h
  · rw [h] at he
    simp at he
  · rw [h] at he ⊢
    have := (parseLiteral_left (peek (peek r).2).2 BoolType "true").2 he (by decide)
    rw [peek_left, peek_left] at this
    exact this
  · rw [h] at he ⊢
    have := (parseLiteral_left (peek (peek r).2).2 BoolType "false").2 he (by decide)
    rw [peek_left, peek_left] at this
    exact this

theorem number_guard (n : Nat) (h : (48 ≤ n ∧ n ≤ 57) ∨ n = 45) : numberRune n = true := by
  rcases h with ⟨h1, h2⟩ | h
  · interval_cases n <;> decide
  · subst h; decide

theorem peek_peek (r : Reader) : (peek (peek r).2).1 = (peek r).1 := by
  rw [peek_eq, peek_eq, unread_adv_zero]

theorem parseNumber_strict (r : Reader) (o : Out) (hc : numberRune (peek r).1 = true)
    (h : parseNumber r = some o) : o.reader.unread.length < r.unread.length := by
  have hne : r.unread ≠ [] := by
    intro h0
    rw [peek_zero r h0] at hc
    revert hc; decide
  obtain ⟨n, hn⟩ : ∃ n, r.unread.length = n + 1 :=
    ⟨r.unread.length - 1, by have := List.length_pos.2 hne; omega⟩
  have hne2 : (peek r).2.unread ≠ [] := by rw [unread_peek]; exact hne
  obtain ⟨_, h2, _⟩ := ReadRune_left (peek r).2
  obtain ⟨_, h4⟩ := h2 hne2
  rw [peek_left] at h4
  obtain ⟨o2, ho2, hs⟩ := numberLoop_total n ((peek r).2.ReadRune).2.2.2
    ((peek r).2.ReadRune).2.2.1 (by omega)
  unfold parseNumber at h
  rw [hn] at h
  unfold numberLoop at h
  simp only [hc, if_true, ho2, Option.map_some', Option.some.injEq] at h
  rw [← h]
  unfold Shrinks at hs
  simp only [Out.emitFirst]
  omega

theorem parseValue_strict (fuel : Nat) (r : Reader) (o : Out) (h : parseValue fuel r = some o)
    (he : o.err = none) : o.reader.unread.length < r.unread.length := by
  cases fuel with
  | zero => simp [parseValue] at h
  | succ fuel =>
    rw [parseValue_succ] at h
    split_ifs at h with h1 h2 h3 h4 h5 h6
    · have := parseString_strict _ o h he
      rwa [peek_left] at this
    · have := parseNumber_strict _ o (by rw [peek_peek]; exact number_guard _ h2) h
      rwa [peek_left] at this
    · have := parseArray_strict fuel _ o h he
      rwa [peek_left] at this
    · rw [← Option.some.inj h] at he ⊢
      have := parseBool_strict _ he
      rwa [peek_left] at this
    · rw [← Option.some.inj h] at he ⊢
      have := (parseLiteral_left (peek r).2 NullType "null").2 he (by decide)
      rwa [peek_left] at this
    · have := parseObject_strict fuel _ o h he
      rwa [peek_left] at this
    · rw [← Option.some.inj h] at he
      simp at he

theorem total_then (o : Out) (k : Reader → Option Out)
    (hk : o.err = none → ∃ out, k o.reader = some out) : ∃ out, o.andThen k = some out := by
  unfold Out.andThen
  cases he : o.err with
  | some e => exact ⟨_, rfl⟩
  | none =>
    obtain ⟨out, h⟩ := hk he
    exact ⟨Out.emitFirst o.toks out, by simp only [h, Option.map_some']⟩

theorem total_step (x : Option Out) (k : Reader → Option Out) (hx : ∃ o, x = some o)
    (hk : ∀ o, x = some o → o.err = none → ∃ out, k o.reader = some out) :
    ∃ out, (x.bind fun o => o.andThen k) = some out := by
  obtain ⟨o, ho⟩ := hx
  rw [ho, Option.some_bind]
  exact total_then o k (hk o ho)

theorem parseString_total (r : Reader) : ∃ o, parseString r = some o :=
  total_then _ _ (fun _ =>
    (stringLoop_total _ _ 0 (le_refl _)).imp fun _ h => h.1)

theorem shrinks_value (fuel : Nat) (r : Reader) (o : Out) (h : parseValue fuel r = some o) :
    Shrinks r o :=
  scan_invariant shrinks_invariant fuel r o h

theorem total_all (fuel : Nat) : ∀ r : Reader,
    (3 * r.unread.length + 2 ≤ fuel → ∃ o, parseValue fuel r = some o) ∧
    (3 * r.unread.length + 1 ≤ fuel → ∃ o, parseObject fuel r = some o) ∧
    (3 * r.unread.length + 3 ≤ fuel → ∃ o, objectLoop fuel r = some o) ∧
    (3 * r.unread.length + 1 ≤ fuel → ∃ o, parseArray fuel r = some o) ∧
    (3 * r.unread.length + 3 ≤ fuel → ∃ o, arrayLoop fuel r = some o) := by
  induction fuel with
  | zero =>
    intro r
    refine ⟨?_, ?_, ?_, ?_, ?_⟩ <;> intro h <;> omega
  | succ fuel ih =>
    intro r
    have hp := peek_left r
    refine ⟨?_, ?_, ?_, ?_, ?_⟩ <;> intro h
    · rw [parseValue_succ]
      split_ifs
      · exact parseString_total _
      · exact (parseNumber_total _).imp fun _ h => h.1
      · exact (ih (peek r).2).2.2.2.1 (by omega)
      · exact ⟨_, rfl⟩
      · exact ⟨_, rfl⟩
      · exact (ih (peek r).2).2.1 (by omega)
      · exact ⟨_, rfl⟩
    · rw [parseObject]
      refine total_then _ _ (fun he => ?_)
      have h1 := (parseLiteral_left r ObjectType "\x7b").2 he (by decide)
      exact (ih _).2.2.1 (by omega)
    · rw [objectLoop]
      split_ifs
      · refine total_step _ _ ((parseWhitespace_total _ _).imp fun _ h => h.1)
          (fun o1 h1 _ => ?_)
        have s1 := shrinks_whitespace _ _ _ h1
        refine total_step _ _ (parseString_total _) (fun o2 h2 _ => ?_)
        have s2 := shrinks_string _ _ h2
        refine total_step _ _ ((parseWhitespace_total _ _).imp fun _ h => h.1)
          (fun o3 h3 _ => ?_)
        have s3 := shrinks_whitespace _ _ _ h3
        refine total_then _ _ (fun _ => ?_)
        have s4 := (parseLiteral_left o3.reader ObjectType ":").1
        refine total_step _ _ ((parseWhitespace_total _ _).imp fun _ h => h.1)
          (fun o5 h5 _ => ?_)
        have s5 := shrinks_whitespace _ _ _ h5
        unfold Shrinks at s1 s2 s3 s5
        refine total_step _ _ ((ih _).1 (by omega)) (fun o6 h6 e6 => ?_)
        have s6 := parseValue_strict _ _ _ h6 e6
        refine total_then _ _ (fun _ => ?_)
        have s7 := shrinks_comma o6.reader ObjectType
        refine total_step _ _ ((parseWhitespace_total _ _).imp fun _ h => h.1)
          (fun o8 h8 _ => ?_)
        have s8 := shrinks_whitespace _ _ _ h8
        unfold Shrinks at s7 s8
        exact (ih _).2.2.1 (by omega)
      · exact ⟨_, rfl⟩
    · rw [parseArray]
      refine total_then _ _ (fun he => ?_)
      have h1 := (parseLiteral_left r ArrayType "[").2 he (by decide)
      exact (ih _).2.2.2.2 (by omega)
    · rw [arrayLoop]
      split_ifs
      · refine total_step _ _ ((parseWhitespace_total _ _).imp fun _ h => h.1)
          (fun o1 h1 _ => ?_)
        have s1 := shrinks_whitespace _ _ _ h1
        unfold Shrinks at s1
        refine total_step _ _ ((ih _).1 (by omega)) (fun o2 h2 e2 => ?_)
        have s2 := parseValue_strict _ _ _ h2 e2
        refine total_step _ _ ((parseWhitespace_total _ _).imp fun _ h => h.1)
          (fun o3 h3 _ => ?_)
        have s3 := shrinks_whitespace _ _ _ h3
        refine total_then _ _ (fun _ => ?_)
        have s4 := shrinks_comma o3.reader ArrayType
        refine total_step _ _ ((parseWhitespace_total _ _).imp fun _ h => h.1)
          (fun o5 h5 _ => ?_)
        have s5 := shrinks_whitespace _ _ _ h5
        unfold Shrinks at s3 s4 s5
        exact (ih _).2.2.2.2 (by omega)
      · exact ⟨_, rfl⟩

theorem Parse_total (r : Reader) : ∃ o, Parse r = some o :=
  (total_all _ r).1 (by omega)

theorem mono_then {o out : Out} {k k2 : Reader → Option Out}
    (hk : ∀ r o2, k r = some o2 → k2 r = some o2) (h : o.andThen k = some out) :
    o.andThen k2 = some out := by
  unfold Out.andThen at h ⊢
  cases he : o.err with
  | some e => rw [he] at h; exact h
  | none =>
    rw [he] at h
    simp only [Option.map_eq_some'] at h ⊢
    obtain ⟨o2, h2, h3⟩ := h
    exact ⟨o2, hk _ _ h2, h3⟩

theorem mono_step {x x2 : Option Out} {out : Out} {k k2 : Reader → Option Out}
    (hx : ∀ o, x = some o → x2 = some o) (hk : ∀ r o2, k r = some o2 → k2 r = some o2)
    (h : (x.bind fun o => o.andThen k) = some out) :
    (x2.bind fun o => o.andThen k2) = some out := by
  cases hxo : x with
  | none => rw [hxo] at h; simp at h
  | some o =>
    rw [hxo, Option.some_bind] at h
    rw [hx o hxo, Option.some_bind]
    exact mono_then hk h

theorem fuel_succ_all (fuel : Nat) :
    (∀ r o, parseValue fuel r = some o → parseValue (fuel + 1) r = some o) ∧
    (∀ r o, parseObject fuel r = some o → parseObject (fuel + 1) r = some o) ∧
    (∀ r o, objectLoop fuel r = some o → objectLoop (fuel + 1) r = some o) ∧
    (∀ r o, parseArray fuel r = some o → parseArray (fuel + 1) r = some o) ∧
    (∀ r o, arrayLoop fuel r = some o → arrayLoop (fuel + 1) r = some o) := by
  induction fuel with
  | zero =>
    refine ⟨?_, ?_, ?_, ?_, ?_⟩ <;> intro r o h
    · simp [parseValue] at h
    · simp [parseObject] at h
    · simp [objectLoop] at h
    · simp [parseArray] at h
    · simp [arrayLoop] at h
  | succ fuel ih =>
    obtain ⟨ihV, ihO, ihOL, ihA, ihAL⟩ := ih
    refine ⟨?_, ?_, ?_, ?_, ?_⟩ <;> intro r o h
    · rw [parseValue_succ] at h ⊢
      split_ifs at h ⊢
      · exact h
      · exact h
      · exact ihA _ _ h
      · exact h
      · exact h
      · exact ihO _ _ h
      · exact h
    · rw [parseObject] at h ⊢
      exact mono_then ihOL h
    · rw [objectLoop] at h ⊢
      split_ifs at h ⊢
      · exact mono_step (fun _ h => h) (fun _ _ h =>
          mono_step (fun _ h => h) (fun _ _ h =>
          mono_step (fun _ h => h) (fun _ _ h =>
          mono_then (fun _ _ h =>
          mono_step (fun _ h => h) (fun _ _ h =>
          mono_step (ihV _) (fun _ _ h =>
          mono_then (fun _ _ h =>
          mono_step (fun _ h => h) ihOL h) h) h) h) h) h) h) h
      · exact h
    · rw [parseArray] at h ⊢
      exact mono_then ihAL h
    · rw [arrayLoop] at h ⊢
      split_ifs at h ⊢
      · exact mono_step (fun _ h => h) (fun _ _ h =>
          mono_step (ihV _) (fun _ _ h =>
          mono_step (fun _ h => h) (fun _ _ h =>
          mono_then (fun _ _ h =>
          mono_step (fun _ h => h) ihAL h) h) h) h) h
      · exact h

theorem fuel_add (fuel k : Nat) (r : Reader) (o : Out) (h : parseValue fuel r = some o) :
    parseValue (fuel + k) r = some o := by
  induction k with
  | zero => exact h
  | succ k ih => exact (fuel_succ_all (fuel + k)).1 r o ih

theorem Parse_any_fuel (r : Reader) (fuel : Nat) (h : 3 * r.unread.length + 2 ≤ fuel) :
    parseValue fuel r = Parse r := by
  obtain ⟨o, ho⟩ := (total_all fuel r).1 h
  obtain ⟨o2, ho2⟩ := Parse_total r
  rw [ho, ho2]
  rcases Nat.le_total fuel (3 * r.unread.length + 3) with hle | hle
  · obtain ⟨k, hk⟩ := Nat.exists_eq_add_of_le hle
    have := fuel_add fuel k r o ho
    rw [← hk] at this
    exact this.symm.trans ho2
  · obtain ⟨k, hk⟩ := Nat.exists_eq_add_of_le hle
    have := fuel_add _ k r o2 ho2
    rw [← hk] at this
    exact ho.symm.trans this

theorem whitespaceLoop_at_end (fuel : Nat) (r : Reader) (t : TokenType) (h : r.unread = []) :
    whitespaceLoop fuel r t = some { err := none, toks := [], reader := (peek r).2 } := by
  have hc : ¬ ((peek r).1 = 32 ∨ (peek r).1 = 10 ∨ (peek r).1 = 9) := by
    rw [peek_zero r h]; decide
  unfold whitespaceLoop
  simp only [hc, if_false]

theorem numberLoop_at_end (fuel : Nat) (r : Reader) (h : r.unread = []) :
    numberLoop fuel r none = some { err := none, toks := [], reader := (peek r).2 } := by
  have hc : ¬ (numberRune (peek r).1 = true) := by
    rw [peek_zero r h]; decide
  unfold numberLoop
  simp only [hc]
  rfl

theorem stringLoop_at_end (fuel : Nat) (r : Reader) (x : Nat) (h : r.unread = []) :
    ∃ r2, stringLoop fuel r x =
      some { err := some (Err.Wrapf Err.EOF "str:"), toks := [], reader := r2 } := by
  have h1 : (peek r).2.unread = [] := by rw [unread_peek]; exact h
  have h3 := (ReadRune_left (peek r).2).2.2 h1
  have hc : (peek r).1 ≠ 34 ∨ x = 92 := Or.inl (by rw [peek_zero r h]; decide)
  unfold stringLoop
  cases fuel with
  | zero =>
    simp only [hc, if_true, h3]
    exact ⟨_, rfl⟩
  | succ fuel =>
    simp only [hc, if_true, h3]
    exact ⟨_, rfl⟩

theorem arrayLoop_at_end (fuel : Nat) (r : Reader) (h : r.unread = []) :
    ∃ r2, arrayLoop (fuel + 2) r =
      some { err := some (Err.New "unknown type"), toks := [], reader := r2 } := by
  rw [arrayLoop_enter_nil _ r h]
  have hy : Yields ((parseWhitespace (r.adv 0) ArrayType).bind fun o => o.andThen fun reader =>
      (parseValue (fuel + 1) reader).bind fun o => o.andThen fun reader =>
      (parseWhitespace reader ArrayType).bind fun o => o.andThen fun reader =>
      (parseComma reader ArrayType).andThen fun reader =>
      (parseWhitespace reader ArrayType).bind fun o => o.andThen fun reader =>
      arrayLoop (fuel + 1) reader) (some (Err.New "unknown type")) ([] ++ []) [] :=
    Yields.bind_andThen
      (yields_no_whitespace (r.adv 0) ArrayType [] (stopsAt_nil _) ((unread_adv_zero r).trans h))
      (fun r1 h1 => Yields.bind_fail (yields_unknown_type fuel r1 [] (by simp) h1))
  obtain ⟨r2, h2, _⟩ := hy
  exact ⟨r2, h2⟩

theorem objectLoop_at_end (fuel : Nat) (r : Reader) (h : r.unread = []) :
    ∃ r2, objectLoop (fuel + 1) r = some { err := some Err.EOF, toks := [], reader := r2 } := by
  rw [objectLoop_enter_nil _ r h]
  have hy : Yields ((parseWhitespace (r.adv 0) ObjectType).bind fun o => o.andThen fun reader =>
      (parseString reader).bind fun o => o.andThen fun reader =>
      (parseWhitespace reader ObjectType).bind fun o => o.andThen fun reader =>
      (parseLiteral reader ObjectType ":").andThen fun reader =>
      (parseWhitespace reader ObjectType).bind fun o => o.andThen fun reader =>
      (parseValue fuel reader).bind fun o => o.andThen fun reader =>
      (parseComma reader ObjectType).andThen fun reader =>
      (parseWhitespace reader ObjectType).bind fun o => o.andThen fun reader =>
      objectLoop fuel reader) (some Err.EOF) ([] ++ []) [] :=
    Yields.bind_andThen
      (yields_no_whitespace (r.adv 0) ObjectType [] (stopsAt_nil _)
        ((unread_adv_zero r).trans h))
      (fun r1 h1 => Yields.bind_fail ⟨r1, by
        unfold parseString
        rw [parseLiteral_nil r1 StringType "\"" h1]
        rfl, h1⟩)
  obtain ⟨r2, h2, _⟩ := hy
  exact ⟨r2, h2⟩

/-- C16: `Parse` is total. On every reader it returns an outcome, and `parseValue` returns
that same outcome with any larger fuel, so the outcome is that of the unbounded recursion.
The recursion is well-founded on the number of unread bytes `n`: `parseValue` returns with
fuel `3 * n + 2`, `parseObject` and `parseArray` with `3 * n + 1`, their loops with
`3 * n + 3`, and the whitespace, number and string loops with `n`; a `parseValue` that
succeeds has read at least one byte, no production moves the reader back, and a read that
does not fail moves it forward. At the end of the source `peek` gives 0, the whitespace and
number loops stop with no error, and the string, array and object loops return an error. -/
theorem C16_parse_total :
    (∀ r : Reader, ∃ o, Parse r = some o) ∧
    (∀ (r : Reader) (fuel : Nat), 3 * r.unread.length + 2 ≤ fuel →
      parseValue fuel r = Parse r) ∧
    (∀ (fuel : Nat) (r : Reader),
      (3 * r.unread.length + 2 ≤ fuel → ∃ o, parseValue fuel r = some o) ∧
      (3 * r.unread.length + 1 ≤ fuel → ∃ o, parseObject fuel r = some o) ∧
      (3 * r.unread.length + 3 ≤ fuel → ∃ o, objectLoop fuel r = some o) ∧
      (3 * r.unread.length + 1 ≤ fuel → ∃ o, parseArray fuel r = some o) ∧
      (3 * r.unread.length + 3 ≤ fuel → ∃ o, arrayLoop fuel r = some o)) ∧
    (∀ (fuel : Nat) (r : Reader), r.unread.length ≤ fuel →
      (∀ t, ∃ o, whitespaceLoop fuel r t = some o) ∧
      (∀ e, ∃ o, numberLoop fuel r e = some o) ∧
      (∀ x, ∃ o, stringLoop fuel r x = some o)) ∧
    (∀ (fuel : Nat) (r : Reader) (o : Out), parseValue fuel r = some o →
      o.reader.unread.length ≤ r.unread.length ∧
      (o.err = none → o.reader.unread.length < r.unread.length)) ∧
    (∀ r : Reader, r.unread ≠ [] →
      (r.ReadRune).2.2.1 = none ∧ (r.ReadRune).2.2.2.unread.length < r.unread.length) ∧
    (∀ r : Reader, r.unread = [] →
      (peek r).1 = 0 ∧
      (∀ fuel t, whitespaceLoop fuel r t =
        some { err := none, toks := [], reader := (peek r).2 }) ∧
      (∀ fuel, numberLoop fuel r none =
        some { err := none, toks := [], reader := (peek r).2 }) ∧
      (∀ fuel x, ∃ r2, stringLoop fuel r x =
        some { err := some (Err.Wrapf Err.EOF "str:"), toks := [], reader := r2 }) ∧
      (∀ fuel, ∃ r2, arrayLoop (fuel + 2) r =
        some { err := some (Err.New "unknown type"), toks := [], reader := r2 }) ∧
      (∀ fuel, ∃ r2, objectLoop (fuel + 1) r =
        some { err := some Err.EOF, toks := [], reader := r2 })) :=
  ⟨Parse_total, Parse_any_fuel, total_all,
    fun fuel r h =>
      ⟨fun t => (whitespaceLoop_total t fuel r h).imp fun _ h => h.1,
       fun e => (numberLoop_total fuel r e h).imp fun _ h => h.1,
       fun x => (stringLoop_total fuel r x h).imp fun _ h => h.1⟩,
    fun fuel r o h => ⟨shrinks_value fuel r o h, parseValue_strict fuel r o h⟩,
    fun r h => (ReadRune_left r).2.1 h,
    fun r h => ⟨peek_zero r h, fun fuel t => whitespaceLoop_at_end fuel r t h,
      fun fuel => numberLoop_at_end fuel r h, fun fuel x => stringLoop_at_end fuel r x h,
      fun fuel => arrayLoop_at_end fuel r h, fun fuel => objectLoop_at_end fuel r h⟩⟩

set_option maxRecDepth 100000 in
/-- C16, at `[1]`, at `[1` and at the empty source: the scan of `[1]` with fuel 20 is that
of `Parse` and has read bytes, the scan of `[1` returns, and at the end of the source `peek`
gives 0 and the array loop returns an error. -/
theorem C16_parse_total_witness :
    parseValue 20 (source "[1]") = Parse (source "[1]") ∧
    ((source "[1]").adv 3).unread.length < (source "[1]").unread.length ∧
    (∃ o, Parse (source "[1") = some o) ∧
    (peek (source "")).1 = 0 ∧
    (∃ r2, arrayLoop 2 (source "") =
      some { err := some (Err.New "unknown type"), toks := [], reader := r2 }) :=
  ⟨C16_parse_total.2.1 (source "[1]") 20 (by decide),
    (C16_parse_total.2.2.2.2.1 4 (source "[1]")
      { err := none,
        toks := tokens ArrayType "[".data ++ tokens NumberType "1".data ++
          tokens ArrayType "]".data,
        reader := (source "[1]").adv 3 } (by decide)).2 rfl,
    C16_parse_total.1 (source "[1"),
    (C16_parse_total.2.2.2.2.2.2 (source "") rfl).1,
    (C16_parse_total.2.2.2.2.2.2 (source "") rfl).2.2.2.2.1 0⟩

theorem colors_eq (t : TokenType) : colors.getD t.toNat [] = escape (colorNumber t) := by
  cases t <;> decide

theorem EncodeRune_percent (r b : Nat) (h : b ∈ EncodeRune r) (hb : b = 37) : r = 37 := by
  unfold EncodeRune at h
  split_ifs at h <;> simp at h <;> omega

theorem doPrintf_copy (fuel x : Nat) (rest : List Nat) (hx : x ≠ 37) :
    doPrintf (fuel + 1) (x :: rest) = (doPrintf fuel rest).map fun out => x :: out := by
  rw [doPrintf.eq_def]
  simp only [hx, ne_eq, not_false_eq_true, if_true]

theorem doPrintf_plain (a : List Nat) (h : ∀ x ∈ a, x ≠ 37) (fuel : Nat) (b : List Nat) :
    doPrintf (fuel + a.length) (a ++ b) = (doPrintf fuel b).map fun out => a ++ out := by
  induction a with
  | nil => simp
  | cons x a ih =>
    have hx : x ≠ 37 := h x (by simp)
    have ha : ∀ y ∈ a, y ≠ 37 := fun y hy => h y (by simp [hy])
    have e : fuel + (x :: a).length = (fuel + a.length) + 1 := by simp [Nat.add_assoc]
    rw [e, List.cons_append, doPrintf_copy _ _ _ hx, ih ha, Option.map_map]
    rfl

theorem Fprintf_plain (a : List Nat) (h : ∀ x ∈ a, x ≠ 37) : Fprintf a = some a := by
  have := doPrintf_plain a h 0 []
  simp only [List.append_nil, Nat.zero_add] at this
  rw [Fprintf, this]
  cases a <;> simp [doPrintf]

theorem escape_plain (t : TokenType) : ∀ x ∈ escape (colorNumber t), x ≠ 37 := by
  cases t <;> decide

theorem printToken_eq (T : Token) : printToken T = some (wrappedCode T) := by
  unfold printToken wrappedCode
  rw [colors_eq]
  by_cases h : T.Rune = 37
  · rw [if_pos h, h]
    have e : EncodeRune 37 = [37] := by decide
    have hl : (escape (colorNumber T.Typ) ++ EncodeRune 37 ++ utf8 "\x1b[0m".data).length =
        5 + (escape (colorNumber T.Typ)).length := by
      rw [e]; simp [escape]; decide
    rw [Fprintf, hl, List.append_assoc, doPrintf_plain _ (escape_plain _)]
    have : doPrintf 5 (EncodeRune 37 ++ utf8 "\x1b[0m".data) =
        some (missingArg 27 ++ [91, 48, 109]) := by decide
    rw [this]
    simp
  · rw [if_neg h]
    have e : utf8 "\x1b[0m".data = [27, 91, 48, 109] := by decide
    rw [e]
    apply Fprintf_plain
    intro x hx
    simp only [List.mem_append] at hx
    rcases hx with (hx | hx) | hx
    · exact escape_plain _ x hx
    · exact fun hb => h (EncodeRune_percent _ _ hx hb)
    · revert x; decide

theorem written_eq (ts : List Token) : written ts = some (ts.flatMap wrappedCode) := by
  induction ts with
  | nil => rfl
  | cons T ts ih =>
    rw [written, printToken_eq, ih]
    rfl

theorem Print_eq (r : Reader) :
    Print r = (Parse r).map fun o => { err := o.err, out := o.toks.flatMap wrappedCode } := by
  unfold Print
  cases Parse r with
  | none => rfl
  | some o => simp only [Option.some_bind, written_eq, Option.map_some']

theorem wrappedCode_eq_iff (T : Token) : wrappedCode T = wrappedSpec T ↔ T.Rune ≠ 37 := by
  obtain ⟨rune, typ⟩ := T
  unfold wrappedCode
  by_cases h : rune = 37
  · subst h
    simp only [if_true, ne_eq, not_true_eq_false, iff_false]
    cases typ <;> decide
  · simp only [h, if_false, ne_eq, not_false_eq_true]

set_option maxRecDepth 100000 in
/-- C15 on the code: `Print` returns the error of `Parse` and writes, for each token in
order, the bytes `wrappedCode` gives. These are the color of the category, the character and
`ESC[0m`, as specified, exactly when the character is not `%`: the token text is passed to
`fmt.Fprintf` as the format, so for a `%` the ESC of the reset sequence is taken as a verb
without operand. On the string `"%"` the scan succeeds and the bytes written are not those
specified, and with the escape sequences deleted they are not the text; on
`{"a":[1,2,null],"b":true}` they are. -/
theorem C15_print_percent :
    (∀ r : Reader, Print r =
      (Parse r).map fun o => { err := o.err, out := o.toks.flatMap wrappedCode }) ∧
    (∀ T : Token, printToken T = some (wrappedCode T)) ∧
    (∀ T : Token, wrappedCode T = wrappedSpec T ↔ T.Rune ≠ 37) ∧
    Print (source "\"%\"") =
      some { err := none,
             out := utf8 "\x1b[33m\"\x1b[0m\x1b[33m%!\x1b(MISSING)[0m\x1b[33m\"\x1b[0m".data } ∧
    (Parse (source "\"%\"")).map (fun o => (o.err, o.toks.flatMap wrappedSpec)) =
      some (none, utf8 "\x1b[33m\"\x1b[0m\x1b[33m%\x1b[0m\x1b[33m\"\x1b[0m".data) ∧
    stripEscapes 100 (utf8 "\x1b[33m\"\x1b[0m\x1b[33m%!\x1b(MISSING)[0m\x1b[33m\"\x1b[0m".data) =
      utf8 "\"%!\x1b(MISSING)[0m\"".data ∧
    (Print (source "\x7b\"a\":[1,2,null],\"b\":true\x7d")).map
        (fun p => (p.err, stripEscapes 1000 p.out)) =
      some (none, utf8 "\x7b\"a\":[1,2,null],\"b\":true\x7d".data) ∧
    (Print (source "\x7b\"a\":[1,2,null],\"b\":true\x7d")).map Printed.out =
      (Parse (source "\x7b\"a\":[1,2,null],\"b\":true\x7d")).map
        (fun o => o.toks.flatMap wrappedSpec) := by
  refine ⟨Print_eq, printToken_eq, wrappedCode_eq_iff, ?_, ?_, ?_, ?_, ?_⟩
  · decide
  · decide
  · decide
  · decide
  · decide

end colorjson
